import Mathlib

/-!
# Data structures: a verification development

Shallow embedding of `src/weighted_graph/Weighted_graph.h` (class `Edge`, class
`Weighted_graph`: the edge matrix, the edge counter, the search tree of edges and
Kruskal's algorithm), of `Double_sentinel_list.h`, `Linked_stack.h`, `Dynamic_queue.h`,
`Leftist_node.h`, `Leftist_heap.h` and `Quadratic_hash_table.h`, together with the
properties proved about them.

Conventions of the embedding

* C++ `int` values are `Int`; the vertex count `N` of a constructed graph is a `Nat`
  (an array of negative length cannot be allocated).
* C++ `double` weights are exact rationals `ℚ`: sums and comparisons are the exact ones.
  A weight that is not a number (NaN) is outside this embedding; the section on IEEE
  doubles embeds `Edge` and the mutators of the graph once more with such weights, and
  agrees with this embedding on weights that are numbers.
* A pointer to an `Edge` is the edge value itself, `nullptr` is `none`.
* A member function that may `throw` returns `Except Exception _`; a mutator returns the
  returned value together with the new state of the object.
* `Exception.h`, `Disjoint_sets.h`, `Binary_search_tree.h` and `Binary_search_node.h` are
  included by the source but are not part of it; what the graph uses of them is modelled
  from the specification and marked as such.
* A heap block is a map from indices to values; a block that the code allocates and
  does not fill holds arbitrary values, which are arguments of the function that
  allocates it. A bounded loop runs for its number of iterations.
-/

namespace Data_structures

/-- Modelled from the spec: `Exception.h` is missing. The exception classes thrown by the
sources; the graph throws `illegal_argument` only. -/
inductive Exception where
  | illegal_argument
  | underflow
  | overflow
  deriving DecidableEq, Repr

/-! ## class Edge (Weighted_graph.h, lines 47-78) -/

/-- The class `Edge`: the two vertices and the weight of the edge. -/
structure Edge where
  v1 : Int
  v2 : Int
  weight : ℚ
  deriving DecidableEq, Repr

namespace Edge

/-- The comparison `operator<` of two edges: by weight. -/
def lt (e e2 : Edge) : Bool := decide (e.weight < e2.weight)

/-- The comparison `operator>` of two edges: by weight. -/
def gt (e e2 : Edge) : Bool := decide (e.weight > e2.weight)

/-- The comparison `operator<=` of two edges: by weight. -/
def le (e e2 : Edge) : Bool := decide (e.weight ≤ e2.weight)

/-- The comparison `operator>=` of two edges: by weight. -/
def ge (e e2 : Edge) : Bool := decide (e.weight ≥ e2.weight)

/-- The comparison `operator==` of two edges: same weight and same vertices. -/
def eq (e e2 : Edge) : Bool :=
  decide (e.weight = e2.weight) && decide (e.v1 = e2.v1) && decide (e.v2 = e2.v2)

/-- The comparison `operator!=` of two edges: by weight only. -/
def ne (e e2 : Edge) : Bool := decide (e.weight ≠ e2.weight)

end Edge

/-! ## The search tree of edges (Binary_search_node.h, Binary_search_tree.h: missing) -/

/-- Modelled from the spec: `Binary_search_node.h` is missing. A pointer to a node of the
search tree: `nil` is `nullptr`, `node l e r` is a node with `left() = l`,
`retrieve() = e` and `right() = r`. -/
inductive Binary_search_node where
  | nil : Binary_search_node
  | node (left : Binary_search_node) (element : Edge) (right : Binary_search_node) :
      Binary_search_node
  deriving DecidableEq, Repr

namespace Binary_search_node

/-- The number of nodes below (and including) a node. -/
def size : Binary_search_node → Nat
  | nil => 0
  | node l _ r => size l + 1 + size r

/-- The recursive in-order traversal, as `Weighted_graph::inorder` (lines 303-309) walks
the tree: left subtree, the node, right subtree. -/
def inorder : Binary_search_node → List Edge
  | nil => []
  | node l e r => inorder l ++ e :: inorder r

/-- Modelled from the spec: `Binary_search_tree::insert` is missing. The Ordered Index
keeps the edges in ascending weight: an edge lighter than the node goes to the left,
a heavier one to the right; how an edge of the same weight is placed is not specified
and is left to the parameter `tie` (left when `tie e x` holds, right otherwise). -/
def insert (tie : Edge → Edge → Bool) (e : Edge) : Binary_search_node → Binary_search_node
  | nil => node nil e nil
  | node l x r =>
    if e.lt x then node (insert tie e l) x r
    else if e.gt x then node l x (insert tie e r)
    else if tie e x then node (insert tie e l) x r
    else node l x (insert tie e r)

/-- The first edge of the in-order traversal of a non-empty tree with root element `x`
and left subtree `l`. -/
def front : Binary_search_node → Edge → Edge
  | nil, x => x
  | node l x _, _ => front l x

/-- The tree without the first node of its in-order traversal. -/
def erase_front : Binary_search_node → Binary_search_node
  | nil => nil
  | node nil _ r => r
  | node (node ll lx lr) x r => node (erase_front (node ll lx lr)) x r

/-- The tree made of the subtrees `l` and `r` of a removed node: a single child
replaces the node, and a node with two children gets the first edge of its right
subtree. -/
def join : Binary_search_node → Binary_search_node → Binary_search_node
  | nil, r => r
  | l, nil => l
  | l, node rl rx rr => node l (front rl rx) (erase_front (node rl rx rr))

/-- Modelled from the spec: `Binary_search_tree::erase` is missing. The Ordered Index
removes the edge it is given; the node that holds the edge is located by the identity of
the edge, and the order of the other edges is kept. -/
def erase (e : Edge) : Binary_search_node → Binary_search_node
  | nil => nil
  | node l x r => if x = e then join l r else node (erase e l) x (erase e r)

end Binary_search_node

/-- Modelled from the spec: `Binary_search_tree.h` is missing. The Ordered Index of the
graph: a search tree given by its root. -/
structure Binary_search_tree where
  root : Binary_search_node
  deriving DecidableEq, Repr

namespace Binary_search_tree

/-- Modelled from the spec: the constructor of the missing class, an empty tree. -/
def empty : Binary_search_tree := ⟨Binary_search_node.nil⟩

/-- Modelled from the spec: `insert(edge)` of the Ordered Index. -/
def insert (tie : Edge → Edge → Bool) (t : Binary_search_tree) (e : Edge) :
    Binary_search_tree :=
  ⟨t.root.insert tie e⟩

/-- Modelled from the spec: `erase(edge)` of the Ordered Index. -/
def erase (t : Binary_search_tree) (e : Edge) : Binary_search_tree :=
  ⟨t.root.erase e⟩

/-- Modelled from the spec: `clear()` of the Ordered Index. -/
def clear (_t : Binary_search_tree) : Binary_search_tree := empty

end Binary_search_tree

/-! ## The disjoint sets (Disjoint_sets.h: missing) -/

/-- Modelled from the spec: `Disjoint_sets.h` is missing. The Union-Find over the
vertices: `find v` names the set that holds `v`, `set_count` is the number of sets and
`total_weight` the accumulated weight of the merging unions. -/
structure Disjoint_sets where
  find : Int → Int
  set_count : Int
  total_weight : ℚ

namespace Disjoint_sets

/-- Modelled from the spec: the Union-Find is constructed with `n` singleton sets. -/
def init (n : Nat) : Disjoint_sets :=
  { find := fun v => v, set_count := n, total_weight := 0 }

/-- Modelled from the spec: `union(u, v, weight)`. When `u` and `v` are in the same set
nothing changes; otherwise the two sets are merged, the weight is added to the
accumulator and the set count decreases by one. -/
def set_union (s : Disjoint_sets) (u v : Int) (w : ℚ) : Disjoint_sets :=
  if s.find u = s.find v then s
  else
    { find := fun x => if s.find x = s.find v then s.find u else s.find x
      set_count := s.set_count - 1
      total_weight := s.total_weight + w }

/-- Modelled from the spec: `set_count()`, the number of sets. -/
def disjoint_sets (s : Disjoint_sets) : Int := s.set_count

/-- Modelled from the spec: `total_weight()`, the weight accumulator. -/
def get_weight (s : Disjoint_sets) : ℚ := s.total_weight

end Disjoint_sets

/-! ## class Weighted_graph (Weighted_graph.h, lines 80-355) -/

/-- The member variables of `Weighted_graph`: the number of vertices `N`, the counter
`edge_counter`, the matrix `edges` of pointers to edges and the search tree `tree`. -/
structure Weighted_graph where
  N : Nat
  edge_counter : Int
  edges : Int → Int → Option Edge
  tree : Binary_search_tree

namespace Weighted_graph

/-- The constructor `Weighted_graph(int n)` (lines 140-150): it fills the matrix with
`nullptr` and sets `N`; `tree` is default-constructed. It does not assign
`edge_counter`, whose value is whatever the storage of the object held: that value is
the parameter `c0`. -/
def construct (n : Nat) (c0 : Int) : Weighted_graph :=
  { N := n, edge_counter := c0, edges := fun _ _ => none, tree := Binary_search_tree.empty }

/-- The accessor `edge_count()` (lines 192-194). -/
def edge_count (g : Weighted_graph) : Int := g.edge_counter

/-- The accessor `degree(int i)` (lines 177-190): the loop over `j` counts the columns
with `edges[i][j]` or `edges[j][i]` set. -/
def degree (g : Weighted_graph) (i : Int) : Except Exception Int :=
  if i < 0 ∨ i > (g.N : Int) - 1 then .error Exception.illegal_argument
  else
    .ok ((List.range g.N).foldl
      (fun degree j =>
        if g.edges i (j : Int) ≠ none ∨ g.edges (j : Int) i ≠ none then degree + 1
        else degree) 0)

/-- The last statements of `erase_edge` (lines 278-286): the edge `e = edges[i][j]` is
erased from the tree, its matrix entry is set to `nullptr` and the counter is
decremented. -/
def remove_edge (g : Weighted_graph) (i j : Int) (e : Edge) : Weighted_graph :=
  { g with
    tree := g.tree.erase e
    edges := fun a b => if a = i ∧ b = j then none else g.edges a b
    edge_counter := g.edge_counter - 1 }

/-- The mutator `erase_edge(int i, int j)` (lines 259-288). -/
def erase_edge (g : Weighted_graph) (i j : Int) : Except Exception (Bool × Weighted_graph) :=
  if i < 0 ∨ i > (g.N : Int) - 1 ∨ j < 0 ∨ j > (g.N : Int) - 1 then
    .error Exception.illegal_argument
  else
    let (i, j) := if i > j then (j, i) else (i, j)
    match g.edges i j with
    | none => .ok (false, g)
    | some e => .ok (true, remove_edge g i j e)

/-- The last statements of `insert_edge` (lines 250-255): the new edge is stored in the
matrix and in the tree and the counter is incremented. -/
def store_edge (tie : Edge → Edge → Bool) (g : Weighted_graph) (i j : Int) (d : ℚ) :
    Weighted_graph :=
  let e : Edge := ⟨i, j, d⟩
  { g with
    edges := fun a b => if a = i ∧ b = j then some e else g.edges a b
    tree := g.tree.insert tie e
    edge_counter := g.edge_counter + 1 }

/-- The mutator `insert_edge(int i, int j, double d)` (lines 222-257). The parameter
`tie` is the tie rule of the search tree. -/
def insert_edge (tie : Edge → Edge → Bool) (g : Weighted_graph) (i j : Int) (d : ℚ) :
    Except Exception (Bool × Weighted_graph) :=
  if i < 0 ∨ i > (g.N : Int) - 1 ∨ j < 0 ∨ j > (g.N : Int) - 1 ∨ d < 0 then
    .error Exception.illegal_argument
  else if i = j then .ok (false, g)
  else
    let (i, j) := if i > j then (j, i) else (i, j)
    match g.edges i j with
    | some e0 =>
      if e0.weight = d then .ok (true, g)
      else
        match erase_edge g i j with
        | .error ex => .error ex
        | .ok (_, g1) => .ok (true, store_edge tie g1 i j d)
    | none => .ok (true, store_edge tie g i j d)

/-- The mutator `clear_edges()` (lines 291-301): every entry of the `N` by `N` matrix
is set to `nullptr`, the tree is cleared and the counter is reset. -/
def clear_edges (g : Weighted_graph) : Weighted_graph :=
  { g with
    edges := fun a b =>
      if 0 ≤ a ∧ a < (g.N : Int) ∧ 0 ≤ b ∧ b < (g.N : Int) then none else g.edges a b
    tree := g.tree.clear
    edge_counter := 0 }

/-! ### minimum_spanning_tree (lines 313-355) -/

/-- The termination measure of the traversal loop: twice the nodes below `node` plus,
for every node on the stack, itself and twice the nodes of its right subtree. -/
def loop_measure (s : List (Binary_search_node × Edge × Binary_search_node))
    (node : Binary_search_node) : Nat :=
  2 * node.size + (s.map (fun n => 2 * n.2.2.size + 1)).sum

/-- The `while` loop of `minimum_spanning_tree` (lines 323-350), one call for each
iteration. The stack `s` holds pointers to nodes that are not null, each given by its
left subtree, its edge and its right subtree; `node` is the current pointer, `set` the
disjoint sets and `edges_tested` the counter. The result is the pair that the function
returns, from inside the loop (line 345) or after it (line 354). -/
def mst_loop (s : List (Binary_search_node × Edge × Binary_search_node))
    (node : Binary_search_node) (set : Disjoint_sets) (edges_tested : Int) : ℚ × Int :=
  match node with
  | Binary_search_node.node l e r => mst_loop ((l, e, r) :: s) l set edges_tested
  | Binary_search_node.nil =>
    match s with
    | [] => (set.get_weight, edges_tested)
    | (_, e, r) :: s1 =>
      let set1 := set.set_union e.v1 e.v2 e.weight
      let edges_tested1 := edges_tested + 1
      if set1.disjoint_sets = 1 then (set1.get_weight, edges_tested1)
      else mst_loop s1 r set1 edges_tested1
termination_by loop_measure s node
decreasing_by
  all_goals simp_wf
  · simp only [loop_measure, Binary_search_node.size, List.map_cons, List.sum_cons]
    omega
  · simp only [loop_measure, Binary_search_node.size, List.map_cons, List.sum_cons]
    omega

/-- The function `minimum_spanning_tree()` (lines 313-355): the disjoint sets over `N`
vertices, the counter at zero, an empty stack, and the loop from the root of the tree. -/
def minimum_spanning_tree (g : Weighted_graph) : ℚ × Int :=
  mst_loop [] g.tree.root (Disjoint_sets.init g.N) 0

end Weighted_graph

/-! ### Reachable states -/

/-- A call of one of the three mutators of the graph. -/
inductive Call where
  | insert_edge (i j : Int) (d : ℚ)
  | erase_edge (i j : Int)
  | clear_edges

namespace Weighted_graph

/-- The state of the graph after a call. A call that throws does so in its first
statement, before any member is assigned, and leaves the object as it was. -/
def after (tie : Edge → Edge → Bool) (g : Weighted_graph) : Call → Weighted_graph
  | Call.insert_edge i j d =>
    match insert_edge tie g i j d with
    | .ok (_, g1) => g1
    | .error _ => g
  | Call.erase_edge i j =>
    match erase_edge g i j with
    | .ok (_, g1) => g1
    | .error _ => g
  | Call.clear_edges => clear_edges g

/-- The states reachable from a newly constructed graph by calls of `insert_edge`,
`erase_edge` and `clear_edges`, those that throw or return `false` included. -/
inductive Reachable (tie : Edge → Edge → Bool) : Weighted_graph → Prop where
  | construct (n : Nat) (c0 : Int) : Reachable tie (construct n c0)
  | step (g : Weighted_graph) (c : Call) : Reachable tie g → Reachable tie (g.after tie c)

/-- The state invariant of the graph: every stored edge sits in its own slot above the
diagonal, inside the matrix, with a weight that is not negative; the tree holds exactly
the stored edges, each once, in ascending weight. -/
structure Inv (g : Weighted_graph) : Prop where
  slot : ∀ i j e, g.edges i j = some e →
    e.v1 = i ∧ e.v2 = j ∧ 0 ≤ i ∧ i < j ∧ j < (g.N : Int) ∧ 0 ≤ e.weight
  mem_tree : ∀ e, e ∈ g.tree.root.inorder ↔ g.edges e.v1 e.v2 = some e
  nodup : g.tree.root.inorder.Nodup
  sorted : g.tree.root.inorder.Pairwise (fun a b => a.weight ≤ b.weight)

end Weighted_graph

/-! ## Notions used to state the properties -/

/-- The edge `e` is stored in the Point Index: some entry of the matrix holds it. -/
def Weighted_graph.has_edge (g : Weighted_graph) (e : Edge) : Prop :=
  ∃ i j, g.edges i j = some e

/-- The vertices `a` and `b` are connected by edges of the list `L`, taken in either
direction. -/
inductive Connected (L : List Edge) : Int → Int → Prop where
  | refl (a : Int) : Connected L a a
  | edge (e : Edge) : e ∈ L → Connected L e.v1 e.v2
  | symm {a b : Int} : Connected L a b → Connected L b a
  | trans {a b c : Int} : Connected L a b → Connected L b c → Connected L a c

/-- The edges of `L` connect all the vertices `0 .. n-1`. -/
def All_connected (n : Nat) (L : List Edge) : Prop :=
  ∀ a b : Int, 0 ≤ a → a < (n : Int) → 0 ≤ b → b < (n : Int) → Connected L a b

/-- The total weight of a list of edges. -/
def weight_sum (L : List Edge) : ℚ := (L.map Edge.weight).sum

/-- The list `F` is a spanning forest of the graph `g`: its edges are edges of the
graph, it has no cycle (no edge of `F` joins two vertices that the other edges of `F`
already connect) and it connects the two ends of every edge of the graph, that is, it
connects whatever the graph connects. When the graph is connected these are its
spanning trees. -/
structure Spanning_forest (g : Weighted_graph) (F : List Edge) : Prop where
  sub : ∀ e ∈ F, g.has_edge e
  acyclic : ∀ e ∈ F, ¬ Connected (F.erase e) e.v1 e.v2
  spanning : ∀ e, g.has_edge e → Connected F e.v1 e.v2

/-- The edges on the stack of the traversal loop that are still to be visited, in the
order of the visit: for every node of the stack, top first, its edge and the edges of
its right subtree. -/
def pending : List (Binary_search_node × Edge × Binary_search_node) → List Edge
  | [] => []
  | (_, e, r) :: s => e :: (r.inorder ++ pending s)

/-- The body of the loop of `minimum_spanning_tree` at the edges of a list, in the order
of the list: the union, the count of the tested edge, and the return as soon as one set
is left. -/
def scan (set : Disjoint_sets) (edges_tested : Int) : List Edge → ℚ × Int
  | [] => (set.get_weight, edges_tested)
  | e :: es =>
    let set1 := set.set_union e.v1 e.v2 e.weight
    let edges_tested1 := edges_tested + 1
    if set1.disjoint_sets = 1 then (set1.get_weight, edges_tested1)
    else scan set1 edges_tested1 es

/-- The disjoint sets after the unions of all the edges of a list, without the check of
the set count. -/
def unite (set : Disjoint_sets) : List Edge → Disjoint_sets
  | [] => set
  | e :: es => unite (set.set_union e.v1 e.v2 e.weight) es

/-- The edges of a list whose union merges two sets, when the unions are made in the
order of the list. -/
def merging (set : Disjoint_sets) : List Edge → List Edge
  | [] => []
  | e :: es =>
    if set.find e.v1 = set.find e.v2 then merging set es
    else e :: merging (set.set_union e.v1 e.v2 e.weight) es

/-- The number of unordered pairs of vertices that have an edge in the Point Index:
the pairs `i < j` below `N` with `edges[i][j]` or `edges[j][i]` set. -/
def Weighted_graph.pair_count (g : Weighted_graph) : Nat :=
  ((List.range g.N).map (fun j =>
    ((List.range j).filter (fun i =>
      (g.edges (i : Int) (j : Int)).isSome || (g.edges (j : Int) (i : Int)).isSome)).length)).sum

/-- The disjoint sets `set` stand for the connectivity of the edges of `P`: two vertices
are in the same set exactly when edges of `P` connect them. -/
def Represents (set : Disjoint_sets) (P : List Edge) : Prop :=
  ∀ a b : Int, set.find a = set.find b ↔ Connected P a b

/-- The set count of `set` is the number of sets that hold the vertices `0 .. n-1`. -/
def Counted (n : Nat) (set : Disjoint_sets) : Prop :=
  set.set_count = (((Finset.range n).image (fun v : Nat => set.find (v : Int))).card : Int)

/-- The two ends of every edge of the list are vertices `0 .. n-1`. -/
def In_range (n : Nat) (L : List Edge) : Prop :=
  ∀ e ∈ L, 0 ≤ e.v1 ∧ e.v1 < (n : Int) ∧ 0 ≤ e.v2 ∧ e.v2 < (n : Int)

/-! ## Example graphs -/

/-- A tie rule of the search tree: an edge goes to the right of an edge of the same
weight. -/
def tie_right : Edge → Edge → Bool := fun _ _ => false

/-- Scenario A of the specification: four vertices and the edges (0,1,1), (1,2,2),
(2,3,3) and (0,3,10), on a graph whose counter was `c0` at construction. -/
def scenario_A (c0 : Int) : Weighted_graph :=
  ((((Weighted_graph.construct 4 c0).after tie_right (Call.insert_edge 0 1 1)).after
    tie_right (Call.insert_edge 1 2 2)).after tie_right (Call.insert_edge 2 3 3)).after
    tie_right (Call.insert_edge 0 3 10)

/-- Scenario B of the specification: four vertices and the edges (0,1,1) and (2,3,2),
on a graph whose counter was `c0` at construction. -/
def scenario_B (c0 : Int) : Weighted_graph :=
  ((Weighted_graph.construct 4 c0).after tie_right (Call.insert_edge 0 1 1)).after
    tie_right (Call.insert_edge 2 3 2)

/-- The graph after the calls `insert_edge(v, x, w)` for the pairs `(x, w)` of a list,
in the order of the list. -/
def Weighted_graph.insert_all (tie : Edge → Edge → Bool) (g : Weighted_graph) (v : Int) :
    List (Int × ℚ) → Weighted_graph
  | [] => g
  | (x, w) :: xs => insert_all tie (g.after tie (Call.insert_edge v x w)) v xs

/-- A star of three edges around the vertex 0 of a graph of four vertices, inserted
into a newly constructed graph whose counter was `c0`. -/
def star_graph (c0 : Int) : Weighted_graph :=
  Weighted_graph.insert_all tie_right (Weighted_graph.construct 4 c0) 0
    [(1, 5), (2, 1), (3, 2)]

/-- The state during a call of `minimum_spanning_tree()` (lines 313-355): the members of
the object the function is called on, and the local variables of the function, which
are the disjoint sets `*set`, the counter `edges_tested`, the stack `s` and the
pointer `node`. -/
structure Mst_state where
  graph : Weighted_graph
  set : Disjoint_sets
  edges_tested : Int
  s : List (Binary_search_node × Edge × Binary_search_node)
  node : Binary_search_node

/-- The statements of `minimum_spanning_tree()` before the loop (lines 314-322): the
disjoint sets are allocated for the `N` of the object, the counter is zero, the stack
is empty and `node` is the root of the tree of the object. -/
def Weighted_graph.mst_begin (g : Weighted_graph) : Mst_state :=
  { graph := g
    set := Disjoint_sets.init g.N
    edges_tested := 0
    s := []
    node := g.tree.root }

/-- The test of the `while` loop and one run of its body (lines 323-350), statement by
statement on the state of the call: the next state, or, when the function returns
(line 345, or line 354 when the test of the loop fails), the pair it returns and the
members of the object at that moment. -/
def Weighted_graph.mst_step (st : Mst_state) : Mst_state ⊕ ((ℚ × Int) × Weighted_graph) :=
  match st.node with
  | Binary_search_node.node l e r => .inl { st with s := (l, e, r) :: st.s, node := l }
  | Binary_search_node.nil =>
    match st.s with
    | [] => .inr ((st.set.get_weight, st.edges_tested), st.graph)
    | (_, e, r) :: s1 =>
      let set1 := st.set.set_union e.v1 e.v2 e.weight
      let edges_tested1 := st.edges_tested + 1
      if set1.disjoint_sets = 1 then .inr ((set1.get_weight, edges_tested1), st.graph)
      else .inl { st with set := set1, edges_tested := edges_tested1, s := s1, node := r }

/-- The run of the loop from a state of the call, step after step, until the function
returns. -/
def Weighted_graph.mst_run (st : Mst_state) : (ℚ × Int) × Weighted_graph :=
  match hstep : Weighted_graph.mst_step st with
  | .inr result => result
  | .inl st1 => Weighted_graph.mst_run st1
termination_by Weighted_graph.loop_measure st.s st.node
decreasing_by
  simp_wf
  unfold Weighted_graph.mst_step at hstep
  split at hstep
  · cases hstep
    rename_i l e r hnode
    simp only [hnode, Weighted_graph.loop_measure, Binary_search_node.size, List.map_cons,
      List.sum_cons]
    omega
  · split at hstep
    · cases hstep
    · rename_i _ hnode _ x e r s1 hs
      dsimp only at hstep
      split at hstep
      · cases hstep
      · cases hstep
        simp only [hnode, hs, Weighted_graph.loop_measure, Binary_search_node.size,
          List.map_cons, List.sum_cons]
        omega

/-- The call `minimum_spanning_tree()` on the object `g`: the pair it returns and the
members of the object after the call. -/
def Weighted_graph.minimum_spanning_tree_call (g : Weighted_graph) :
    (ℚ × Int) × Weighted_graph :=
  Weighted_graph.mst_run (Weighted_graph.mst_begin g)

/-- The graph on the vertices `0 .. n-1` with the edges of `L` has `c` connected
components: some set of `c` vertices has exactly one vertex in each component. -/
def Component_count (n : Nat) (L : List Edge) (c : Int) : Prop :=
  ∃ S : Finset Int, (∀ a ∈ S, 0 ≤ a ∧ a < (n : Int)) ∧
    (∀ a ∈ S, ∀ b ∈ S, Connected L a b → a = b) ∧
    (∀ a : Int, 0 ≤ a → a < (n : Int) → ∃ r ∈ S, Connected L a r) ∧
    c = (S.card : Int)

/-- A graph of four vertices with the edges (0,1,1) and (1,2,2), whose vertex 3 has no
edge, on a graph whose counter was `c0` at construction. -/
def isolated_graph (c0 : Int) : Weighted_graph :=
  ((Weighted_graph.construct 4 c0).after tie_right (Call.insert_edge 0 1 1)).after
    tie_right (Call.insert_edge 1 2 2)

/-! ## class Double_sentinel_list (Double_sentinel_list.h, Double_node.h) -/

/-- The class `Double_sentinel_list`: `nodes` are the elements of the nodes linked
between the two sentinels, from the node after `list_head` to the node before
`list_tail`, and `list_size` is the counter. -/
structure Double_sentinel_list (α : Type) where
  nodes : List α
  list_size : Int

namespace Double_sentinel_list

/-- The constructor (lines 68-75): the two sentinels point to each other and the
size is 0. -/
def construct {α : Type} : Double_sentinel_list α :=
  { nodes := [], list_size := 0 }

/-- The accessor `size()` (lines 115-118). -/
def size {α : Type} (l : Double_sentinel_list α) : Int := l.list_size

/-- The accessor `empty()` (lines 121-124). -/
def empty {α : Type} (l : Double_sentinel_list α) : Bool := decide (l.list_size = 0)

/-- The accessor `front()` (lines 127-133): the element of the node after the head
sentinel; when that node is the tail sentinel the element is the one the sentinel was
constructed with, `Type()`. -/
def front {α : Type} [Inhabited α] (l : Double_sentinel_list α) : Except Exception α :=
  if l.list_size = 0 then .error Exception.underflow
  else .ok (l.nodes.headD default)

/-- The accessor `back()` (lines 136-142). -/
def back {α : Type} [Inhabited α] (l : Double_sentinel_list α) : Except Exception α :=
  if l.list_size = 0 then .error Exception.underflow
  else .ok (l.nodes.getLastD default)

/-- The loop of `count` (lines 162-167) from a node on, with the counter so far. -/
def count_loop {α : Type} [DecidableEq α] (obj : α) : List α → Int → Int
  | [], count => count
  | x :: rest, count => count_loop obj rest (if x = obj then count + 1 else count)

/-- The accessor `count(obj)` (lines 158-169). -/
def count {α : Type} [DecidableEq α] (l : Double_sentinel_list α) (obj : α) : Int :=
  count_loop obj l.nodes 0

/-- The mutator `push_front(obj)` (lines 189-199). -/
def push_front {α : Type} (l : Double_sentinel_list α) (obj : α) : Double_sentinel_list α :=
  { nodes := obj :: l.nodes, list_size := l.list_size + 1 }

/-- The mutator `push_back(obj)` (lines 202-212). -/
def push_back {α : Type} (l : Double_sentinel_list α) (obj : α) : Double_sentinel_list α :=
  { nodes := l.nodes ++ [obj], list_size := l.list_size + 1 }

/-- The mutator `pop_front()` (lines 215-230): the node after the head sentinel is
unlinked and its element returned. (With a size other than 0 and no node between the
sentinels the code goes through a null pointer; the model then returns the element of
the sentinel and leaves the nodes empty.) -/
def pop_front {α : Type} [Inhabited α] (l : Double_sentinel_list α) :
    Except Exception (α × Double_sentinel_list α) :=
  if l.list_size = 0 then .error Exception.underflow
  else .ok (l.nodes.headD default, { nodes := l.nodes.tail, list_size := l.list_size - 1 })

/-- The mutator `pop_back()` (lines 233-248), as `pop_front` at the other end. -/
def pop_back {α : Type} [Inhabited α] (l : Double_sentinel_list α) :
    Except Exception (α × Double_sentinel_list α) :=
  if l.list_size = 0 then .error Exception.underflow
  else .ok (l.nodes.getLastD default,
    { nodes := l.nodes.dropLast, list_size := l.list_size - 1 })

/-- The loop of `erase` (lines 255-271) from a node on: at the first node whose element
is `obj` the node is unlinked and the nodes that remain from here on are returned;
`none` when the tail sentinel is reached without a match. -/
def erase_loop {α : Type} [DecidableEq α] (obj : α) : List α → Option (List α)
  | [] => none
  | x :: rest =>
    if obj = x then some rest
    else
      match erase_loop obj rest with
      | some rest1 => some (x :: rest1)
      | none => none

/-- The mutator `erase(obj)` (lines 251-273): the returned value and the list after the
call. -/
def erase {α : Type} [DecidableEq α] (l : Double_sentinel_list α) (obj : α) :
    Int × Double_sentinel_list α :=
  match erase_loop obj l.nodes with
  | some nodes1 => (1, { nodes := nodes1, list_size := l.list_size - 1 })
  | none => (0, l)

/-- The copy constructor (lines 78-97): the size is initialised with `list.size()` and
then every element of `list`, from the front, is added with `push_back`. -/
def copy {α : Type} (list : Double_sentinel_list α) : Double_sentinel_list α :=
  list.nodes.foldl (fun this x => this.push_back x) { nodes := [], list_size := list.size }

end Double_sentinel_list

/-! ## class Linked_stack (Linked_stack.h) -/

/-- The class `Linked_stack`: `list` is the list of the arrays of eight entries (an
array is the map from its indices to its entries), `itop` the index of the top in the
first array and `stack_size` the number of entries. -/
structure Linked_stack (α : Type) where
  list : Double_sentinel_list (Int → α)
  itop : Int
  stack_size : Int

namespace Linked_stack

/-- The constructor (lines 44-48): an empty list, `stack_size = 0` and `itop = 7`. -/
def construct {α : Type} : Linked_stack α :=
  { list := Double_sentinel_list.construct, itop := 7, stack_size := 0 }

/-- The accessor `empty()` (lines 81-84). -/
def empty {α : Type} (s : Linked_stack α) : Bool := decide (s.stack_size = 0)

/-- The accessor `size()` (lines 87-90). -/
def size {α : Type} (s : Linked_stack α) : Int := s.stack_size

/-- The accessor `list_size()` (lines 93-96). -/
def list_size {α : Type} (s : Linked_stack α) : Int := s.list.size

/-- The array of the node after the head sentinel of the list,
`list.head()->next()->retrieve()`; with no node in the list this is the pointer held by
the tail sentinel, which points to no array: the model reads default entries there. -/
def first_array {α : Type} [Inhabited α] (s : Linked_stack α) : Int → α :=
  s.list.nodes.headD (fun _ => default)

/-- The accessor `top()` (lines 99-104). -/
def top {α : Type} [Inhabited α] (s : Linked_stack α) : Except Exception α :=
  if s.empty then .error Exception.underflow
  else .ok (s.first_array s.itop)

/-- The assignment `p[i] = obj` through the pointer `p` to the array of the first node of
the list: the entry `i` of that array becomes `obj`. -/
def write_first {α : Type} (l : Double_sentinel_list (Int → α)) (i : Int) (obj : α) :
    Double_sentinel_list (Int → α) :=
  match l.nodes with
  | [] => l
  | a :: rest => { l with nodes := (fun k => if k = i then obj else a k) :: rest }

/-- The mutator `push(obj)` (lines 121-135). A new array `new Type[8]` holds default
entries. `list.front()` throws when the size of the list is 0. -/
def push {α : Type} [Inhabited α] (s : Linked_stack α) (obj : α) :
    Except Exception (Linked_stack α) :=
  if s.itop = 7 then
    let list1 := s.list.push_front (fun _ => default)
    match list1.front with
    | .error ex => .error ex
    | .ok _ =>
      .ok { list := write_first list1 0 obj, itop := 0, stack_size := s.stack_size + 1 }
  else
    .ok { list := write_first s.list (s.itop + 1) obj, itop := s.itop + 1,
          stack_size := s.stack_size + 1 }

/-- The mutator `pop()` (lines 137-157): the popped entry and the stack after the
call. -/
def pop {α : Type} [Inhabited α] (s : Linked_stack α) :
    Except Exception (α × Linked_stack α) :=
  if s.empty then .error Exception.underflow
  else
    let temp := s.first_array s.itop
    if s.itop = 0 then
      match s.list.pop_front with
      | .error ex => .error ex
      | .ok (_, list1) => .ok (temp, { list := list1, itop := 7, stack_size := s.stack_size - 1 })
    else
      .ok (temp, { s with itop := s.itop - 1, stack_size := s.stack_size - 1 })

/-- The entries of an array from index `k` down to index 0. -/
def entries_down {α : Type} (a : Int → α) : Nat → List α
  | 0 => [a 0]
  | k + 1 => a ((k : Int) + 1) :: entries_down a k

/-- The entries stored in the stack, from the top: the entries `itop .. 0` of the first
array, then the entries `7 .. 0` of each of the other arrays in the order of the
list. -/
def entries {α : Type} (s : Linked_stack α) : List α :=
  match s.list.nodes with
  | [] => []
  | a :: rest => entries_down a s.itop.toNat ++ rest.flatMap (fun b => entries_down b 7)

/-- The stacks reachable from a new stack by calls of `push` and `pop` that return. -/
inductive Reachable {α : Type} [Inhabited α] : Linked_stack α → Prop where
  | construct : Reachable construct
  | push (s s1 : Linked_stack α) (x : α) : Reachable s → push s x = .ok s1 → Reachable s1
  | pop (s s1 : Linked_stack α) (x : α) : Reachable s → pop s = .ok (x, s1) → Reachable s1

/-- The state invariant of the stack: the size of the list is its number of arrays,
`itop` is an index of an array, every array but the first is full, and `itop` is 7
when there is no array. -/
structure Inv {α : Type} (s : Linked_stack α) : Prop where
  list_size : s.list.list_size = (s.list.nodes.length : Int)
  itop_lo : 0 ≤ s.itop
  itop_hi : s.itop ≤ 7
  size : s.stack_size = 8 * (s.list.nodes.length : Int) - 7 + s.itop
  no_array : s.list.nodes = [] → s.itop = 7

end Linked_stack

/-! ## Dynamic_queue (src/queue/Dynamic_queue.h)

The queue is a circular buffer in a heap block. The block `array` points to is a map
from indices to values; `array_capacity` is the capacity the queue believes the block
to have. A block obtained from `new Type[...]` holds arbitrary values, so the
constructor and `enqueue` take the contents of the new block as an argument. -/

/-- The member variables of `Dynamic_queue<Type>`. -/
structure Dynamic_queue (α : Type) where
  initial_capacity : Int
  array_capacity : Int
  array : Int → α
  ihead : Int
  itail : Int
  entry_count : Int

namespace Dynamic_queue

/-- The number of iterations of `for (int i = lo; i < hi; ++i)`. -/
def iterations (lo hi : Int) : Nat := (hi - lo).toNat

/-- The loop `for (i = lo; ...; ++i) temp_array[i] = array[i - shift];` run for `n`
iterations from `i`: the contents of `temp_array` after it. -/
def copy_loop {α : Type} (array : Int → α) (shift : Int) :
    (Int → α) → Int → Nat → (Int → α)
  | temp_array, _, 0 => temp_array
  | temp_array, i, n + 1 =>
    copy_loop array shift (Function.update temp_array i (array (i - shift))) (i + 1) n

/-- The constructor `Dynamic_queue(int n)`; `array` is the content of the new block. -/
def construct {α : Type} (n : Int) (array : Int → α) : Dynamic_queue α :=
  { initial_capacity := max n 1
    array_capacity := max n 1
    array := array
    ihead := 0
    itail := max n 1 - 1
    entry_count := 0 }

/-- The member function `size()`. -/
def size {α : Type} (q : Dynamic_queue α) : Int := q.entry_count

/-- The member function `capacity()`. -/
def capacity {α : Type} (q : Dynamic_queue α) : Int := q.array_capacity

/-- The member function `empty()`. -/
def empty {α : Type} (q : Dynamic_queue α) : Bool := q.entry_count = 0

/-- The member function `head()`. -/
def head {α : Type} (q : Dynamic_queue α) : Except Exception α :=
  if q.entry_count = 0 then .error Exception.underflow else .ok (q.array q.ihead)

/-- The first statement of `enqueue`: when the array is full, the entries are copied
into the block `temp_array` of twice the capacity, which replaces `array`. -/
def grow {α : Type} (q : Dynamic_queue α) (temp_array : Int → α) : Dynamic_queue α :=
  if q.entry_count = q.array_capacity then
    if q.ihead = 0 then
      { q with
        array := copy_loop q.array 0 temp_array 0 (iterations 0 (q.array_capacity * 2))
        array_capacity := q.array_capacity * 2 }
    else
      let temp1 := copy_loop q.array q.array_capacity temp_array
        (q.ihead + q.array_capacity)
        (iterations (q.ihead + q.array_capacity) (q.array_capacity * 2))
      let temp2 := copy_loop q.array 0 temp1 0 (iterations 0 (q.itail + 1))
      { q with
        array := temp2
        ihead := q.ihead + q.array_capacity
        array_capacity := q.array_capacity * 2 }
  else q

/-- The member function `enqueue(obj)`; `temp_array` is the content of the block that
`new Type[array_capacity * 2]` returns when the array is full. -/
def enqueue {α : Type} (q : Dynamic_queue α) (obj : α) (temp_array : Int → α) :
    Dynamic_queue α :=
  let q1 := grow q temp_array
  if q1.itail ≠ q1.array_capacity - 1 then
    { q1 with
      array := Function.update q1.array (q1.itail + 1) obj
      itail := q1.itail + 1
      entry_count := q1.entry_count + 1 }
  else
    { q1 with
      array := Function.update q1.array 0 obj
      itail := 0
      entry_count := q1.entry_count + 1 }

/-- The member function `dequeue()`. In the halving branch the entries are copied into
the local block `temp_array`, which is never assigned to `array`; the variable `k`
counts the copies of the two loops, and only `itail` and `array_capacity` change. -/
def dequeue {α : Type} (q : Dynamic_queue α) : Except Exception (α × Dynamic_queue α) :=
  if q.empty then .error Exception.underflow
  else
    let temp := q.array q.ihead
    let ihead := if q.ihead ≠ q.array_capacity - 1 then q.ihead + 1 else 0
    let entry_count := q.entry_count - 1
    if entry_count ≤ q.array_capacity / 4 ∧ q.array_capacity > q.initial_capacity then
      let k1 : Int := iterations ihead q.array_capacity
      let k : Int := if q.itail < ihead then k1 + iterations 0 (q.itail + 1) else k1
      .ok (temp, { q with
        ihead := ihead
        entry_count := entry_count
        itail := k
        array_capacity := q.array_capacity / 2 })
    else
      .ok (temp, { q with ihead := ihead, entry_count := entry_count })

/-- A call of `enqueue` (with the content of the block a doubling would allocate) or of
`dequeue`. -/
inductive Call (α : Type) where
  | enqueue (obj : α) (temp_array : Int → α)
  | dequeue

/-- The values returned by the `dequeue` calls of a sequence of calls, in order, and
the queue after the sequence; a `dequeue` that throws leaves the queue as it is. -/
def run {α : Type} : Dynamic_queue α → List (Call α) →
    List (Except Exception α) × Dynamic_queue α
  | q, [] => ([], q)
  | q, Call.enqueue obj temp_array :: rest => run (enqueue q obj temp_array) rest
  | q, Call.dequeue :: rest =>
    match dequeue q with
    | .error ex => ((.error ex :: (run q rest).1), (run q rest).2)
    | .ok (x, q1) => ((.ok x :: (run q1 rest).1), (run q1 rest).2)

/-- The calls `enqueue(1)`, `enqueue(2)`, `enqueue(3)`, `dequeue()`, `enqueue(4)` ...
`enqueue(7)`, `dequeue()`, `enqueue(8)`, five times `dequeue()`, `enqueue(9)` and
`dequeue()`; `fresh` is the content of every block a doubling allocates. -/
def fifo_calls (fresh : Int → Int) : List (Call Int) :=
  [.enqueue 1 fresh, .enqueue 2 fresh, .enqueue 3 fresh, .dequeue,
   .enqueue 4 fresh, .enqueue 5 fresh, .enqueue 6 fresh, .enqueue 7 fresh, .dequeue,
   .enqueue 8 fresh, .dequeue, .dequeue, .dequeue, .dequeue, .dequeue,
   .enqueue 9 fresh, .dequeue]

end Dynamic_queue

/-! ## Leftist_node (src/leftist_heap/Leftist_node.h)

A pointer to a node is the tree below it: `nil` is `nullptr`. -/

/-- The class `Leftist_node<Type>` behind a pointer: `nullptr`, or a node with its
member variables. -/
inductive Leftist_node (α : Type) where
  | nil : Leftist_node α
  | node (element : α) (left_tree right_tree : Leftist_node α)
      (heap_null_path_length : Int) : Leftist_node α

namespace Leftist_node

/-- The constructor `Leftist_node(obj)`. -/
def construct {α : Type} (obj : α) : Leftist_node α := node obj nil nil 0

/-- The member function `retrieve()`; on `nullptr` the C++ code dereferences a null
pointer, which is given the default value here. -/
def retrieve {α : Type} [Inhabited α] : Leftist_node α → α
  | nil => default
  | node element _ _ _ => element

/-- The member function `empty()`. -/
def empty {α : Type} : Leftist_node α → Bool
  | nil => true
  | node _ _ _ _ => false

/-- The member function `left()`. -/
def left {α : Type} : Leftist_node α → Leftist_node α
  | nil => nil
  | node _ left_tree _ _ => left_tree

/-- The member function `right()`. -/
def right {α : Type} : Leftist_node α → Leftist_node α
  | nil => nil
  | node _ _ right_tree _ => right_tree

/-- The member function `null_path_length()`. -/
def null_path_length {α : Type} : Leftist_node α → Int
  | nil => -1
  | node _ _ _ heap_null_path_length => heap_null_path_length

/-- The number of nodes of a tree. -/
def nodes {α : Type} : Leftist_node α → Nat
  | nil => 0
  | node _ left_tree right_tree _ => nodes left_tree + nodes right_tree + 1

/-- The measure that decreases along the recursive calls of `push`: the nodes of the
two trees, and whether the next call exchanges them. -/
def push_measure {α : Type} [LinearOrder α] : Leftist_node α → Leftist_node α → Nat
  | node e l r _, node e1 l1 r1 _ =>
    2 * (nodes l + nodes r + 1 + (nodes l1 + nodes r1 + 1)) + (if e ≥ e1 then 0 else 1)
  | new_heap, ptrtothis => 2 * (nodes new_heap + nodes ptrtothis)

/-- The member function `push(new_heap, ptrtothis)`: the value of `ptrtothis` after
the call. -/
def push {α : Type} [LinearOrder α] :
    Leftist_node α → Leftist_node α → Leftist_node α
  | nil, ptrtothis => ptrtothis
  | node e l r p, nil => node e l r p
  | node e l r p, node e1 l1 r1 p1 =>
    if h : e ≥ e1 then
      let right_tree := push (node e l r p) r1
      let npl := min (null_path_length l1) (null_path_length right_tree) + 1
      if null_path_length l1 < null_path_length right_tree then node e1 right_tree l1 npl
      else node e1 l1 right_tree npl
    else push (node e1 l1 r1 p1) (node e l r p)
termination_by new_heap ptrtothis => push_measure new_heap ptrtothis
decreasing_by
  · cases r1 with
    | nil =>
      simp only [push_measure, nodes]
      omega
    | node e2 l2 r2 p2 =>
      simp only [push_measure, nodes]
      split <;> omega
  · have h1 : e1 ≥ e := le_of_lt (not_le.mp h)
    simp only [push_measure, nodes, if_pos h1, if_neg h]
    omega

/-- The elements stored in a tree, with their multiplicities. -/
def elements {α : Type} : Leftist_node α → Multiset α
  | nil => 0
  | node element left_tree right_tree _ =>
    element ::ₘ (elements left_tree + elements right_tree)

/-- The heap order: the element of every node is at most every element below it. -/
def Heap_ordered {α : Type} [LinearOrder α] : Leftist_node α → Prop
  | nil => True
  | node element left_tree right_tree _ =>
    (∀ y ∈ elements left_tree, element ≤ y) ∧ (∀ y ∈ elements right_tree, element ≤ y) ∧
      Heap_ordered left_tree ∧ Heap_ordered right_tree

/-- The null-path length of a tree, computed from its shape: `-1` for `nullptr`, and
one more than the smaller null-path length of the two subtrees for a node. -/
def npl {α : Type} : Leftist_node α → Int
  | nil => -1
  | node _ left_tree right_tree _ => 1 + min (npl left_tree) (npl right_tree)

/-- The nodes of a tree: the tree itself when it is not `nullptr`, and the nodes of its
two subtrees. -/
def subtrees {α : Type} : Leftist_node α → List (Leftist_node α)
  | nil => []
  | node element left_tree right_tree heap_null_path_length =>
    node element left_tree right_tree heap_null_path_length ::
      (subtrees left_tree ++ subtrees right_tree)

/-- The leftist property with the stored null-path lengths: at every node the value
`null_path_length()` of the right subtree is at most that of the left subtree, and the
stored `heap_null_path_length` is one more than the smaller of the two. -/
def Leftist {α : Type} : Leftist_node α → Prop
  | nil => True
  | node _ left_tree right_tree heap_null_path_length =>
    null_path_length right_tree ≤ null_path_length left_tree ∧
      heap_null_path_length =
        1 + min (null_path_length left_tree) (null_path_length right_tree) ∧
      Leftist left_tree ∧ Leftist right_tree

end Leftist_node

/-! ## Leftist_heap (src/leftist_heap/Leftist_heap.h) -/

/-- The member variables of `Leftist_heap<Type>`. -/
structure Leftist_heap (α : Type) where
  root_node : Leftist_node α
  heap_size : Int

namespace Leftist_heap

/-- The constructor `Leftist_heap()`. -/
def construct {α : Type} : Leftist_heap α := { root_node := .nil, heap_size := 0 }

/-- The member function `empty()`. -/
def empty {α : Type} (h : Leftist_heap α) : Bool := h.heap_size = 0

/-- The member function `size()`. -/
def size {α : Type} (h : Leftist_heap α) : Int := h.heap_size

/-- The member function `top()`. -/
def top {α : Type} [Inhabited α] (h : Leftist_heap α) : Except Exception α :=
  if h.empty then .error Exception.underflow else .ok h.root_node.retrieve

/-- The member function `push(obj)`. -/
def push {α : Type} [LinearOrder α] (h : Leftist_heap α) (obj : α) : Leftist_heap α :=
  { root_node := Leftist_node.push (Leftist_node.construct obj) h.root_node
    heap_size := h.heap_size + 1 }

/-- The member function `pop()`: the value returned and the heap after the call. -/
def pop {α : Type} [LinearOrder α] [Inhabited α] (h : Leftist_heap α) :
    Except Exception (α × Leftist_heap α) :=
  if h.empty then .error Exception.underflow
  else
    let temp := h.root_node
    let root_node := Leftist_node.push temp.right temp.left
    .ok (temp.retrieve, { root_node := root_node, heap_size := h.heap_size - 1 })

/-- The heaps built from an empty heap by a sequence of `p` calls of `push` and `q`
calls of `pop` that return. -/
inductive Built {α : Type} [LinearOrder α] [Inhabited α] :
    Nat → Nat → Leftist_heap α → Prop where
  | construct : Built 0 0 construct
  | push (p q : Nat) (h : Leftist_heap α) (x : α) : Built p q h → Built (p + 1) q (push h x)
  | pop (p q : Nat) (h h1 : Leftist_heap α) (x : α) :
      Built p q h → pop h = .ok (x, h1) → Built p (q + 1) h1

/-- The values returned by at most `n` successive calls of `pop`, stopping at the
first call that throws. -/
def pop_all {α : Type} [LinearOrder α] [Inhabited α] : Nat → Leftist_heap α → List α
  | 0, _ => []
  | n + 1, h =>
    match pop h with
    | .error _ => []
    | .ok (x, h1) => x :: pop_all n h1

/-- The state invariant of the heap: the tree is heap ordered and `heap_size` is the
number of elements stored. -/
structure Inv {α : Type} [LinearOrder α] (h : Leftist_heap α) : Prop where
  ordered : h.root_node.Heap_ordered
  size : h.heap_size = (Multiset.card h.root_node.elements : Int)

end Leftist_heap

namespace Leftist_heap

/-- The heap after `push(3)` and `push(1)` on an empty heap of integers. -/
def heap_example : Leftist_heap Int := push (push construct 3) 1

end Leftist_heap

/-! ## Quadratic_hash_table (src/hash_table/Quadratic_hash_table.h)

The table is instantiated at `Type = int`. The arrays `array` and `occupied` are maps
from indices to values, read and written at indices in `[0, array_size)` only. The
constructor assigns neither `erasedcount` nor the entries of `array`, so their first
values are arguments of `construct`. The `int` variables are integers without a
bound: for `power` at most 30 no value of the code leaves the range of `int`. -/

/-- The enumeration `bin_state_t`. -/
inductive bin_state_t where
  | UNOCCUPIED
  | OCCUPIED
  | ERASED
  deriving DecidableEq, Repr

/-- The member variables of `Quadratic_hash_table<int>`. -/
structure Quadratic_hash_table where
  count : Int
  erasedcount : Int
  power : Int
  array_size : Int
  mask : Int
  array : Int → Int
  occupied : Int → bin_state_t

namespace Quadratic_hash_table

/-- The loop `for (i = 0; i < array_size; ++i) occupied[i] = UNOCCUPIED;`. -/
def set_unoccupied (array_size : Int) (occupied : Int → bin_state_t) : Int → bin_state_t :=
  fun i => if 0 ≤ i ∧ i < array_size then bin_state_t.UNOCCUPIED else occupied i

/-- The constructor `Quadratic_hash_table(m)`; `erasedcount`, `array` and `occupied`
are what the storage of the new object and of its two arrays holds. -/
def construct (m : Nat) (erasedcount : Int) (array : Int → Int)
    (occupied : Int → bin_state_t) : Quadratic_hash_table :=
  { count := 0
    erasedcount := erasedcount
    power := m
    array_size := 2 ^ m
    mask := 2 ^ m - 1
    array := array
    occupied := set_unoccupied (2 ^ m) occupied }

/-- The member function `size()`. -/
def size (t : Quadratic_hash_table) : Int := t.count

/-- The member function `capacity()`. -/
def capacity (t : Quadratic_hash_table) : Int := t.array_size

/-- The member function `empty()`. -/
def empty (t : Quadratic_hash_table) : Bool := t.size = 0

/-- The statements `index = index % capacity(); if (index < 0) index += capacity();`,
with the remainder of C++, which has the sign of the dividend. -/
def wrap (capacity index : Int) : Int :=
  if Int.tmod index capacity < 0 then Int.tmod index capacity + capacity
  else Int.tmod index capacity

/-- The member function `hash(obj)`. -/
def hash (t : Quadratic_hash_table) (obj : Int) : Int := wrap t.capacity obj

/-- The end of the body of the four probing loops, `index += ++i;` followed by the
reduction modulo the capacity; `i` is the value after the increment. -/
def next (capacity index i : Int) : Int := wrap capacity (index + i)

/-- The loop `while (i < array_size)` that `member`, `insert` (twice) and `erase` run,
with `n` iterations left: its body returns when `hit(index)` holds and advances
`index` and `i` otherwise. The value is the index at which the loop is left through
its `if`, or `none` when the loop runs to its end. -/
def probe (capacity : Int) (hit : Int → Bool) : Nat → Int → Int → Option Int
  | 0, _, _ => none
  | n + 1, index, i =>
    if hit index then some index else probe capacity hit n (next capacity index (i + 1)) (i + 1)

/-- The member function `member(input)`. -/
def member (t : Quadratic_hash_table) (input : Int) : Bool :=
  (probe t.capacity
    (fun index => t.occupied index = bin_state_t.OCCUPIED && t.array index = input)
    t.array_size.toNat (t.hash input) 0).isSome

/-- The member function `bin(i)`. -/
def bin (t : Quadratic_hash_table) (i : Int) : Int := t.array i

/-- The member function `insert(obj)`. -/
def insert (t : Quadratic_hash_table) (obj : Int) : Except Exception Quadratic_hash_table :=
  if t.count = t.capacity then .error Exception.overflow
  else
    match probe t.capacity (fun index => t.array index = obj) t.array_size.toNat
        (t.hash obj) 0 with
    | some index =>
      let t1 :=
        if t.occupied index = bin_state_t.ERASED then
          { t with erasedcount := t.erasedcount - 1, count := t.count + 1 }
        else t
      let t2 :=
        if t1.occupied index = bin_state_t.UNOCCUPIED then { t1 with count := t1.count + 1 }
        else t1
      .ok { t2 with occupied := Function.update t2.occupied index bin_state_t.OCCUPIED }
    | none =>
      match probe t.capacity (fun index => t.occupied index ≠ bin_state_t.OCCUPIED)
          t.array_size.toNat (t.hash obj) 0 with
      | some index =>
        let t1 :=
          if t.occupied index = bin_state_t.ERASED then
            { t with erasedcount := t.erasedcount - 1 }
          else t
        .ok { t1 with
          array := Function.update t1.array index obj
          occupied := Function.update t1.occupied index bin_state_t.OCCUPIED
          count := t1.count + 1 }
      | none => .ok t

/-- The member function `erase(obj)`: the value returned and the table after the
call. -/
def erase (t : Quadratic_hash_table) (obj : Int) : Bool × Quadratic_hash_table :=
  match probe t.capacity
      (fun index => t.occupied index = bin_state_t.OCCUPIED && t.array index = obj)
      t.array_size.toNat (t.hash obj) 0 with
  | some index =>
    (true, { t with
      occupied := Function.update t.occupied index bin_state_t.ERASED
      erasedcount := t.erasedcount + 1
      count := t.count - 1 })
  | none => (false, t)

/-- The member function `clear()`. -/
def clear (t : Quadratic_hash_table) : Quadratic_hash_table :=
  { t with count := 0, erasedcount := 0, occupied := set_unoccupied t.array_size t.occupied }

/-- The tables reachable from a new table by calls of `insert` that return, `erase`
and `clear`. -/
inductive Reachable : Quadratic_hash_table → Prop where
  | construct (m : Nat) (erasedcount : Int) (array : Int → Int)
      (occupied : Int → bin_state_t) : Reachable (construct m erasedcount array occupied)
  | insert (t t1 : Quadratic_hash_table) (obj : Int) :
      Reachable t → insert t obj = .ok t1 → Reachable t1
  | erase (t : Quadratic_hash_table) (obj : Int) : Reachable t → Reachable (erase t obj).2
  | clear (t : Quadratic_hash_table) : Reachable t → Reachable (clear t)

/-- The index of the probe sequence from the bin `h` after `k` steps: `index_0 = h`
and `index_(k+1) = (index_k + k + 1) mod capacity`. -/
def index_at (capacity h : Int) : Nat → Int
  | 0 => h
  | k + 1 => next capacity (index_at capacity h k) ((k : Int) + 1)

/-- The triangular number `1 + 2 + ... + k`. -/
def triangle : Nat → Nat
  | 0 => 0
  | k + 1 => triangle k + (k + 1)

/-- The bins of the table marked `OCCUPIED`. -/
def occupied_bins (t : Quadratic_hash_table) : Finset Int :=
  (Finset.Ico 0 t.array_size).filter (fun b => t.occupied b = bin_state_t.OCCUPIED)

/-- The state invariant of the table: the capacity is a power of two, `count` is the
number of bins marked `OCCUPIED`, and an occupied bin is the first bin of the probe
sequence of its value that holds this value. -/
structure Inv (t : Quadratic_hash_table) : Prop where
  pow : ∃ m : Nat, t.array_size = 2 ^ m
  count : t.count = (t.occupied_bins.card : Int)
  first : ∀ b, 0 ≤ b → b < t.array_size → t.occupied b = bin_state_t.OCCUPIED →
    probe t.capacity (fun index => t.array index = t.array b) t.array_size.toNat
      (t.hash (t.array b)) 0 = some b

/-- The value `y` is stored: a bin marked `OCCUPIED` holds it. -/
def Stored (t : Quadratic_hash_table) (y : Int) : Prop :=
  ∃ b, 0 ≤ b ∧ b < t.array_size ∧ t.occupied b = bin_state_t.OCCUPIED ∧ t.array b = y

/-- The table of capacity 4 with zeros in its array, after `insert(5)` and
`insert(9)`, which hash to the same bin. -/
def table_example : Quadratic_hash_table :=
  match insert (construct 2 0 (fun _ => 0) (fun _ => bin_state_t.UNOCCUPIED)) 5 with
  | .error _ => construct 2 0 (fun _ => 0) (fun _ => bin_state_t.UNOCCUPIED)
  | .ok t1 =>
    match insert t1 9 with
    | .error _ => t1
    | .ok t2 => t2

end Quadratic_hash_table

/-- The sum of `degree(v)` over the vertices `v` in `[0, N)`; a call that throws adds
nothing. -/
def Weighted_graph.degree_sum (g : Weighted_graph) : Int :=
  ((List.range g.N).map (fun v : Nat =>
    match Weighted_graph.degree g (v : Int) with
    | .ok d => d
    | .error _ => 0)).sum

/-! ## The traversal of minimum_spanning_tree without the early return -/

namespace Binary_search_node

/-- Modelled from the spec: `retrieve()` of a node of the search tree; `none` stands for
the dereference of `nullptr`. -/
def retrieve : Binary_search_node → Option Edge
  | nil => none
  | node _ e _ => some e

/-- The nodes of a tree in the order of the recursive in-order traversal
(`Weighted_graph::inorder`, lines 303-309): the nodes of the left subtree, the node, the
nodes of the right subtree. A node is given by the tree below it. -/
def inorder_nodes : Binary_search_node → List Binary_search_node
  | nil => []
  | node l e r => inorder_nodes l ++ node l e r :: inorder_nodes r

/-- All the nodes of a tree: the root, the nodes of the left subtree and the nodes of
the right subtree. -/
def nodes : Binary_search_node → List Binary_search_node
  | nil => []
  | node l e r => node l e r :: (nodes l ++ nodes r)

/-- A tree ordered by weight: at every node the edges of the left subtree are not
heavier and the edges of the right subtree are not lighter than the edge of the node. -/
def Ordered : Binary_search_node → Prop
  | nil => True
  | node l e r =>
    (∀ x ∈ inorder l, x.weight ≤ e.weight) ∧ (∀ x ∈ inorder r, e.weight ≤ x.weight) ∧
      Ordered l ∧ Ordered r

end Binary_search_node

namespace Weighted_graph

/-- The `while` loop of `minimum_spanning_tree` (lines 323-350) without the test of the
set count (lines 341-346): every iteration is the one of `mst_loop`, except that the
loop is never left from inside. `visited` records the nodes popped from the stack, in
the order of the pops; the result is the pair of line 354 and the nodes visited. -/
def mst_loop_without_return (s : List (Binary_search_node × Edge × Binary_search_node))
    (node : Binary_search_node) (set : Disjoint_sets) (edges_tested : Int)
    (visited : List Binary_search_node) : (ℚ × Int) × List Binary_search_node :=
  match node with
  | Binary_search_node.node l e r =>
    mst_loop_without_return ((l, e, r) :: s) l set edges_tested visited
  | Binary_search_node.nil =>
    match s with
    | [] => ((set.get_weight, edges_tested), visited)
    | (l, e, r) :: s1 =>
      mst_loop_without_return s1 r (set.set_union e.v1 e.v2 e.weight) (edges_tested + 1)
        (visited ++ [Binary_search_node.node l e r])
termination_by loop_measure s node
decreasing_by
  all_goals simp_wf
  · simp only [loop_measure, Binary_search_node.size, List.map_cons, List.sum_cons]
    omega
  · simp only [loop_measure, Binary_search_node.size, List.map_cons, List.sum_cons]
    omega

/-- The nodes that the traversal has still to visit from the stack `s`, in the order of
the visit: for every node of the stack, top first, the node and the nodes of its right
subtree. -/
def pending_nodes :
    List (Binary_search_node × Edge × Binary_search_node) → List Binary_search_node
  | [] => []
  | (l, e, r) :: s => Binary_search_node.node l e r :: (r.inorder_nodes ++ pending_nodes s)

end Weighted_graph

/-! ## The weights as IEEE doubles

The embedding of the graph above takes a weight as an exact number. A C++ `double` can
also be infinite or NaN, and on NaN every ordered comparison and `==` are false. This
section embeds `Edge` and the constructor and the three mutators of `Weighted_graph`
once more, statement by statement as above, with weights that can be infinite or NaN.
No arithmetic is done on a weight in these functions, only comparisons. -/

namespace Ieee

/-- A value of the C++ type `double` as far as it is compared: minus infinity, a number
(`-0` and `0` are the same number), plus infinity, or NaN. -/
inductive Double where
  | neg_inf
  | num (q : ℚ)
  | pos_inf
  | nan
  deriving DecidableEq

namespace Double

/-- The comparison `<` of two doubles: false when one of them is NaN. -/
def lt : Double → Double → Bool
  | nan, _ => false
  | _, nan => false
  | neg_inf, neg_inf => false
  | neg_inf, _ => true
  | num _, neg_inf => false
  | num a, num b => decide (a < b)
  | num _, pos_inf => true
  | pos_inf, _ => false

/-- The comparison `==` of two doubles: false when one of them is NaN. -/
def eq : Double → Double → Bool
  | neg_inf, neg_inf => true
  | num a, num b => decide (a = b)
  | pos_inf, pos_inf => true
  | _, _ => false

/-- The comparison `>` of two doubles. -/
def gt (a b : Double) : Bool := lt b a

/-- The comparison `<=` of two doubles: false when one of them is NaN. -/
def le (a b : Double) : Bool := lt a b || eq a b

/-- The comparison `>=` of two doubles: false when one of them is NaN. -/
def ge (a b : Double) : Bool := le b a

/-- The comparison `!=` of two doubles: true when one of them is NaN. -/
def ne (a b : Double) : Bool := !(eq a b)

end Double

/-- The class `Edge` (lines 47-78): the two vertices and the weight of the edge. -/
structure Edge where
  v1 : Int
  v2 : Int
  weight : Double
  deriving DecidableEq

namespace Edge

/-- The comparison `operator<` of two edges: by weight. -/
def lt (e e2 : Edge) : Bool := Double.lt e.weight e2.weight

/-- The comparison `operator>` of two edges: by weight. -/
def gt (e e2 : Edge) : Bool := Double.gt e.weight e2.weight

/-- The comparison `operator<=` of two edges: by weight. -/
def le (e e2 : Edge) : Bool := Double.le e.weight e2.weight

/-- The comparison `operator>=` of two edges: by weight. -/
def ge (e e2 : Edge) : Bool := Double.ge e.weight e2.weight

/-- The comparison `operator==` of two edges: same weight and same vertices. -/
def eq (e e2 : Edge) : Bool :=
  Double.eq e.weight e2.weight && decide (e.v1 = e2.v1) && decide (e.v2 = e2.v2)

/-- The comparison `operator!=` of two edges: by weight only. -/
def ne (e e2 : Edge) : Bool := Double.ne e.weight e2.weight

end Edge

/-- Modelled from the spec: `Binary_search_node.h` is missing. A pointer to a node of the
search tree: `nil` is `nullptr`, `node l e r` is a node with `left() = l`,
`retrieve() = e` and `right() = r`. -/
inductive Binary_search_node where
  | nil : Binary_search_node
  | node (left : Binary_search_node) (element : Edge) (right : Binary_search_node) :
      Binary_search_node
  deriving DecidableEq

namespace Binary_search_node

/-- The recursive in-order traversal, as `Weighted_graph::inorder` (lines 303-309) walks
the tree: left subtree, the node, right subtree. -/
def inorder : Binary_search_node → List Edge
  | nil => []
  | node l e r => inorder l ++ e :: inorder r

/-- Modelled from the spec: `Binary_search_tree::insert` is missing. The Ordered Index
keeps the edges in ascending weight: an edge lighter than the node goes to the left,
a heavier one to the right; when neither comparison holds (the same weight, or a NaN)
the placement is not specified and is left to the parameter `tie` (left when `tie e x`
holds, right otherwise). -/
def insert (tie : Edge → Edge → Bool) (e : Edge) : Binary_search_node → Binary_search_node
  | nil => node nil e nil
  | node l x r =>
    if e.lt x then node (insert tie e l) x r
    else if e.gt x then node l x (insert tie e r)
    else if tie e x then node (insert tie e l) x r
    else node l x (insert tie e r)

/-- The first edge of the in-order traversal of a non-empty tree with root element `x`
and left subtree `l`. -/
def front : Binary_search_node → Edge → Edge
  | nil, x => x
  | node l x _, _ => front l x

/-- The tree without the first node of its in-order traversal. -/
def erase_front : Binary_search_node → Binary_search_node
  | nil => nil
  | node nil _ r => r
  | node (node ll lx lr) x r => node (erase_front (node ll lx lr)) x r

/-- The tree made of the subtrees `l` and `r` of a removed node: a single child
replaces the node, and a node with two children gets the first edge of its right
subtree. -/
def join : Binary_search_node → Binary_search_node → Binary_search_node
  | nil, r => r
  | l, nil => l
  | l, node rl rx rr => node l (front rl rx) (erase_front (node rl rx rr))

/-- Modelled from the spec: `Binary_search_tree::erase` is missing. The Ordered Index
removes the edge it is given; the node that holds the edge is located by the identity of
the edge, and the order of the other edges is kept. -/
def erase (e : Edge) : Binary_search_node → Binary_search_node
  | nil => nil
  | node l x r => if x = e then join l r else node (erase e l) x (erase e r)

end Binary_search_node

/-- Modelled from the spec: `Binary_search_tree.h` is missing. The Ordered Index of the
graph: a search tree given by its root. -/
structure Binary_search_tree where
  root : Binary_search_node
  deriving DecidableEq

namespace Binary_search_tree

/-- Modelled from the spec: the constructor of the missing class, an empty tree. -/
def empty : Binary_search_tree := ⟨Binary_search_node.nil⟩

/-- Modelled from the spec: `insert(edge)` of the Ordered Index. -/
def insert (tie : Edge → Edge → Bool) (t : Binary_search_tree) (e : Edge) :
    Binary_search_tree :=
  ⟨t.root.insert tie e⟩

/-- Modelled from the spec: `erase(edge)` of the Ordered Index. -/
def erase (t : Binary_search_tree) (e : Edge) : Binary_search_tree :=
  ⟨t.root.erase e⟩

/-- Modelled from the spec: `clear()` of the Ordered Index. -/
def clear (_t : Binary_search_tree) : Binary_search_tree := empty

end Binary_search_tree

/-- The member variables of `Weighted_graph`: the number of vertices `N`, the counter
`edge_counter`, the matrix `edges` of pointers to edges and the search tree `tree`. -/
structure Weighted_graph where
  N : Nat
  edge_counter : Int
  edges : Int → Int → Option Edge
  tree : Binary_search_tree

namespace Weighted_graph

/-- The constructor `Weighted_graph(int n)` (lines 140-150); `c0` is the value that the
storage of `edge_counter`, which the constructor does not assign, held. -/
def construct (n : Nat) (c0 : Int) : Weighted_graph :=
  { N := n, edge_counter := c0, edges := fun _ _ => none, tree := Binary_search_tree.empty }

/-- The accessor `edge_count()` (lines 192-194). -/
def edge_count (g : Weighted_graph) : Int := g.edge_counter

/-- The last statements of `erase_edge` (lines 278-286): the edge `e = edges[i][j]` is
erased from the tree, its matrix entry is set to `nullptr` and the counter is
decremented. -/
def remove_edge (g : Weighted_graph) (i j : Int) (e : Edge) : Weighted_graph :=
  { g with
    tree := g.tree.erase e
    edges := fun a b => if a = i ∧ b = j then none else g.edges a b
    edge_counter := g.edge_counter - 1 }

/-- The mutator `erase_edge(int i, int j)` (lines 259-288). -/
def erase_edge (g : Weighted_graph) (i j : Int) : Except Exception (Bool × Weighted_graph) :=
  if i < 0 ∨ i > (g.N : Int) - 1 ∨ j < 0 ∨ j > (g.N : Int) - 1 then
    .error Exception.illegal_argument
  else
    let (i, j) := if i > j then (j, i) else (i, j)
    match g.edges i j with
    | none => .ok (false, g)
    | some e => .ok (true, remove_edge g i j e)

/-- The last statements of `insert_edge` (lines 250-255): the new edge is stored in the
matrix and in the tree and the counter is incremented. -/
def store_edge (tie : Edge → Edge → Bool) (g : Weighted_graph) (i j : Int) (d : Double) :
    Weighted_graph :=
  let e : Edge := ⟨i, j, d⟩
  { g with
    edges := fun a b => if a = i ∧ b = j then some e else g.edges a b
    tree := g.tree.insert tie e
    edge_counter := g.edge_counter + 1 }

/-- The mutator `insert_edge(int i, int j, double d)` (lines 222-257): the test `d < 0`
of line 225 and the test `edges[i][j]->weight == d` of line 243 are the comparisons of
doubles. The parameter `tie` is the tie rule of the search tree. -/
def insert_edge (tie : Edge → Edge → Bool) (g : Weighted_graph) (i j : Int) (d : Double) :
    Except Exception (Bool × Weighted_graph) :=
  if i < 0 ∨ i > (g.N : Int) - 1 ∨ j < 0 ∨ j > (g.N : Int) - 1 ∨
      Double.lt d (Double.num 0) = true then
    .error Exception.illegal_argument
  else if i = j then .ok (false, g)
  else
    let (i, j) := if i > j then (j, i) else (i, j)
    match g.edges i j with
    | some e0 =>
      if Double.eq e0.weight d = true then .ok (true, g)
      else
        match erase_edge g i j with
        | .error ex => .error ex
        | .ok (_, g1) => .ok (true, store_edge tie g1 i j d)
    | none => .ok (true, store_edge tie g i j d)

/-- The mutator `clear_edges()` (lines 291-301): every entry of the `N` by `N` matrix
is set to `nullptr`, the tree is cleared and the counter is reset. -/
def clear_edges (g : Weighted_graph) : Weighted_graph :=
  { g with
    edges := fun a b =>
      if 0 ≤ a ∧ a < (g.N : Int) ∧ 0 ≤ b ∧ b < (g.N : Int) then none else g.edges a b
    tree := g.tree.clear
    edge_counter := 0 }

end Weighted_graph

/-- A call of one of the three mutators of the graph. -/
inductive Call where
  | insert_edge (i j : Int) (d : Double)
  | erase_edge (i j : Int)
  | clear_edges

namespace Weighted_graph

/-- The state of the graph after a call. A call that throws does so in its first
statement, before any member is assigned, and leaves the object as it was. -/
def after (tie : Edge → Edge → Bool) (g : Weighted_graph) : Call → Weighted_graph
  | Call.insert_edge i j d =>
    match insert_edge tie g i j d with
    | .ok (_, g1) => g1
    | .error _ => g
  | Call.erase_edge i j =>
    match erase_edge g i j with
    | .ok (_, g1) => g1
    | .error _ => g
  | Call.clear_edges => clear_edges g

/-- The states reachable from a newly constructed graph by calls of `insert_edge`,
`erase_edge` and `clear_edges`, those that throw or return `false` included. -/
inductive Reachable (tie : Edge → Edge → Bool) : Weighted_graph → Prop where
  | construct (n : Nat) (c0 : Int) : Reachable tie (construct n c0)
  | step (g : Weighted_graph) (c : Call) : Reachable tie g → Reachable tie (g.after tie c)

end Weighted_graph

/-- An edge whose weight is a number, as an edge with a double weight. -/
def of_edge (e : Data_structures.Edge) : Edge := ⟨e.v1, e.v2, Double.num e.weight⟩

/-- A tree of edges whose weights are numbers, as a tree of edges with double
weights. -/
def of_node : Data_structures.Binary_search_node → Binary_search_node
  | Data_structures.Binary_search_node.nil => Binary_search_node.nil
  | Data_structures.Binary_search_node.node l e r =>
    Binary_search_node.node (of_node l) (of_edge e) (of_node r)

/-- A graph whose weights are numbers, as a graph with double weights. -/
def of_graph (g : Data_structures.Weighted_graph) : Weighted_graph :=
  { N := g.N
    edge_counter := g.edge_counter
    edges := fun a b => (g.edges a b).map of_edge
    tree := ⟨of_node g.tree.root⟩ }

/-- A call with a weight that is a number, as a call with a double weight. -/
def of_call : Data_structures.Call → Call
  | Data_structures.Call.insert_edge i j d => Call.insert_edge i j (Double.num d)
  | Data_structures.Call.erase_edge i j => Call.erase_edge i j
  | Data_structures.Call.clear_edges => Call.clear_edges

/-- The tie rule that places an edge to the right of a node when neither comparison
holds. -/
def tie_right : Edge → Edge → Bool := fun _ _ => false

end Ieee

/-! # Properties

## The search tree -/

namespace Binary_search_node

theorem inorder_insert_perm (tie : Edge → Edge → Bool) (e : Edge) (t : Binary_search_node) :
    (insert tie e t).inorder.Perm (e :: t.inorder) := by
  induction t with
  | nil => simp [insert, inorder]
  | node l x r ihl ihr =>
    have hl : (inorder (insert tie e l) ++ x :: inorder r).Perm
        (e :: (inorder l ++ x :: inorder r)) := by
      have := ihl.append_right (x :: inorder r)
      simpa using this
    have hr : (inorder l ++ x :: inorder (insert tie e r)).Perm
        (e :: (inorder l ++ x :: inorder r)) := by
      have h1 : (x :: inorder (insert tie e r)).Perm (e :: x :: inorder r) :=
        ((List.Perm.cons x ihr).trans (List.Perm.swap e x _))
      exact (h1.append_left (inorder l)).trans List.perm_middle
    simp only [insert]
    split_ifs <;> simp only [inorder] <;> assumption

theorem mem_inorder_insert (tie : Edge → Edge → Bool) (e x : Edge) (t : Binary_search_node) :
    x ∈ (insert tie e t).inorder ↔ x = e ∨ x ∈ t.inorder := by
  rw [(inorder_insert_perm tie e t).mem_iff, List.mem_cons]

theorem front_cons_erase_front (l : Binary_search_node) (x : Edge) (r : Binary_search_node) :
    front l x :: (erase_front (node l x r)).inorder = (node l x r).inorder := by
  induction l generalizing x r with
  | nil => simp [front, erase_front, inorder]
  | node ll lx lr ihl _ =>
    have := ihl lx lr
    simp only [front, erase_front, inorder] at this ⊢
    rw [← List.cons_append, this]

theorem inorder_join (l r : Binary_search_node) :
    (join l r).inorder = l.inorder ++ r.inorder := by
  cases l with
  | nil => simp [join, inorder]
  | node ll lx lr =>
    cases r with
    | nil => simp [join, inorder]
    | node rl rx rr =>
      simp only [join]
      rw [inorder, front_cons_erase_front]

theorem inorder_erase (e : Edge) (t : Binary_search_node) (h : t.inorder.Nodup) :
    (erase e t).inorder = t.inorder.erase e := by
  induction t with
  | nil => simp [erase, inorder]
  | node l x r ihl ihr =>
    simp only [inorder] at h
    have hl : l.inorder.Nodup := (List.nodup_append.1 h).1
    have hxr : (x :: r.inorder).Nodup := (List.nodup_append.1 h).2.1
    have hr : r.inorder.Nodup := (List.nodup_cons.1 hxr).2
    have hdis := (List.nodup_append.1 h).2.2
    simp only [erase]
    split_ifs with hx
    · subst hx
      have hxl : x ∉ l.inorder := fun hm => hdis hm (List.mem_cons_self _ _)
      rw [inorder_join, inorder, List.erase_append_right _ hxl, List.erase_cons_head]
    · simp only [inorder]
      rw [ihl hl, ihr hr]
      by_cases hel : e ∈ l.inorder
      · have her : e ∉ r.inorder := fun hm => hdis hel (List.mem_cons_of_mem _ hm)
        rw [List.erase_append_left _ hel, List.erase_of_not_mem her]
      · rw [List.erase_append_right _ hel, List.erase_cons_tail (by simpa using hx),
          List.erase_of_not_mem hel]

theorem sorted_insert (tie : Edge → Edge → Bool) (e : Edge) (t : Binary_search_node)
    (h : t.inorder.Pairwise (fun a b => a.weight ≤ b.weight)) :
    (insert tie e t).inorder.Pairwise (fun a b => a.weight ≤ b.weight) := by
  induction t with
  | nil => simp [insert, inorder]
  | node l x r ihl ihr =>
    simp only [inorder, List.pairwise_append, List.pairwise_cons, List.mem_cons] at h
    obtain ⟨hl, ⟨hxr, hr⟩, hlr⟩ := h
    have goL : e.weight ≤ x.weight →
        (inorder (insert tie e l) ++ x :: inorder r).Pairwise
          (fun a b => a.weight ≤ b.weight) := by
      intro hex
      simp only [List.pairwise_append, List.pairwise_cons, List.mem_cons]
      refine ⟨ihl hl, ⟨hxr, hr⟩, ?_⟩
      intro a ha b hb
      rcases (mem_inorder_insert tie e a l).1 ha with rfl | ha
      · rcases hb with rfl | hb
        · exact hex
        · exact le_trans hex (hxr b hb)
      · exact hlr a ha b hb
    have goR : x.weight ≤ e.weight →
        (inorder l ++ x :: inorder (insert tie e r)).Pairwise
          (fun a b => a.weight ≤ b.weight) := by
      intro hex
      simp only [List.pairwise_append, List.pairwise_cons, List.mem_cons]
      refine ⟨hl, ⟨?_, ihr hr⟩, ?_⟩
      · intro b hb
        rcases (mem_inorder_insert tie e b r).1 hb with rfl | hb
        · exact hex
        · exact hxr b hb
      · intro a ha b hb
        rcases hb with rfl | hb
        · exact hlr a ha b (Or.inl rfl)
        · rcases (mem_inorder_insert tie e b r).1 hb with rfl | hb
          · exact le_trans (hlr a ha x (Or.inl rfl)) hex
          · exact hlr a ha b (Or.inr hb)
    simp only [insert, Edge.lt, Edge.gt, decide_eq_true_eq]
    split_ifs with h1 h2 h3
    · exact goL (le_of_lt h1)
    · exact goR (le_of_lt h2)
    · exact goL (le_of_not_lt h2)
    · exact goR (le_of_not_lt h1)

end Binary_search_node

/-! ## The mutators and the state invariant -/

namespace Weighted_graph

theorem erase_edge_eq (g : Weighted_graph) (i j : Int) :
    erase_edge g i j =
      if i < 0 ∨ i > (g.N : Int) - 1 ∨ j < 0 ∨ j > (g.N : Int) - 1 then
        .error Exception.illegal_argument
      else
        match g.edges (min i j) (max i j) with
        | none => .ok (false, g)
        | some e => .ok (true, remove_edge g (min i j) (max i j) e) := by
  unfold erase_edge
  by_cases hij : i > j
  · have h1 : min i j = j := min_eq_right (le_of_lt hij)
    have h2 : max i j = i := max_eq_left (le_of_lt hij)
    simp only [hij, if_true, h1, h2]
  · have h1 : min i j = i := min_eq_left (not_lt.1 hij)
    have h2 : max i j = j := max_eq_right (not_lt.1 hij)
    simp only [hij, if_false, h1, h2]

theorem insert_edge_eq (tie : Edge → Edge → Bool) (g : Weighted_graph) (i j : Int) (d : ℚ) :
    insert_edge tie g i j d =
      if i < 0 ∨ i > (g.N : Int) - 1 ∨ j < 0 ∨ j > (g.N : Int) - 1 ∨ d < 0 then
        .error Exception.illegal_argument
      else if i = j then .ok (false, g)
      else
        match g.edges (min i j) (max i j) with
        | some e0 =>
          if e0.weight = d then .ok (true, g)
          else .ok (true, store_edge tie (remove_edge g (min i j) (max i j) e0)
            (min i j) (max i j) d)
        | none => .ok (true, store_edge tie g (min i j) (max i j) d) := by
  unfold insert_edge
  by_cases hr : i < 0 ∨ i > (g.N : Int) - 1 ∨ j < 0 ∨ j > (g.N : Int) - 1 ∨ d < 0
  · rw [if_pos hr, if_pos hr]
  by_cases he : i = j
  · rw [if_neg hr, if_neg hr, if_pos he, if_pos he]
  rw [if_neg hr, if_neg hr, if_neg he, if_neg he]
  · have hlo : ¬ (min i j < 0 ∨ min i j > (g.N : Int) - 1 ∨ max i j < 0 ∨
        max i j > (g.N : Int) - 1) := by
      simp only [not_or, not_lt, gt_iff_lt] at hr ⊢
      rcases le_total i j with h | h
      · simp [min_eq_left h, max_eq_right h]; omega
      · simp [min_eq_right h, max_eq_left h]; omega
    have hmm : min (min i j) (max i j) = min i j := min_eq_left (min_le_max)
    have hMM : max (min i j) (max i j) = max i j := max_eq_right (min_le_max)
    have key : ∀ a b : Int, a = min i j → b = max i j →
        (match g.edges a b with
        | some e0 =>
          if e0.weight = d then (Except.ok (true, g) : Except Exception (Bool × Weighted_graph))
          else
            match erase_edge g a b with
            | .error ex => .error ex
            | .ok (_, g1) => .ok (true, store_edge tie g1 a b d)
        | none => .ok (true, store_edge tie g a b d)) =
        (match g.edges (min i j) (max i j) with
        | some e0 =>
          if e0.weight = d then .ok (true, g)
          else .ok (true, store_edge tie (remove_edge g (min i j) (max i j) e0)
            (min i j) (max i j) d)
        | none => .ok (true, store_edge tie g (min i j) (max i j) d)) := by
      intro a b ha hb
      subst ha hb
      cases hE : g.edges (min i j) (max i j) with
      | none => rfl
      | some e0 =>
        simp only
        split_ifs with hw
        · rfl
        · rw [erase_edge_eq, if_neg hlo, hmm, hMM, hE]
    by_cases hij : i > j
    · have h1 : min i j = j := min_eq_right (le_of_lt hij)
      have h2 : max i j = i := max_eq_left (le_of_lt hij)
      rw [if_pos hij]
      exact key j i h1.symm h2.symm
    · have h1 : min i j = i := min_eq_left (not_lt.1 hij)
      have h2 : max i j = j := max_eq_right (not_lt.1 hij)
      rw [if_neg hij]
      exact key i j h1.symm h2.symm

theorem inv_construct (n : Nat) (c0 : Int) : Inv (construct n c0) where
  slot := by intro i j e h; simp [construct] at h
  mem_tree := by
    intro e
    simp [construct, Binary_search_tree.empty, Binary_search_node.inorder]
  nodup := by simp [construct, Binary_search_tree.empty, Binary_search_node.inorder]
  sorted := by simp [construct, Binary_search_tree.empty, Binary_search_node.inorder]

theorem inv_clear_edges (g : Weighted_graph) (h : Inv g) : Inv (clear_edges g) where
  slot := by
    intro i j e he
    simp only [clear_edges] at he
    split_ifs at he with hr
    obtain ⟨_, _, h0, hij, hj, _⟩ := h.slot i j e he
    exact absurd ⟨h0, by omega, by omega, hj⟩ hr
  mem_tree := by
    intro e
    simp only [clear_edges, Binary_search_tree.clear, Binary_search_tree.empty,
      Binary_search_node.inorder, List.not_mem_nil, false_iff]
    intro he
    split_ifs at he with hr
    obtain ⟨_, _, h0, hij, hj, _⟩ := h.slot _ _ e he
    exact absurd ⟨h0, by omega, by omega, hj⟩ hr
  nodup := by
    simp [clear_edges, Binary_search_tree.clear, Binary_search_tree.empty,
      Binary_search_node.inorder]
  sorted := by
    simp [clear_edges, Binary_search_tree.clear, Binary_search_tree.empty,
      Binary_search_node.inorder]

theorem inorder_remove_edge (g : Weighted_graph) (h : Inv g) (i j : Int) (e : Edge) :
    (remove_edge g i j e).tree.root.inorder = g.tree.root.inorder.erase e := by
  simp only [remove_edge, Binary_search_tree.erase]
  exact Binary_search_node.inorder_erase e _ h.nodup

theorem inv_remove_edge (g : Weighted_graph) (h : Inv g) (i j : Int) (e : Edge)
    (he : g.edges i j = some e) : Inv (remove_edge g i j e) where
  slot := by
    intro a b x hx
    simp only [remove_edge] at hx
    split_ifs at hx
    exact h.slot a b x hx
  mem_tree := by
    intro x
    rw [inorder_remove_edge g h, h.nodup.mem_erase_iff, h.mem_tree]
    simp only [remove_edge]
    constructor
    · rintro ⟨hne, hx⟩
      rw [if_neg, hx]
      rintro ⟨h1, h2⟩
      rw [h1, h2, he] at hx
      exact hne (Option.some.inj hx).symm
    · intro hx
      split_ifs at hx with hc
      refine ⟨?_, hx⟩
      rintro rfl
      obtain ⟨h1, h2, _⟩ := h.slot i j x he
      exact hc ⟨h1, h2⟩
  nodup := by
    rw [inorder_remove_edge g h]
    exact h.nodup.erase e
  sorted := by
    rw [inorder_remove_edge g h]
    exact h.sorted.sublist (List.erase_sublist e _)

theorem remove_edge_slot (g : Weighted_graph) (i j : Int) (e : Edge) :
    (remove_edge g i j e).edges i j = none := by
  simp [remove_edge]

theorem inv_store_edge (tie : Edge → Edge → Bool) (g : Weighted_graph) (h : Inv g)
    (i j : Int) (d : ℚ) (hnone : g.edges i j = none) (h0 : 0 ≤ i) (hij : i < j)
    (hj : j < (g.N : Int)) (hd : 0 ≤ d) : Inv (store_edge tie g i j d) where
  slot := by
    intro a b x hx
    simp only [store_edge] at hx
    split_ifs at hx with hc
    · obtain ⟨rfl, rfl⟩ := hc
      cases hx
      exact ⟨rfl, rfl, h0, hij, hj, hd⟩
    · exact h.slot a b x hx
  mem_tree := by
    intro x
    simp only [store_edge, Binary_search_tree.insert]
    rw [Binary_search_node.mem_inorder_insert, h.mem_tree]
    constructor
    · rintro (rfl | hx)
      · simp
      · rw [if_neg, hx]
        rintro ⟨h1, h2⟩
        rw [h1, h2, hnone] at hx
        cases hx
    · intro hx
      split_ifs at hx with hc
      · exact Or.inl (Option.some.inj hx).symm
      · exact Or.inr hx
  nodup := by
    simp only [store_edge, Binary_search_tree.insert]
    rw [(Binary_search_node.inorder_insert_perm tie _ _).nodup_iff, List.nodup_cons]
    refine ⟨?_, h.nodup⟩
    rw [h.mem_tree]
    simp [hnone]
  sorted := by
    simp only [store_edge, Binary_search_tree.insert]
    exact Binary_search_node.sorted_insert tie _ _ h.sorted

theorem inv_after (tie : Edge → Edge → Bool) (g : Weighted_graph) (h : Inv g) (c : Call) :
    Inv (g.after tie c) := by
  cases c with
  | insert_edge i j d =>
    simp only [after, insert_edge_eq]
    split_ifs with hr he
    · exact h
    · exact h
    · simp only [not_or, not_lt, gt_iff_lt] at hr
      obtain ⟨hi0, hiN, hj0, hjN, hd⟩ := hr
      have hlo0 : 0 ≤ min i j := le_min hi0 hj0
      have hlt : min i j < max i j := by
        rcases lt_or_gt_of_ne he with hlt | hlt
        · rw [min_eq_left (le_of_lt hlt), max_eq_right (le_of_lt hlt)]; exact hlt
        · rw [min_eq_right (le_of_lt hlt), max_eq_left (le_of_lt hlt)]; exact hlt
      have hhi : max i j < (g.N : Int) := max_lt (by omega) (by omega)
      cases hE : g.edges (min i j) (max i j) with
      | none => exact inv_store_edge tie g h _ _ d hE hlo0 hlt hhi hd
      | some e0 =>
        simp only
        split_ifs with hw
        · exact h
        · exact inv_store_edge tie _ (inv_remove_edge g h _ _ e0 hE) _ _ d
            (remove_edge_slot g _ _ e0) hlo0 hlt hhi hd
  | erase_edge i j =>
    simp only [after, erase_edge_eq]
    split_ifs with hr
    · exact h
    · cases hE : g.edges (min i j) (max i j) with
      | none => exact h
      | some e0 => exact inv_remove_edge g h _ _ e0 hE
  | clear_edges => exact inv_clear_edges g h

theorem reachable_inv (tie : Edge → Edge → Bool) (g : Weighted_graph)
    (h : Reachable tie g) : Inv g := by
  induction h with
  | construct n c0 => exact inv_construct n c0
  | step g c _ ih => exact inv_after tie g ih c

end Weighted_graph

/-! ## The traversal loop -/

namespace Weighted_graph

theorem mst_loop_eq_scan (s : List (Binary_search_node × Edge × Binary_search_node))
    (node : Binary_search_node) (set : Disjoint_sets) (k : Int) :
    mst_loop s node set k = scan set k (node.inorder ++ pending s) := by
  induction s, node, set, k using mst_loop.induct with
  | case1 s set k l e r ih =>
    rw [mst_loop, ih]
    simp [Binary_search_node.inorder, pending]
  | case2 set k =>
    rw [mst_loop]
    simp [Binary_search_node.inorder, pending, scan]
  | case3 set k l e r s1 set1 h =>
    rw [mst_loop]
    simp only [Binary_search_node.inorder, pending, scan, List.nil_append]
    rw [if_pos h, if_pos h]
  | case4 set k l e r s1 set1 k1 h ih =>
    rw [mst_loop]
    simp only [Binary_search_node.inorder, pending, scan, List.nil_append]
    rw [if_neg h, if_neg h, ih]

theorem minimum_spanning_tree_eq_scan (g : Weighted_graph) :
    minimum_spanning_tree g = scan (Disjoint_sets.init g.N) 0 g.tree.root.inorder := by
  rw [minimum_spanning_tree, mst_loop_eq_scan]
  simp [pending]

end Weighted_graph

/-! ## Connectivity -/


theorem Connected.of_forall {L L1 : List Edge}
    (h : ∀ e ∈ L, Connected L1 e.v1 e.v2) {a b : Int} (hc : Connected L a b) :
    Connected L1 a b := by
  induction hc with
  | refl a => exact Connected.refl a
  | edge e he => exact h e he
  | symm _ ih => exact ih.symm
  | trans _ _ ih1 ih2 => exact ih1.trans ih2

theorem Connected.mono {L L1 : List Edge} (h : ∀ e ∈ L, e ∈ L1) {a b : Int}
    (hc : Connected L a b) : Connected L1 a b :=
  Connected.of_forall (fun e he => Connected.edge e (h e he)) hc

theorem connected_nil {a b : Int} (h : Connected [] a b) : a = b := by
  induction h with
  | refl a => rfl
  | edge e he => cases he
  | symm _ ih => exact ih.symm
  | trans _ _ ih1 ih2 => exact ih1.trans ih2

theorem connected_cons {e : Edge} {L : List Edge} {a b : Int}
    (h : Connected (e :: L) a b) :
    Connected L a b ∨ (Connected L a e.v1 ∧ Connected L e.v2 b) ∨
      (Connected L a e.v2 ∧ Connected L e.v1 b) := by
  induction h with
  | refl a => exact Or.inl (Connected.refl a)
  | edge x hx =>
    rcases List.mem_cons.1 hx with rfl | hx
    · exact Or.inr (Or.inl ⟨Connected.refl _, Connected.refl _⟩)
    · exact Or.inl (Connected.edge x hx)
  | symm _ ih =>
    rcases ih with h | ⟨h1, h2⟩ | ⟨h1, h2⟩
    · exact Or.inl h.symm
    · exact Or.inr (Or.inr ⟨h2.symm, h1.symm⟩)
    · exact Or.inr (Or.inl ⟨h2.symm, h1.symm⟩)
  | trans _ _ ih1 ih2 =>
    rcases ih1 with h | ⟨h1, h2⟩ | ⟨h1, h2⟩ <;> rcases ih2 with k | ⟨k1, k2⟩ | ⟨k1, k2⟩
    · exact Or.inl (h.trans k)
    · exact Or.inr (Or.inl ⟨h.trans k1, k2⟩)
    · exact Or.inr (Or.inr ⟨h.trans k1, k2⟩)
    · exact Or.inr (Or.inl ⟨h1, h2.trans k⟩)
    · exact Or.inl (h1.trans ((h2.trans k1).symm.trans k2))
    · exact Or.inl (h1.trans k2)
    · exact Or.inr (Or.inr ⟨h1, h2.trans k⟩)
    · exact Or.inl (h1.trans k2)
    · exact Or.inl (h1.trans ((h2.trans k1).symm.trans k2))

theorem connected_cons_of {e : Edge} {L : List Edge} {a b : Int}
    (h : Connected L a b ∨ (Connected L a e.v1 ∧ Connected L e.v2 b) ∨
      (Connected L a e.v2 ∧ Connected L e.v1 b)) : Connected (e :: L) a b := by
  have up : ∀ {x y : Int}, Connected L x y → Connected (e :: L) x y :=
    fun hc => hc.mono (fun x hx => List.mem_cons_of_mem _ hx)
  have he : Connected (e :: L) e.v1 e.v2 := Connected.edge e (List.mem_cons_self _ _)
  rcases h with h | ⟨h1, h2⟩ | ⟨h1, h2⟩
  · exact up h
  · exact (up h1).trans (he.trans (up h2))
  · exact (up h1).trans (he.symm.trans (up h2))

/-- When the edge `e` is what connects `a` and `b` over `L`, every list that extends
`L` and connects `a` and `b` also connects the two ends of `e`. -/
theorem connected_ends {e : Edge} {L L1 : List Edge} {a b : Int}
    (h : Connected (e :: L) a b) (hn : ¬ Connected L a b) (hsub : ∀ x ∈ L, x ∈ L1)
    (h1 : Connected L1 a b) : Connected L1 e.v1 e.v2 := by
  rcases connected_cons h with h | ⟨ha, hb⟩ | ⟨ha, hb⟩
  · exact absurd h hn
  · exact ((ha.mono hsub).symm.trans h1).trans (hb.mono hsub).symm
  · exact (((ha.mono hsub).symm.trans h1).trans (hb.mono hsub).symm).symm

/-- An edge of a forest that lies between two connected vertices that the list `P`
alone does not connect: without it the two vertices are no longer connected. -/
theorem exists_bridge (F : List Edge) :
    ∀ (P : List Edge) (u v : Int),
      (∀ f ∈ F, ¬ Connected (P ++ F.erase f) f.v1 f.v2) →
      Connected (P ++ F) u v → ¬ Connected P u v →
      ∃ f ∈ F, ¬ Connected (P ++ F.erase f) u v := by
  induction F with
  | nil =>
    intro P u v _ hc hn
    rw [List.append_nil] at hc
    exact absurd hc hn
  | cons f F1 ih =>
    intro P u v hF hc hn
    by_cases hfc : Connected (f :: P) u v
    · refine ⟨f, List.mem_cons_self _ _, ?_⟩
      rw [List.erase_cons_head]
      intro hc1
      have : Connected (P ++ F1) f.v1 f.v2 :=
        connected_ends hfc hn (fun x hx => List.mem_append_left _ hx) hc1
      have hb := hF f (List.mem_cons_self _ _)
      rw [List.erase_cons_head] at hb
      exact hb this
    · have hF1 : ∀ g ∈ F1, ¬ Connected ((f :: P) ++ F1.erase g) g.v1 g.v2 := by
        intro g hg hcg
        apply hF g (List.mem_cons_of_mem _ hg)
        refine hcg.mono ?_
        intro x hx
        rw [List.erase_cons]
        split_ifs with hfg
        · have hfg : f = g := by simpa using hfg
          simp only [List.cons_append, List.mem_cons, List.mem_append] at hx ⊢
          rcases hx with rfl | hx | hx
          · exact Or.inr (hfg ▸ hg)
          · exact Or.inl hx
          · exact Or.inr (List.mem_of_mem_erase hx)
        · simp only [List.cons_append, List.mem_cons, List.mem_append] at hx ⊢
          tauto
      have hc1 : Connected ((f :: P) ++ F1) u v := by
        refine hc.mono ?_
        intro x hx
        simp only [List.cons_append, List.mem_cons, List.mem_append] at hx ⊢
        tauto
      obtain ⟨g, hg, hgn⟩ := ih (f :: P) u v hF1 hc1 hfc
      refine ⟨g, List.mem_cons_of_mem _ hg, ?_⟩
      intro hcg
      apply hgn
      refine hcg.mono ?_
      intro x hx
      rw [List.erase_cons] at hx
      split_ifs at hx with hfg
      · have hfg : f = g := by simpa using hfg
        simp only [List.cons_append, List.mem_cons, List.mem_append] at hx ⊢
        rcases hx with hx | hx
        · exact Or.inr (Or.inl hx)
        · by_cases hxg : x = g
          · exact Or.inl (hxg.trans hfg.symm)
          · exact Or.inr (Or.inr ((List.mem_erase_of_ne hxg).2 hx))
      · simp only [List.cons_append, List.mem_cons, List.mem_append] at hx ⊢
        tauto

/-! ## The disjoint sets and Kruskal's algorithm on a list of edges -/

theorem represents_init (n : Nat) : Represents (Disjoint_sets.init n) [] := by
  intro a b
  constructor
  · intro h
    have : a = b := h
    subst this
    exact Connected.refl a
  · intro h
    exact connected_nil h

theorem set_union_same (set : Disjoint_sets) (u v : Int) (w : ℚ)
    (h : set.find u = set.find v) : set.set_union u v w = set := by
  simp [Disjoint_sets.set_union, h]

theorem represents_union (set : Disjoint_sets) (P : List Edge) (e : Edge)
    (h : Represents set P) : Represents (set.set_union e.v1 e.v2 e.weight) (e :: P) := by
  intro a b
  by_cases hs : set.find e.v1 = set.find e.v2
  · rw [set_union_same _ _ _ _ hs, h a b]
    have he : Connected P e.v1 e.v2 := (h _ _).1 hs
    constructor
    · intro hc
      exact hc.mono (fun x hx => List.mem_cons_of_mem _ hx)
    · intro hc
      rcases connected_cons hc with hc | ⟨h1, h2⟩ | ⟨h1, h2⟩
      · exact hc
      · exact h1.trans (he.trans h2)
      · exact h1.trans (he.symm.trans h2)
  · simp only [Disjoint_sets.set_union, if_neg hs]
    constructor
    · intro hf
      apply connected_cons_of
      by_cases ha : set.find a = set.find e.v2 <;> by_cases hb : set.find b = set.find e.v2
      · exact Or.inl ((h a b).1 (ha.trans hb.symm))
      · rw [if_pos ha, if_neg hb] at hf
        exact Or.inr (Or.inr ⟨(h _ _).1 ha, (h _ _).1 hf⟩)
      · rw [if_neg ha, if_pos hb] at hf
        exact Or.inr (Or.inl ⟨(h _ _).1 hf, (h _ _).1 hb.symm⟩)
      · rw [if_neg ha, if_neg hb] at hf
        exact Or.inl ((h a b).1 hf)
    · intro hc
      rcases connected_cons hc with hc | ⟨h1, h2⟩ | ⟨h1, h2⟩
      · rw [(h a b).2 hc]
      · have ha : set.find a = set.find e.v1 := (h _ _).2 h1
        have hb : set.find b = set.find e.v2 := ((h _ _).2 h2).symm
        rw [if_neg (by rw [ha]; exact hs), if_pos hb, ha]
      · have ha : set.find a = set.find e.v2 := (h _ _).2 h1
        have hb : set.find b = set.find e.v1 := ((h _ _).2 h2).symm
        rw [if_pos ha, if_neg (by rw [hb]; exact hs), hb]

theorem weight_sum_cons (e : Edge) (L : List Edge) :
    weight_sum (e :: L) = e.weight + weight_sum L := by
  simp [weight_sum]

theorem weight_sum_erase (F : List Edge) (f : Edge) (hf : f ∈ F) :
    weight_sum F = f.weight + weight_sum (F.erase f) := by
  rw [← weight_sum_cons]
  exact ((List.perm_cons_erase hf).map Edge.weight).sum_eq

theorem unite_weight (E : List Edge) :
    ∀ set : Disjoint_sets,
      (unite set E).total_weight = set.total_weight + weight_sum (merging set E) := by
  induction E with
  | nil => intro set; simp [unite, merging, weight_sum]
  | cons e es ih =>
    intro set
    simp only [unite, merging]
    by_cases hs : set.find e.v1 = set.find e.v2
    · rw [set_union_same _ _ _ _ hs, if_pos hs, ih]
    · rw [if_neg hs, ih, weight_sum_cons]
      simp only [Disjoint_sets.set_union, if_neg hs]
      ring

/-- The lower bound of Kruskal's algorithm: when the edges of `E` come in ascending
weight and `set` stands for the edges `P` already taken, the weight accumulated over `E`
is at most the weight of any forest `F` of edges of `E` that, together with `P`,
connects the ends of every edge of `E`. -/
theorem unite_weight_le (E : List Edge) :
    E.Pairwise (fun a b => a.weight ≤ b.weight) →
    ∀ (P : List Edge) (set : Disjoint_sets) (F : List Edge),
      Represents set P → F.Nodup → (∀ f ∈ F, f ∈ E) →
      (∀ f ∈ F, ¬ Connected (P ++ F.erase f) f.v1 f.v2) →
      (∀ e ∈ E, Connected (P ++ F) e.v1 e.v2) →
      (unite set E).total_weight ≤ set.total_weight + weight_sum F := by
  induction E with
  | nil =>
    intro _ P set F _ _ hsub _ _
    have : F = [] := List.eq_nil_iff_forall_not_mem.2 (fun f hf => by cases hsub f hf)
    subst this
    simp [unite, weight_sum]
  | cons e es ih =>
    intro hsorted P set F hrep hnd hsub hacy hspan
    obtain ⟨hle, hsorted1⟩ := List.pairwise_cons.1 hsorted
    have hrep1 := represents_union set P e hrep
    simp only [unite]
    by_cases hs : set.find e.v1 = set.find e.v2
    · -- the edge closes a cycle: it is in no forest
      have heP : Connected P e.v1 e.v2 := (hrep _ _).1 hs
      have heF : e ∉ F := fun he =>
        hacy e he (heP.mono (fun x hx => List.mem_append_left _ hx))
      rw [set_union_same _ _ _ _ hs]
      refine ih hsorted1 P set F hrep hnd ?_ hacy ?_
      · intro f hf
        rcases List.mem_cons.1 (hsub f hf) with rfl | h
        · exact absurd hf heF
        · exact h
      · intro x hx
        exact hspan x (List.mem_cons_of_mem _ hx)
    · have heP : ¬ Connected P e.v1 e.v2 := fun hc => hs ((hrep _ _).2 hc)
      have hw : (set.set_union e.v1 e.v2 e.weight).total_weight =
          set.total_weight + e.weight := by
        simp [Disjoint_sets.set_union, hs]
      by_cases heF : e ∈ F
      · -- the edge is in the forest
        have h := ih hsorted1 (e :: P) _ (F.erase e) hrep1 (hnd.erase e) ?_ ?_ ?_
        · rw [hw] at h
          rw [weight_sum_erase F e heF]
          linarith
        · intro f hf
          have hfF := (hnd.mem_erase_iff.1 hf)
          rcases List.mem_cons.1 (hsub f hfF.2) with rfl | h
          · exact absurd rfl hfF.1
          · exact h
        · intro f hf hc
          have hfF := (hnd.mem_erase_iff.1 hf)
          apply hacy f hfF.2
          refine hc.mono ?_
          intro x hx
          simp only [List.cons_append, List.mem_cons, List.mem_append] at hx ⊢
          rcases hx with rfl | hx | hx
          · exact Or.inr (hnd.mem_erase_iff.2 ⟨fun h => hfF.1 h.symm, heF⟩)
          · exact Or.inl hx
          · have h1 := (hnd.erase e).mem_erase_iff.1 hx
            have h2 := hnd.mem_erase_iff.1 h1.2
            exact Or.inr (hnd.mem_erase_iff.2 ⟨h1.1, h2.2⟩)
        · intro x hx
          refine (hspan x (List.mem_cons_of_mem _ hx)).mono ?_
          intro y hy
          simp only [List.cons_append, List.mem_cons, List.mem_append] at hy ⊢
          rcases hy with hy | hy
          · exact Or.inr (Or.inl hy)
          · by_cases hye : y = e
            · exact Or.inl hye
            · exact Or.inr (Or.inr ((List.mem_erase_of_ne hye).2 hy))
      · -- the edge is not in the forest: it takes the place of an edge of the forest
        have hsubes : ∀ f ∈ F, f ∈ es := by
          intro f hf
          rcases List.mem_cons.1 (hsub f hf) with rfl | h
          · exact absurd hf heF
          · exact h
        obtain ⟨f, hfF, hfn⟩ := exists_bridge F P e.v1 e.v2 hacy
          (hspan e (List.mem_cons_self _ _)) heP
        have hfe : e.weight ≤ f.weight := hle f (hsubes f hfF)
        have hQ : Connected (f :: (P ++ F.erase f)) e.v1 e.v2 := by
          refine (hspan e (List.mem_cons_self _ _)).mono ?_
          intro y hy
          simp only [List.mem_cons, List.mem_append] at hy ⊢
          rcases hy with hy | hy
          · exact Or.inr (Or.inl hy)
          · by_cases hyf : y = f
            · exact Or.inl hyf
            · exact Or.inr (Or.inr ((List.mem_erase_of_ne hyf).2 hy))
        have h := ih hsorted1 (e :: P) _ (F.erase f) hrep1 (hnd.erase f) ?_ ?_ ?_
        · rw [hw] at h
          rw [weight_sum_erase F f hfF]
          linarith
        · intro x hx
          exact hsubes x (List.mem_of_mem_erase hx)
        · intro g hg hc
          have hgF := hnd.mem_erase_iff.1 hg
          have hgn : ¬ Connected (P ++ (F.erase f).erase g) g.v1 g.v2 := by
            intro hc1
            apply hacy g hgF.2
            refine hc1.mono ?_
            intro x hx
            simp only [List.mem_append] at hx ⊢
            rcases hx with hx | hx
            · exact Or.inl hx
            · have h1 := (hnd.erase f).mem_erase_iff.1 hx
              have h2 := hnd.mem_erase_iff.1 h1.2
              exact Or.inr (hnd.mem_erase_iff.2 ⟨h1.1, h2.2⟩)
          have hcg : Connected (g :: (P ++ (F.erase f).erase g)) g.v1 g.v2 :=
            Connected.edge g (List.mem_cons_self _ _)
          have hc0 : Connected (e :: (P ++ (F.erase f).erase g)) g.v1 g.v2 := hc
          have hce : Connected (g :: (P ++ (F.erase f).erase g)) e.v1 e.v2 :=
            connected_ends hc0 hgn (fun x hx => List.mem_cons_of_mem _ hx) hcg
          apply hfn
          refine hce.mono ?_
          intro x hx
          simp only [List.mem_cons, List.mem_append] at hx ⊢
          rcases hx with rfl | hx | hx
          · exact Or.inr hg
          · exact Or.inl hx
          · exact Or.inr (List.mem_of_mem_erase hx)
        · intro x hx
          have hf12 : Connected (e :: (P ++ F.erase f)) f.v1 f.v2 :=
            connected_ends hQ hfn (fun x hx => List.mem_cons_of_mem _ hx)
              (Connected.edge e (List.mem_cons_self _ _))
          refine Connected.of_forall ?_ (hspan x (List.mem_cons_of_mem _ hx))
          intro y hy
          simp only [List.mem_append] at hy
          rcases hy with hy | hy
          · exact Connected.edge y (by simp [hy])
          · by_cases hyf : y = f
            · rw [hyf]; exact hf12
            · exact Connected.edge y (by
                simp only [List.cons_append, List.mem_cons, List.mem_append]
                exact Or.inr (Or.inr ((List.mem_erase_of_ne hyf).2 hy)))

theorem merging_sub (E : List Edge) :
    ∀ (set : Disjoint_sets), ∀ x ∈ merging set E, x ∈ E := by
  induction E with
  | nil => intro set x hx; simp [merging] at hx
  | cons e es ih =>
    intro set x hx
    simp only [merging] at hx
    split_ifs at hx with hs
    · exact List.mem_cons_of_mem _ (ih _ x hx)
    · rcases List.mem_cons.1 hx with rfl | hx
      · exact List.mem_cons_self _ _
      · exact List.mem_cons_of_mem _ (ih _ x hx)

theorem merging_spanning (E : List Edge) :
    ∀ (P : List Edge) (set : Disjoint_sets), Represents set P →
      ∀ e ∈ E, Connected (P ++ merging set E) e.v1 e.v2 := by
  induction E with
  | nil => intro P set _ e he; cases he
  | cons e es ih =>
    intro P set hrep x hx
    simp only [merging]
    by_cases hs : set.find e.v1 = set.find e.v2
    · rw [if_pos hs]
      rcases List.mem_cons.1 hx with rfl | hx
      · exact ((hrep _ _).1 hs).mono (fun y hy => List.mem_append_left _ hy)
      · exact ih P set hrep x hx
    · rw [if_neg hs]
      rcases List.mem_cons.1 hx with rfl | hx
      · exact Connected.edge _ (by simp)
      · refine (ih (e :: P) _ (represents_union set P e hrep) x hx).mono ?_
        intro y hy
        simp only [List.cons_append, List.mem_cons, List.mem_append] at hy ⊢
        tauto

theorem merging_acyclic (E : List Edge) :
    ∀ (P : List Edge) (set : Disjoint_sets), Represents set P →
      ∀ f ∈ merging set E, ¬ Connected (P ++ (merging set E).erase f) f.v1 f.v2 := by
  induction E with
  | nil => intro P set _ f hf; simp [merging] at hf
  | cons e es ih =>
    intro P set hrep f hf
    simp only [merging] at hf ⊢
    by_cases hs : set.find e.v1 = set.find e.v2
    · rw [if_pos hs] at hf ⊢
      exact ih P set hrep f hf
    · rw [if_neg hs] at hf ⊢
      have hrep1 := represents_union set P e hrep
      have ih1 := ih (e :: P) _ hrep1
      have heP : ¬ Connected P e.v1 e.v2 := fun hc => hs ((hrep _ _).2 hc)
      by_cases hef : e = f
      · subst hef
        rw [List.erase_cons_head]
        intro hc
        have hM : ∀ g ∈ merging (set.set_union e.v1 e.v2 e.weight) es,
            ¬ Connected (P ++ (merging (set.set_union e.v1 e.v2 e.weight) es).erase g)
              g.v1 g.v2 := by
          intro g hg hcg
          exact ih1 g hg (hcg.mono (fun y hy => by
            simp only [List.cons_append, List.mem_cons, List.mem_append] at hy ⊢
            tauto))
        obtain ⟨g, hg, hgn⟩ := exists_bridge _ P e.v1 e.v2 hM hc heP
        have hQ : Connected
            (g :: (P ++ (merging (set.set_union e.v1 e.v2 e.weight) es).erase g))
            e.v1 e.v2 := by
          refine hc.mono ?_
          intro y hy
          simp only [List.mem_cons, List.mem_append] at hy ⊢
          rcases hy with hy | hy
          · exact Or.inr (Or.inl hy)
          · by_cases hyg : y = g
            · exact Or.inl hyg
            · exact Or.inr (Or.inr ((List.mem_erase_of_ne hyg).2 hy))
        exact ih1 g hg (connected_ends hQ hgn (fun x hx => List.mem_cons_of_mem _ hx)
          (Connected.edge e (List.mem_cons_self _ _)))
      · have hfM : f ∈ merging (set.set_union e.v1 e.v2 e.weight) es := by
          rcases List.mem_cons.1 hf with rfl | h
          · exact absurd rfl hef
          · exact h
        rw [List.erase_cons_tail (by simpa using hef)]
        intro hc
        exact ih1 f hfM (hc.mono (fun y hy => by
          simp only [List.cons_append, List.mem_cons, List.mem_append] at hy ⊢
          tauto))

theorem nodup_of_acyclic (F : List Edge)
    (h : ∀ f ∈ F, ¬ Connected (F.erase f) f.v1 f.v2) : F.Nodup := by
  induction F with
  | nil => exact List.nodup_nil
  | cons f F1 ih =>
    rw [List.nodup_cons]
    constructor
    · intro hf
      have := h f (List.mem_cons_self _ _)
      rw [List.erase_cons_head] at this
      exact this (Connected.edge f hf)
    · apply ih
      intro g hg hc
      apply h g (List.mem_cons_of_mem _ hg)
      refine hc.mono ?_
      intro y hy
      rw [List.erase_cons]
      split_ifs with hfg
      · exact List.mem_of_mem_erase hy
      · exact List.mem_cons_of_mem _ hy

/-! ## The set count -/

theorem counted_init (n : Nat) : Counted n (Disjoint_sets.init n) := by
  simp only [Counted, Disjoint_sets.init]
  rw [Finset.card_image_of_injective _ (fun a b h => by exact_mod_cast h), Finset.card_range]

theorem counted_union (n : Nat) (set : Disjoint_sets) (u v : Int) (w : ℚ)
    (h : Counted n set) (hu0 : 0 ≤ u) (hu : u < (n : Int)) (hv0 : 0 ≤ v)
    (hv : v < (n : Int)) : Counted n (set.set_union u v w) := by
  by_cases hs : set.find u = set.find v
  · rw [set_union_same _ _ _ _ hs]; exact h
  · simp only [Counted, Disjoint_sets.set_union, if_neg hs] at h ⊢
    have hum : set.find u ∈ (Finset.range n).image (fun x : Nat => set.find (x : Int)) := by
      refine Finset.mem_image.2 ⟨u.toNat, Finset.mem_range.2 (by omega), ?_⟩
      rw [Int.toNat_of_nonneg hu0]
    have hvm : set.find v ∈ (Finset.range n).image (fun x : Nat => set.find (x : Int)) := by
      refine Finset.mem_image.2 ⟨v.toNat, Finset.mem_range.2 (by omega), ?_⟩
      rw [Int.toNat_of_nonneg hv0]
    have himg : (Finset.range n).image
        (fun x : Nat => if set.find (x : Int) = set.find v then set.find u
          else set.find (x : Int)) =
        ((Finset.range n).image (fun x : Nat => set.find (x : Int))).erase (set.find v) := by
      ext y
      simp only [Finset.mem_image, Finset.mem_range, Finset.mem_erase]
      constructor
      · rintro ⟨x, hx, rfl⟩
        split_ifs with hc
        · exact ⟨hs, Finset.mem_image.1 hum |>.imp (fun a ha => ⟨Finset.mem_range.1 ha.1, ha.2⟩)⟩
        · exact ⟨hc, x, hx, rfl⟩
      · rintro ⟨hy, x, hx, rfl⟩
        exact ⟨x, hx, by rw [if_neg hy]⟩
    rw [himg, Finset.card_erase_of_mem hvm, h]
    have hpos : 0 < ((Finset.range n).image (fun x : Nat => set.find (x : Int))).card :=
      Finset.card_pos.2 ⟨_, hvm⟩
    omega

theorem count_one_iff (n : Nat) (set : Disjoint_sets) (P : List Edge)
    (hrep : Represents set P) (hc : Counted n set) :
    set.disjoint_sets = 1 ↔ 0 < n ∧ All_connected n P := by
  simp only [Disjoint_sets.disjoint_sets]
  rw [hc]
  constructor
  · intro h1
    have h1 : ((Finset.range n).image (fun x : Nat => set.find (x : Int))).card = 1 := by
      exact_mod_cast h1
    obtain ⟨y, hy⟩ := Finset.card_eq_one.1 h1
    have hall : ∀ a : Int, 0 ≤ a → a < (n : Int) → set.find a = y := by
      intro a ha0 ha
      have : set.find a ∈ (Finset.range n).image (fun x : Nat => set.find (x : Int)) := by
        refine Finset.mem_image.2 ⟨a.toNat, Finset.mem_range.2 (by omega), ?_⟩
        rw [Int.toNat_of_nonneg ha0]
      rw [hy] at this
      exact Finset.mem_singleton.1 this
    constructor
    · by_contra hn
      have hn0 : n = 0 := by omega
      subst hn0
      simp at h1
    · intro a b ha0 ha hb0 hb
      exact (hrep a b).1 ((hall a ha0 ha).trans (hall b hb0 hb).symm)
  · rintro ⟨hn, hall⟩
    have : (Finset.range n).image (fun x : Nat => set.find (x : Int)) = {set.find 0} := by
      ext y
      simp only [Finset.mem_image, Finset.mem_range, Finset.mem_singleton]
      constructor
      · rintro ⟨x, hx, rfl⟩
        exact (hrep _ _).2 (hall (x : Int) 0 (by omega) (by omega) (le_refl 0) (by omega))
      · rintro rfl
        exact ⟨0, hn, by simp⟩
    rw [this]
    simp

/-! ## The loop body over a list of edges -/

theorem in_range_tail {n : Nat} {e : Edge} {es : List Edge} (h : In_range n (e :: es)) :
    In_range n es :=
  fun x hx => h x (List.mem_cons_of_mem _ hx)

theorem unite_of_one (n : Nat) (E : List Edge) (P : List Edge) (set : Disjoint_sets)
    (hrep : Represents set P) (hc : Counted n set) (h1 : set.disjoint_sets = 1)
    (hr : In_range n E) : unite set E = set := by
  induction E with
  | nil => rfl
  | cons e es ih =>
    obtain ⟨h10, h1n, h20, h2n⟩ := hr e (List.mem_cons_self _ _)
    have hall := ((count_one_iff n set P hrep hc).1 h1).2
    have hs : set.find e.v1 = set.find e.v2 := (hrep _ _).2 (hall _ _ h10 h1n h20 h2n)
    simp only [unite]
    rw [set_union_same _ _ _ _ hs]
    exact ih (in_range_tail hr)

theorem scan_fst (n : Nat) (E : List Edge) :
    ∀ (P : List Edge) (set : Disjoint_sets) (j : Int), Represents set P → Counted n set →
      In_range n E → (scan set j E).1 = (unite set E).total_weight := by
  induction E with
  | nil => intro P set j _ _ _; rfl
  | cons e es ih =>
    intro P set j hrep hc hr
    obtain ⟨h10, h1n, h20, h2n⟩ := hr e (List.mem_cons_self _ _)
    have hrep1 := represents_union set P e hrep
    have hc1 := counted_union n set e.v1 e.v2 e.weight hc h10 h1n h20 h2n
    simp only [scan, unite]
    split_ifs with h1
    · rw [unite_of_one n es (e :: P) _ hrep1 hc1 h1 (in_range_tail hr)]
      rfl
    · exact ih (e :: P) _ _ hrep1 hc1 (in_range_tail hr)

theorem all_connected_mono {n : Nat} {L L1 : List Edge} (h : ∀ e ∈ L, e ∈ L1)
    (hc : All_connected n L) : All_connected n L1 :=
  fun a b ha0 ha hb0 hb => (hc a b ha0 ha hb0 hb).mono h

/-- The loop body returns after the first edge that completes the connection of all the
vertices, and its result is the one of the edges up to that one. -/
theorem scan_stop (n : Nat) (E : List Edge) :
    ∀ (P : List Edge) (set : Disjoint_sets) (j : Int) (k : Nat),
      Represents set P → Counted n set → In_range n E → 1 ≤ k → k ≤ E.length →
      All_connected n (P ++ E.take k) →
      (∀ k1, 1 ≤ k1 → k1 < k → ¬ All_connected n (P ++ E.take k1)) →
      (scan set j E).2 = j + k ∧ scan set j E = scan set j (E.take k) := by
  induction E with
  | nil =>
    intro P set j k _ _ _ hk1 hk
    simp only [List.length_nil] at hk
    omega
  | cons e es ih =>
    intro P set j k hrep hc hr hk1 hk hall hleast
    obtain ⟨h10, h1n, h20, h2n⟩ := hr e (List.mem_cons_self _ _)
    have hrep1 := represents_union set P e hrep
    have hc1 := counted_union n set e.v1 e.v2 e.weight hc h10 h1n h20 h2n
    have hn : 0 < n := by omega
    obtain ⟨k0, rfl⟩ : ∃ k0, k = k0 + 1 := ⟨k - 1, by omega⟩
    simp only [List.take_succ_cons, scan]
    rcases Nat.eq_zero_or_pos k0 with hk0 | hk0
    · subst hk0
      have h1 : (set.set_union e.v1 e.v2 e.weight).disjoint_sets = 1 := by
        rw [count_one_iff n _ (e :: P) hrep1 hc1]
        refine ⟨hn, all_connected_mono ?_ hall⟩
        intro x hx
        simp only [List.take_succ_cons, List.take_zero, List.mem_append, List.mem_cons,
          List.not_mem_nil, or_false] at hx ⊢
        tauto
      rw [if_pos h1, if_pos h1]
      simp
    · have h1 : ¬ (set.set_union e.v1 e.v2 e.weight).disjoint_sets = 1 := by
        rw [count_one_iff n _ (e :: P) hrep1 hc1]
        rintro ⟨_, hcon⟩
        refine hleast 1 (le_refl 1) (by omega) (all_connected_mono ?_ hcon)
        intro x hx
        simp only [List.take_succ_cons, List.take_zero, List.mem_append, List.mem_cons,
          List.not_mem_nil, or_false] at hx ⊢
        tauto
      rw [if_neg h1, if_neg h1]
      have := ih (e :: P) (set.set_union e.v1 e.v2 e.weight) (j + 1) k0 hrep1 hc1
        (in_range_tail hr) hk0 (by simpa using hk)
        (all_connected_mono (fun x hx => by
          simp only [List.take_succ_cons, List.cons_append, List.mem_append, List.mem_cons]
            at hx ⊢
          tauto) hall)
        (fun k1 hk1 hk1k hcon => hleast (k1 + 1) (by omega) (by omega)
          (all_connected_mono (fun x hx => by
            simp only [List.take_succ_cons, List.cons_append, List.mem_append,
              List.mem_cons] at hx ⊢
            tauto) hcon))
      refine ⟨?_, this.2⟩
      rw [this.1]
      push_cast
      ring

/-- The loop body visits every edge of the list when no edge completes the connection
of all the vertices. -/
theorem scan_all (n : Nat) (E : List Edge) :
    ∀ (P : List Edge) (set : Disjoint_sets) (j : Int),
      Represents set P → Counted n set → In_range n E →
      (∀ k1, 1 ≤ k1 → k1 ≤ E.length → ¬ All_connected n (P ++ E.take k1)) →
      (scan set j E).2 = j + E.length := by
  induction E with
  | nil => intro P set j _ _ _ _; simp [scan]
  | cons e es ih =>
    intro P set j hrep hc hr hnone
    obtain ⟨h10, h1n, h20, h2n⟩ := hr e (List.mem_cons_self _ _)
    have hrep1 := represents_union set P e hrep
    have hc1 := counted_union n set e.v1 e.v2 e.weight hc h10 h1n h20 h2n
    have h1 : ¬ (set.set_union e.v1 e.v2 e.weight).disjoint_sets = 1 := by
      rw [count_one_iff n _ (e :: P) hrep1 hc1]
      rintro ⟨_, hcon⟩
      refine hnone 1 (le_refl 1) (by simp) (all_connected_mono ?_ hcon)
      intro x hx
      simp only [List.take_succ_cons, List.take_zero, List.mem_append, List.mem_cons,
        List.not_mem_nil, or_false] at hx ⊢
      tauto
    simp only [scan]
    rw [if_neg h1]
    rw [ih (e :: P) _ (j + 1) hrep1 hc1 (in_range_tail hr)
      (fun k1 hk1 hk1k hcon => hnone (k1 + 1) (by omega) (by simpa using hk1k)
        (all_connected_mono (fun x hx => by
          simp only [List.take_succ_cons, List.cons_append, List.mem_append,
            List.mem_cons] at hx ⊢
          tauto) hcon))]
    simp only [List.length_cons]
    push_cast
    ring

namespace Weighted_graph

/-! ## The minimum spanning tree -/

theorem in_range_inorder (g : Weighted_graph) (h : Inv g) :
    In_range g.N g.tree.root.inorder := by
  intro e he
  obtain ⟨h1, h2, h0, hlt, hN, _⟩ := h.slot _ _ e ((h.mem_tree e).1 he)
  omega

theorem has_edge_iff (g : Weighted_graph) (h : Inv g) (e : Edge) :
    g.has_edge e ↔ e ∈ g.tree.root.inorder := by
  rw [h.mem_tree]
  constructor
  · rintro ⟨i, j, hij⟩
    obtain ⟨h1, h2, _⟩ := h.slot i j e hij
    rw [h1, h2]; exact hij
  · intro he
    exact ⟨_, _, he⟩

theorem minimum_spanning_tree_fst (g : Weighted_graph) (h : Inv g) :
    (minimum_spanning_tree g).1 =
      weight_sum (merging (Disjoint_sets.init g.N) g.tree.root.inorder) := by
  rw [minimum_spanning_tree_eq_scan,
    scan_fst g.N _ [] _ 0 (represents_init g.N) (counted_init g.N) (in_range_inorder g h),
    unite_weight]
  simp [Disjoint_sets.init]

theorem reachable_scenario_A (c0 : Int) : Reachable tie_right (scenario_A c0) :=
  Reachable.step _ _ (Reachable.step _ _ (Reachable.step _ _ (Reachable.step _ _
    (Reachable.construct 4 c0))))

theorem reachable_scenario_B (c0 : Int) : Reachable tie_right (scenario_B c0) :=
  Reachable.step _ _ (Reachable.step _ _ (Reachable.construct 4 c0))

/-- C1: for every reachable graph the weight returned by `minimum_spanning_tree()` is
the minimum of the total weights of the spanning forests of the graph: some spanning
forest has that weight and no spanning forest has a smaller one, whatever the tie rule
of the search tree. -/
theorem minimum_spanning_tree_weight_is_minimum (tie : Edge → Edge → Bool)
    (g : Weighted_graph) (h : Reachable tie g) :
    (∃ F, Spanning_forest g F ∧ weight_sum F = (minimum_spanning_tree g).1) ∧
      ∀ F, Spanning_forest g F → (minimum_spanning_tree g).1 ≤ weight_sum F := by
  have hinv := reachable_inv tie g h
  constructor
  · refine ⟨merging (Disjoint_sets.init g.N) g.tree.root.inorder, ⟨?_, ?_, ?_⟩,
      (minimum_spanning_tree_fst g hinv).symm⟩
    · intro e he
      exact (has_edge_iff g hinv e).2 (merging_sub _ _ e he)
    · intro e he
      have := merging_acyclic g.tree.root.inorder [] _ (represents_init g.N) e he
      simpa using this
    · intro e he
      have := merging_spanning g.tree.root.inorder [] _ (represents_init g.N) e
        ((has_edge_iff g hinv e).1 he)
      simpa using this
  · intro F hF
    rw [minimum_spanning_tree_eq_scan,
      scan_fst g.N _ [] _ 0 (represents_init g.N) (counted_init g.N)
        (in_range_inorder g hinv)]
    have := unite_weight_le g.tree.root.inorder hinv.sorted [] (Disjoint_sets.init g.N) F
      (represents_init g.N) (nodup_of_acyclic F hF.acyclic)
      (fun f hf => (has_edge_iff g hinv f).1 (hF.sub f hf))
      (by simpa using hF.acyclic)
      (fun e he => by simpa using hF.spanning e ((has_edge_iff g hinv e).2 he))
    simpa [Disjoint_sets.init] using this

theorem minimum_spanning_tree_weight_is_minimum_witness :
    Reachable tie_right (scenario_A 0) ∧
      ((∃ F, Spanning_forest (scenario_A 0) F ∧
          weight_sum F = (minimum_spanning_tree (scenario_A 0)).1) ∧
        ∀ F, Spanning_forest (scenario_A 0) F →
          (minimum_spanning_tree (scenario_A 0)).1 ≤ weight_sum F) :=
  ⟨reachable_scenario_A 0,
    minimum_spanning_tree_weight_is_minimum tie_right (scenario_A 0) (reachable_scenario_A 0)⟩

/-- C2: when `k` is the least number such that the first `k` edges of the ascending
traversal connect all `N` vertices, `minimum_spanning_tree()` returns
`edges_tested = k`, and what it returns is what the loop returns on these `k` edges
alone: the later edges are not examined. -/
theorem minimum_spanning_tree_stops_at_least_prefix (tie : Edge → Edge → Bool)
    (g : Weighted_graph) (h : Reachable tie g) (k : Nat)
    (hk : k ≤ g.tree.root.inorder.length)
    (hall : All_connected g.N (g.tree.root.inorder.take k))
    (hleast : ∀ k1, k1 < k → ¬ All_connected g.N (g.tree.root.inorder.take k1)) :
    (minimum_spanning_tree g).2 = k ∧
      minimum_spanning_tree g =
        scan (Disjoint_sets.init g.N) 0 (g.tree.root.inorder.take k) := by
  have hinv := reachable_inv tie g h
  rw [minimum_spanning_tree_eq_scan]
  rcases Nat.eq_zero_or_pos k with hk0 | hk0
  · subst hk0
    have hnil : g.tree.root.inorder = [] := by
      rw [List.eq_nil_iff_forall_not_mem]
      intro e he
      obtain ⟨h10, h1n, h20, h2n⟩ := in_range_inorder g hinv e he
      obtain ⟨_, _, _, hlt, _, _⟩ := hinv.slot _ _ e ((hinv.mem_tree e).1 he)
      have := connected_nil (hall e.v1 e.v2 h10 h1n h20 h2n)
      omega
    rw [hnil]
    simp [scan]
  · have := scan_stop g.N g.tree.root.inorder [] (Disjoint_sets.init g.N) 0 k
      (represents_init g.N) (counted_init g.N) (in_range_inorder g hinv) hk0 hk
      (by simpa using hall) (fun k1 _ hk1 => by simpa using hleast k1 hk1)
    simpa using this


theorem connected_label {L : List Edge} (f : Int → Int) (hf : ∀ e ∈ L, f e.v1 = f e.v2)
    {a b : Int} (h : Connected L a b) : f a = f b := by
  induction h with
  | refl a => rfl
  | edge e he => exact hf e he
  | symm _ ih => exact ih.symm
  | trans _ _ ih1 ih2 => exact ih1.trans ih2

theorem inorder_scenario_A (c0 : Int) :
    (scenario_A c0).tree.root.inorder = [⟨0, 1, 1⟩, ⟨1, 2, 2⟩, ⟨2, 3, 3⟩, ⟨0, 3, 10⟩] := by
  rfl

theorem inorder_scenario_B (c0 : Int) :
    (scenario_B c0).tree.root.inorder = [⟨0, 1, 1⟩, ⟨2, 3, 2⟩] := by
  rfl

theorem minimum_spanning_tree_stops_at_least_prefix_witness :
    Reachable tie_right (scenario_A 0) ∧
      3 ≤ (scenario_A 0).tree.root.inorder.length ∧
      All_connected (scenario_A 0).N ((scenario_A 0).tree.root.inorder.take 3) ∧
      (∀ k1, k1 < 3 →
        ¬ All_connected (scenario_A 0).N ((scenario_A 0).tree.root.inorder.take k1)) ∧
      ((minimum_spanning_tree (scenario_A 0)).2 = ((3 : Nat) : Int) ∧
        minimum_spanning_tree (scenario_A 0) =
          scan (Disjoint_sets.init (scenario_A 0).N) 0
            ((scenario_A 0).tree.root.inorder.take 3)) := by
  have hlen : 3 ≤ (scenario_A 0).tree.root.inorder.length := by
    rw [inorder_scenario_A]; decide
  have hall : All_connected (scenario_A 0).N ((scenario_A 0).tree.root.inorder.take 3) := by
    rw [inorder_scenario_A]
    have h01 : Connected [(⟨0, 1, 1⟩ : Edge), ⟨1, 2, 2⟩, ⟨2, 3, 3⟩] 0 1 :=
      Connected.edge ⟨0, 1, 1⟩ (by simp)
    have h12 : Connected [(⟨0, 1, 1⟩ : Edge), ⟨1, 2, 2⟩, ⟨2, 3, 3⟩] 1 2 :=
      Connected.edge ⟨1, 2, 2⟩ (by simp)
    have h23 : Connected [(⟨0, 1, 1⟩ : Edge), ⟨1, 2, 2⟩, ⟨2, 3, 3⟩] 2 3 :=
      Connected.edge ⟨2, 3, 3⟩ (by simp)
    have h0 : ∀ a : Int, 0 ≤ a → a < 4 →
        Connected [(⟨0, 1, 1⟩ : Edge), ⟨1, 2, 2⟩, ⟨2, 3, 3⟩] 0 a := by
      intro a ha0 ha
      have : a = 0 ∨ a = 1 ∨ a = 2 ∨ a = 3 := by omega
      rcases this with rfl | rfl | rfl | rfl
      · exact Connected.refl 0
      · exact h01
      · exact h01.trans h12
      · exact (h01.trans h12).trans h23
    intro a b ha0 ha hb0 hb
    exact (h0 a ha0 ha).symm.trans (h0 b hb0 hb)
  have hleast : ∀ k1, k1 < 3 →
      ¬ All_connected (scenario_A 0).N ((scenario_A 0).tree.root.inorder.take k1) := by
    intro k1 hk1 hcon
    rw [inorder_scenario_A] at hcon
    have h03 := hcon 0 3 (by decide) (by decide) (by decide) (by decide)
    have hlab := connected_label (fun v => if v = 3 then 1 else 0) (by
      intro e he
      have hsub : e ∈ [(⟨0, 1, 1⟩ : Edge), ⟨1, 2, 2⟩] := by
        have : k1 = 0 ∨ k1 = 1 ∨ k1 = 2 := by omega
        rcases this with rfl | rfl | rfl <;> simp at he ⊢ <;> tauto
      simp only [List.mem_cons, List.mem_singleton, List.not_mem_nil, or_false] at hsub
      rcases hsub with rfl | rfl <;> decide) h03
    simp at hlab
  exact ⟨reachable_scenario_A 0, hlen, hall, hleast,
    minimum_spanning_tree_stops_at_least_prefix tie_right (scenario_A 0)
      (reachable_scenario_A 0) 3 hlen hall hleast⟩

theorem N_scenario_A (c0 : Int) : (scenario_A c0).N = 4 := rfl

end Weighted_graph

namespace Weighted_graph

theorem minimum_spanning_tree_scenario_A (c0 : Int) :
    minimum_spanning_tree (scenario_A c0) = (6, 3) := by
  rw [minimum_spanning_tree_eq_scan, inorder_scenario_A, N_scenario_A]
  simp [scan, Disjoint_sets.set_union, Disjoint_sets.init, Disjoint_sets.disjoint_sets,
    Disjoint_sets.get_weight]
  norm_num

theorem N_scenario_B (c0 : Int) : (scenario_B c0).N = 4 := rfl

theorem minimum_spanning_tree_scenario_B (c0 : Int) :
    minimum_spanning_tree (scenario_B c0) = (3, 2) := by
  rw [minimum_spanning_tree_eq_scan, inorder_scenario_B, N_scenario_B]
  simp [scan, Disjoint_sets.set_union, Disjoint_sets.init, Disjoint_sets.disjoint_sets,
    Disjoint_sets.get_weight]
  norm_num

theorem edge_count_scenario_B (c0 : Int) : (scenario_B c0).edge_count = c0 + 2 := by
  simp only [edge_count]
  have : (scenario_B c0).edge_counter = c0 + 1 + 1 := rfl
  rw [this]; ring

/-- Every prefix of the traversal of scenario B leaves the vertices 0 and 2 apart. -/
theorem scenario_B_not_connected (c0 : Int) (k : Nat) :
    ¬ All_connected (scenario_B c0).N ((scenario_B c0).tree.root.inorder.take k) := by
  intro hcon
  rw [inorder_scenario_B, N_scenario_B] at hcon
  have h02 := hcon 0 2 (by decide) (by decide) (by decide) (by decide)
  have hlab := connected_label (fun v => if v = 2 ∨ v = 3 then 1 else 0) (by
    intro e he
    have hsub : e ∈ [(⟨0, 1, 1⟩ : Edge), ⟨2, 3, 2⟩] := List.mem_of_mem_take he
    simp only [List.mem_cons, List.mem_singleton, List.not_mem_nil, or_false] at hsub
    rcases hsub with rfl | rfl <;> decide) h02
  simp at hlab

/-- The number of edges that `minimum_spanning_tree()` takes from the traversal, and
the weight it returns: some `m`, at most the number of edges in the tree, such that
`edges_tested` is `m` and the weight is the sum of the weights of those of the first `m`
edges whose union merged two sets. -/
theorem scan_examined (E : List Edge) :
    ∀ (set : Disjoint_sets) (j : Int), ∃ m : Nat, m ≤ E.length ∧
      (scan set j E).2 = j + m ∧
      (scan set j E).1 = set.total_weight + weight_sum (merging set (E.take m)) := by
  induction E with
  | nil => intro set j; exact ⟨0, le_refl _, by simp [scan], by simp [scan, merging, weight_sum, Disjoint_sets.get_weight]⟩
  | cons e es ih =>
    intro set j
    have hw : (set.set_union e.v1 e.v2 e.weight).total_weight =
        set.total_weight + weight_sum (merging set [e]) := by
      by_cases hs : set.find e.v1 = set.find e.v2
      · simp [Disjoint_sets.set_union, merging, hs, weight_sum]
      · simp [Disjoint_sets.set_union, merging, hs, weight_sum]
    simp only [scan]
    split_ifs with h1
    · exact ⟨1, by simp, by simp, by simpa [Disjoint_sets.get_weight] using hw⟩
    · obtain ⟨m, hm, h2, h3⟩ := ih (set.set_union e.v1 e.v2 e.weight) (j + 1)
      refine ⟨m + 1, by simpa using hm, by rw [h2]; push_cast; ring, ?_⟩
      rw [h3, List.take_succ_cons]
      simp only [merging]
      by_cases hs : set.find e.v1 = set.find e.v2
      · rw [if_pos hs, set_union_same _ _ _ _ hs]
      · rw [if_neg hs, weight_sum_cons]
        simp only [Disjoint_sets.set_union, if_neg hs]
        ring

theorem minimum_spanning_tree_examined (g : Weighted_graph) :
    ∃ m : Nat, m ≤ g.tree.root.inorder.length ∧
      (minimum_spanning_tree g).2 = m ∧
      (minimum_spanning_tree g).1 =
        weight_sum (merging (Disjoint_sets.init g.N) (g.tree.root.inorder.take m)) := by
  obtain ⟨m, hm, h2, h3⟩ := scan_examined g.tree.root.inorder (Disjoint_sets.init g.N) 0
  refine ⟨m, hm, ?_, ?_⟩
  · rw [minimum_spanning_tree_eq_scan, h2]; simp
  · rw [minimum_spanning_tree_eq_scan, h3]; simp [Disjoint_sets.init]

/-- On a reachable graph that no prefix of the traversal connects,
`minimum_spanning_tree()` visits every edge of the tree: `edges_tested` is the number
of stored edges. -/
theorem minimum_spanning_tree_visits_all (tie : Edge → Edge → Bool) (g : Weighted_graph)
    (h : Reachable tie g)
    (hnone : ∀ k, k ≤ g.tree.root.inorder.length →
      ¬ All_connected g.N (g.tree.root.inorder.take k)) :
    (minimum_spanning_tree g).2 = g.tree.root.inorder.length := by
  have hinv := reachable_inv tie g h
  rw [minimum_spanning_tree_eq_scan,
    scan_all g.N _ [] _ 0 (represents_init g.N) (counted_init g.N) (in_range_inorder g hinv)
      (fun k _ hk => by simpa using hnone k hk)]
  simp

/-- The counter follows the number of stored edges: when `edge_counter` is the number
of edges in the tree before a call, it is so after the call. -/
theorem edge_counter_after (tie : Edge → Edge → Bool) (g : Weighted_graph) (h : Inv g)
    (c : Call) (hc : g.edge_counter = g.tree.root.inorder.length) :
    (g.after tie c).edge_counter = (g.after tie c).tree.root.inorder.length := by
  have hstore : ∀ (g1 : Weighted_graph) (i j : Int) (d : ℚ),
      g1.edge_counter = g1.tree.root.inorder.length →
      (store_edge tie g1 i j d).edge_counter =
        (store_edge tie g1 i j d).tree.root.inorder.length := by
    intro g1 i j d h1
    simp only [store_edge, Binary_search_tree.insert]
    rw [(Binary_search_node.inorder_insert_perm tie _ _).length_eq, h1]
    simp
  have hremove : ∀ (i j : Int) (e : Edge), g.edges i j = some e →
      (remove_edge g i j e).edge_counter =
        (remove_edge g i j e).tree.root.inorder.length := by
    intro i j e he
    have hmem : e ∈ g.tree.root.inorder := by
      rw [h.mem_tree]
      obtain ⟨h1, h2, _⟩ := h.slot i j e he
      rw [h1, h2]; exact he
    rw [inorder_remove_edge g h, List.length_erase_of_mem hmem]
    simp only [remove_edge]
    rw [hc]
    have : 0 < g.tree.root.inorder.length := List.length_pos_of_mem hmem
    omega
  cases c with
  | insert_edge i j d =>
    simp only [after, insert_edge_eq]
    split_ifs with hr he
    · exact hc
    · exact hc
    · cases hE : g.edges (min i j) (max i j) with
      | none => exact hstore g _ _ d hc
      | some e0 =>
        simp only
        split_ifs with hw
        · exact hc
        · exact hstore _ _ _ d (hremove _ _ e0 hE)
  | erase_edge i j =>
    simp only [after, erase_edge_eq]
    split_ifs with hr
    · exact hc
    · cases hE : g.edges (min i j) (max i j) with
      | none => exact hc
      | some e0 => exact hremove _ _ e0 hE
  | clear_edges =>
    simp [after, clear_edges, Binary_search_tree.clear, Binary_search_tree.empty,
      Binary_search_node.inorder]

/-- C3: scenario B on a graph whose counter held 7 at construction. No prefix of the
traversal connects the four vertices; `minimum_spanning_tree()` returns weight 3 and
`edges_tested = 2`, the number of stored edges, while `edge_count()` returns 9. -/
theorem edges_tested_differs_from_edge_count :
    Reachable tie_right (scenario_B 7) ∧
      (∀ k, ¬ All_connected (scenario_B 7).N ((scenario_B 7).tree.root.inorder.take k)) ∧
      minimum_spanning_tree (scenario_B 7) = (3, 2) ∧
      (scenario_B 7).tree.root.inorder.length = 2 ∧
      (scenario_B 7).edge_count = 9 ∧
      (minimum_spanning_tree (scenario_B 7)).2 ≠ (scenario_B 7).edge_count := by
  refine ⟨reachable_scenario_B 7, scenario_B_not_connected 7,
    minimum_spanning_tree_scenario_B 7, by rw [inorder_scenario_B]; rfl, ?_, ?_⟩
  · rw [edge_count_scenario_B]; norm_num
  · rw [minimum_spanning_tree_scenario_B, edge_count_scenario_B]; norm_num

/-- C4: scenario B on a graph whose counter held -5 at construction.
`minimum_spanning_tree()` takes two edges from the traversal and returns
`edges_tested = 2`, while `edge_count()` returns -3: `edges_tested` exceeds it. -/
theorem edges_tested_exceeds_edge_count :
    Reachable tie_right (scenario_B (-5)) ∧
      minimum_spanning_tree (scenario_B (-5)) = (3, 2) ∧
      (scenario_B (-5)).edge_count = -3 ∧
      ¬ (minimum_spanning_tree (scenario_B (-5))).2 ≤ (scenario_B (-5)).edge_count := by
  refine ⟨reachable_scenario_B (-5), minimum_spanning_tree_scenario_B (-5), ?_, ?_⟩
  · rw [edge_count_scenario_B]; norm_num
  · rw [minimum_spanning_tree_scenario_B, edge_count_scenario_B]; norm_num

/-- C7: a graph of four vertices constructed where the storage of `edge_counter` held 7
has no edge in the Point Index, and `edge_count()` returns 7. -/
theorem edge_count_of_new_graph_not_pair_count :
    Reachable tie_right (construct 4 7) ∧
      (∀ i j, (construct 4 7).edges i j = none) ∧
      (construct 4 7).pair_count = 0 ∧
      (construct 4 7).edge_count = 7 ∧
      (construct 4 7).edge_count ≠ ((construct 4 7).pair_count : Int) := by
  refine ⟨Reachable.construct 4 7, fun _ _ => rfl, by decide, rfl, by decide⟩

end Weighted_graph

namespace Weighted_graph

/-! ## The two indices -/

/-- C5: in every state reachable by calls of `insert_edge`, `erase_edge` and
`clear_edges`, those that throw or return `false` included, the edges stored in the
matrix are exactly the edges held by the tree, and the tree holds each of them once. -/
theorem point_index_eq_ordered_index (tie : Edge → Edge → Bool) (g : Weighted_graph)
    (h : Reachable tie g) :
    (∀ e, g.has_edge e ↔ e ∈ g.tree.root.inorder) ∧ g.tree.root.inorder.Nodup :=
  ⟨has_edge_iff g (reachable_inv tie g h), (reachable_inv tie g h).nodup⟩

theorem point_index_eq_ordered_index_witness :
    Reachable tie_right (scenario_A 0) ∧
      ((∀ e, (scenario_A 0).has_edge e ↔ e ∈ (scenario_A 0).tree.root.inorder) ∧
        (scenario_A 0).tree.root.inorder.Nodup) :=
  ⟨reachable_scenario_A 0,
    point_index_eq_ordered_index tie_right (scenario_A 0) (reachable_scenario_A 0)⟩

/-- With weights that are numbers: in every reachable state a stored edge sits in a slot
`(i, j)` with `i < j`, records `v1 = i` and `v2 = j` and has a weight that is not
negative; no slot on or below the diagonal is occupied; and two stored edges on the same
unordered pair of vertices are the same edge. -/
theorem stored_edges_canonical (tie : Edge → Edge → Bool) (g : Weighted_graph)
    (h : Reachable tie g) :
    (∀ i j e, g.edges i j = some e → i < j ∧ e.v1 = i ∧ e.v2 = j ∧ 0 ≤ e.weight) ∧
      (∀ i j, j ≤ i → g.edges i j = none) ∧
      (∀ e1 e2, g.has_edge e1 → g.has_edge e2 →
        (e1.v1 = e2.v1 ∧ e1.v2 = e2.v2) ∨ (e1.v1 = e2.v2 ∧ e1.v2 = e2.v1) → e1 = e2) := by
  have hinv := reachable_inv tie g h
  refine ⟨?_, ?_, ?_⟩
  · intro i j e he
    obtain ⟨h1, h2, _, hlt, _, hw⟩ := hinv.slot i j e he
    exact ⟨hlt, h1, h2, hw⟩
  · intro i j hji
    cases he : g.edges i j with
    | none => rfl
    | some e =>
      obtain ⟨_, _, _, hlt, _, _⟩ := hinv.slot i j e he
      omega
  · rintro e1 e2 ⟨i1, j1, he1⟩ ⟨i2, j2, he2⟩ hpair
    obtain ⟨h11, h12, _, hlt1, _, _⟩ := hinv.slot i1 j1 e1 he1
    obtain ⟨h21, h22, _, hlt2, _, _⟩ := hinv.slot i2 j2 e2 he2
    rcases hpair with ⟨ha, hb⟩ | ⟨ha, hb⟩
    · have hi : i1 = i2 := by omega
      have hj : j1 = j2 := by omega
      subst hi hj
      rw [he1] at he2
      exact Option.some.inj he2
    · omega

theorem stored_edges_canonical_witness :
    Reachable tie_right (scenario_A 0) ∧
      ((∀ i j e, (scenario_A 0).edges i j = some e →
          i < j ∧ e.v1 = i ∧ e.v2 = j ∧ 0 ≤ e.weight) ∧
        (∀ i j, j ≤ i → (scenario_A 0).edges i j = none) ∧
        (∀ e1 e2, (scenario_A 0).has_edge e1 → (scenario_A 0).has_edge e2 →
          (e1.v1 = e2.v1 ∧ e1.v2 = e2.v2) ∨ (e1.v1 = e2.v2 ∧ e1.v2 = e2.v1) → e1 = e2)) :=
  ⟨reachable_scenario_A 0,
    stored_edges_canonical tie_right (scenario_A 0) (reachable_scenario_A 0)⟩

/-! ## insert_edge -/

theorem min_lt_max_of_ne {i j : Int} (h : i ≠ j) : min i j < max i j := by
  rcases lt_or_gt_of_ne h with hlt | hlt
  · rw [min_eq_left (le_of_lt hlt), max_eq_right (le_of_lt hlt)]; exact hlt
  · rw [min_eq_right (le_of_lt hlt), max_eq_left (le_of_lt hlt)]; exact hlt

/-- C8: when `i` and `j` are two different vertices, `w` is not negative and neither
`edges[i][j]` nor `edges[j][i]` is set, `insert_edge(i, j, w)` returns `true`; the
counter grows by one, the slot `(min i j, max i j)` holds the edge
`(min i j, max i j, w)`, the tree holds that edge in addition to the edges it held, and
every other slot of the matrix is as before. -/
theorem insert_edge_new_pair (tie : Edge → Edge → Bool) (g : Weighted_graph) (i j : Int)
    (w : ℚ) (hi0 : 0 ≤ i) (hi : i < (g.N : Int)) (hj0 : 0 ≤ j) (hj : j < (g.N : Int))
    (hij : i ≠ j) (hw : 0 ≤ w) (hnone : g.edges i j = none ∧ g.edges j i = none) :
    insert_edge tie g i j w = .ok (true, g.after tie (Call.insert_edge i j w)) ∧
      (g.after tie (Call.insert_edge i j w)).edge_count = g.edge_count + 1 ∧
      (g.after tie (Call.insert_edge i j w)).edges (min i j) (max i j) =
        some ⟨min i j, max i j, w⟩ ∧
      (g.after tie (Call.insert_edge i j w)).tree.root.inorder.Perm
        (⟨min i j, max i j, w⟩ :: g.tree.root.inorder) ∧
      (∀ a b, ¬ (a = min i j ∧ b = max i j) →
        (g.after tie (Call.insert_edge i j w)).edges a b = g.edges a b) ∧
      (g.after tie (Call.insert_edge i j w)).N = g.N := by
  have hslot : g.edges (min i j) (max i j) = none := by
    rcases le_total i j with hle | hle
    · rw [min_eq_left hle, max_eq_right hle]; exact hnone.1
    · rw [min_eq_right hle, max_eq_left hle]; exact hnone.2
  have hr : ¬ (i < 0 ∨ i > (g.N : Int) - 1 ∨ j < 0 ∨ j > (g.N : Int) - 1 ∨ w < 0) := by
    simp only [not_or, not_lt, gt_iff_lt]
    exact ⟨hi0, by omega, hj0, by omega, hw⟩
  have hins : insert_edge tie g i j w =
      .ok (true, store_edge tie g (min i j) (max i j) w) := by
    rw [insert_edge_eq, if_neg hr, if_neg hij, hslot]
  have hafter : g.after tie (Call.insert_edge i j w) =
      store_edge tie g (min i j) (max i j) w := by
    simp only [after, hins]
  rw [hafter]
  refine ⟨hins, rfl, by simp [store_edge], ?_, ?_, rfl⟩
  · exact Binary_search_node.inorder_insert_perm tie _ _
  · intro a b hab
    simp only [store_edge]
    rw [if_neg hab]

theorem insert_edge_new_pair_witness :
    (0 : Int) ≤ 3 ∧ (3 : Int) < ((scenario_B 0).N : Int) ∧ (0 : Int) ≤ 1 ∧
      (1 : Int) < ((scenario_B 0).N : Int) ∧ (3 : Int) ≠ 1 ∧ (0 : ℚ) ≤ 5 ∧
      ((scenario_B 0).edges 3 1 = none ∧ (scenario_B 0).edges 1 3 = none) ∧
      (insert_edge tie_right (scenario_B 0) 3 1 5 =
          .ok (true, (scenario_B 0).after tie_right (Call.insert_edge 3 1 5)) ∧
        ((scenario_B 0).after tie_right (Call.insert_edge 3 1 5)).edge_count =
          (scenario_B 0).edge_count + 1 ∧
        ((scenario_B 0).after tie_right (Call.insert_edge 3 1 5)).edges (min 3 1) (max 3 1) =
          some ⟨min 3 1, max 3 1, 5⟩ ∧
        ((scenario_B 0).after tie_right (Call.insert_edge 3 1 5)).tree.root.inorder.Perm
          (⟨min 3 1, max 3 1, 5⟩ :: (scenario_B 0).tree.root.inorder) ∧
        (∀ a b, ¬ (a = min 3 1 ∧ b = max 3 1) →
          ((scenario_B 0).after tie_right (Call.insert_edge 3 1 5)).edges a b =
            (scenario_B 0).edges a b) ∧
        ((scenario_B 0).after tie_right (Call.insert_edge 3 1 5)).N = (scenario_B 0).N) :=
  ⟨by decide, by decide, by decide, by decide, by decide, by norm_num, ⟨rfl, rfl⟩,
    insert_edge_new_pair tie_right (scenario_B 0) 3 1 5 (by decide) (by decide) (by decide)
      (by decide) (by decide) (by norm_num) ⟨rfl, rfl⟩⟩

end Weighted_graph

namespace Weighted_graph

/-- C9: on a reachable graph whose slot `(min i j, max i j)` holds an edge `e0` of a
weight other than `w`, with `w` not negative, `insert_edge(i, j, w)` returns `true` and
leaves the counter as it was; afterwards the slot holds the edge of weight `w` and the
mirror slot is empty, the tree holds the edge of weight `w` in place of `e0`, and the
traversal that `minimum_spanning_tree()` walks has exactly one edge on the pair, of
weight `w`. -/
theorem insert_edge_new_weight (tie : Edge → Edge → Bool) (g : Weighted_graph)
    (h : Reachable tie g) (i j : Int) (w : ℚ) (e0 : Edge)
    (he0 : g.edges (min i j) (max i j) = some e0) (hw : 0 ≤ w) (hne : e0.weight ≠ w) :
    insert_edge tie g i j w = .ok (true, g.after tie (Call.insert_edge i j w)) ∧
      (g.after tie (Call.insert_edge i j w)).edge_count = g.edge_count ∧
      (g.after tie (Call.insert_edge i j w)).edges (min i j) (max i j) =
        some ⟨min i j, max i j, w⟩ ∧
      (g.after tie (Call.insert_edge i j w)).edges (max i j) (min i j) = none ∧
      (g.after tie (Call.insert_edge i j w)).tree.root.inorder.Perm
        (⟨min i j, max i j, w⟩ :: g.tree.root.inorder.erase e0) ∧
      e0 ∉ (g.after tie (Call.insert_edge i j w)).tree.root.inorder ∧
      (g.after tie (Call.insert_edge i j w)).tree.root.inorder.countP
        (fun x => decide (x.v1 = min i j ∧ x.v2 = max i j)) = 1 ∧
      (∀ x ∈ (g.after tie (Call.insert_edge i j w)).tree.root.inorder,
        x.v1 = min i j → x.v2 = max i j → x.weight = w) := by
  have hinv := reachable_inv tie g h
  have hinv1 := inv_after tie g hinv (Call.insert_edge i j w)
  obtain ⟨h1, h2, hlo0, hlt, hhi, _⟩ := hinv.slot _ _ e0 he0
  have hij : i ≠ j := by
    rintro rfl
    simp at hlt
  have hr : ¬ (i < 0 ∨ i > (g.N : Int) - 1 ∨ j < 0 ∨ j > (g.N : Int) - 1 ∨ w < 0) := by
    simp only [not_or, not_lt, gt_iff_lt]
    have := le_min_iff.1 hlo0
    have := max_lt_iff.1 hhi
    exact ⟨by omega, by omega, by omega, by omega, hw⟩
  have hins : insert_edge tie g i j w =
      .ok (true, store_edge tie (remove_edge g (min i j) (max i j) e0)
        (min i j) (max i j) w) := by
    rw [insert_edge_eq, if_neg hr, if_neg hij, he0]
    simp only
    rw [if_neg hne]
  have hafter : g.after tie (Call.insert_edge i j w) =
      store_edge tie (remove_edge g (min i j) (max i j) e0) (min i j) (max i j) w := by
    simp only [after, hins]
  rw [hafter] at hinv1 ⊢
  have hperm : (store_edge tie (remove_edge g (min i j) (max i j) e0)
      (min i j) (max i j) w).tree.root.inorder.Perm
      (⟨min i j, max i j, w⟩ :: g.tree.root.inorder.erase e0) := by
    have := Binary_search_node.inorder_insert_perm tie ⟨min i j, max i j, w⟩
      (remove_edge g (min i j) (max i j) e0).tree.root
    rw [inorder_remove_edge g hinv] at this
    exact this
  have hslot : (store_edge tie (remove_edge g (min i j) (max i j) e0)
      (min i j) (max i j) w).edges (min i j) (max i j) = some ⟨min i j, max i j, w⟩ := by
    simp [store_edge]
  have hiff : ∀ x ∈ (store_edge tie (remove_edge g (min i j) (max i j) e0)
      (min i j) (max i j) w).tree.root.inorder,
      (x.v1 = min i j ∧ x.v2 = max i j) ↔ x = ⟨min i j, max i j, w⟩ := by
    intro x hx
    constructor
    · rintro ⟨hx1, hx2⟩
      have := (hinv1.mem_tree x).1 hx
      rw [hx1, hx2, hslot] at this
      exact (Option.some.inj this).symm
    · rintro rfl
      exact ⟨rfl, rfl⟩
  have hmem : (⟨min i j, max i j, w⟩ : Edge) ∈ (store_edge tie
      (remove_edge g (min i j) (max i j) e0) (min i j) (max i j) w).tree.root.inorder :=
    hperm.mem_iff.2 (List.mem_cons_self _ _)
  refine ⟨hins, ?_, hslot, ?_, hperm, ?_, ?_, ?_⟩
  · simp only [edge_count, store_edge, remove_edge]
    ring
  · cases hE : (store_edge tie (remove_edge g (min i j) (max i j) e0)
        (min i j) (max i j) w).edges (max i j) (min i j) with
    | none => rfl
    | some x =>
      obtain ⟨_, _, _, hlt1, _, _⟩ := hinv1.slot _ _ x hE
      omega
  · intro hmem0
    rcases List.mem_cons.1 (hperm.mem_iff.1 hmem0) with heq | hin
    · apply hne
      rw [heq]
    · exact (hinv.nodup.mem_erase_iff.1 hin).1 rfl
  · have hcp : (store_edge tie (remove_edge g (min i j) (max i j) e0)
        (min i j) (max i j) w).tree.root.inorder.countP
          (fun x => decide (x.v1 = min i j ∧ x.v2 = max i j)) =
        (store_edge tie (remove_edge g (min i j) (max i j) e0)
          (min i j) (max i j) w).tree.root.inorder.countP
          (fun x => x == (⟨min i j, max i j, w⟩ : Edge)) :=
      List.countP_congr (fun x hx => by simpa using hiff x hx)
    rw [hcp]
    exact List.count_eq_one_of_mem hinv1.nodup hmem
  · intro x hx hx1 hx2
    rw [(hiff x hx).1 ⟨hx1, hx2⟩]

theorem insert_edge_new_weight_witness :
    Reachable tie_right (scenario_A 0) ∧
      (scenario_A 0).edges (min 1 0) (max 1 0) = some ⟨0, 1, 1⟩ ∧ (0 : ℚ) ≤ 5 / 2 ∧
      (⟨0, 1, 1⟩ : Edge).weight ≠ 5 / 2 ∧
      (insert_edge tie_right (scenario_A 0) 1 0 (5 / 2) =
          .ok (true, (scenario_A 0).after tie_right (Call.insert_edge 1 0 (5 / 2))) ∧
        ((scenario_A 0).after tie_right (Call.insert_edge 1 0 (5 / 2))).edge_count =
          (scenario_A 0).edge_count ∧
        ((scenario_A 0).after tie_right (Call.insert_edge 1 0 (5 / 2))).edges
          (min 1 0) (max 1 0) = some ⟨min 1 0, max 1 0, 5 / 2⟩ ∧
        ((scenario_A 0).after tie_right (Call.insert_edge 1 0 (5 / 2))).edges
          (max 1 0) (min 1 0) = none ∧
        ((scenario_A 0).after tie_right
          (Call.insert_edge 1 0 (5 / 2))).tree.root.inorder.Perm
          (⟨min 1 0, max 1 0, 5 / 2⟩ ::
            (scenario_A 0).tree.root.inorder.erase ⟨0, 1, 1⟩) ∧
        (⟨0, 1, 1⟩ : Edge) ∉
          ((scenario_A 0).after tie_right (Call.insert_edge 1 0 (5 / 2))).tree.root.inorder ∧
        ((scenario_A 0).after tie_right
          (Call.insert_edge 1 0 (5 / 2))).tree.root.inorder.countP
          (fun x => decide (x.v1 = min 1 0 ∧ x.v2 = max 1 0)) = 1 ∧
        (∀ x ∈ ((scenario_A 0).after tie_right
            (Call.insert_edge 1 0 (5 / 2))).tree.root.inorder,
          x.v1 = min 1 0 → x.v2 = max 1 0 → x.weight = 5 / 2)) :=
  ⟨reachable_scenario_A 0, rfl, by norm_num, by norm_num,
    insert_edge_new_weight tie_right (scenario_A 0) (reachable_scenario_A 0) 1 0 (5 / 2)
      ⟨0, 1, 1⟩ rfl (by norm_num) (by norm_num)⟩

/-- A second `insert_edge` with the same arguments leaves the graph as the first one
left it. -/
theorem after_insert_edge_twice (tie : Edge → Edge → Bool) (g : Weighted_graph) (i j : Int)
    (w : ℚ) :
    (g.after tie (Call.insert_edge i j w)).after tie (Call.insert_edge i j w) =
      g.after tie (Call.insert_edge i j w) := by
  have hnoop : ∀ (g1 : Weighted_graph) (e1 : Edge), g1.N = g.N →
      g1.edges (min i j) (max i j) = some e1 → e1.weight = w →
      g1.after tie (Call.insert_edge i j w) = g1 := by
    intro g1 e1 hN hE hw1
    simp only [after, insert_edge_eq, hN]
    split_ifs with hr he
    · rfl
    · rfl
    · rw [hE]
      simp only
      rw [if_pos hw1]
  by_cases hr : i < 0 ∨ i > (g.N : Int) - 1 ∨ j < 0 ∨ j > (g.N : Int) - 1 ∨ w < 0
  · have : g.after tie (Call.insert_edge i j w) = g := by
      simp only [after, insert_edge_eq, if_pos hr]
    rw [this, this]
  by_cases he : i = j
  · have : g.after tie (Call.insert_edge i j w) = g := by
      simp only [after, insert_edge_eq, if_neg hr, if_pos he]
    rw [this, this]
  cases hE : g.edges (min i j) (max i j) with
  | none =>
    have : g.after tie (Call.insert_edge i j w) =
        store_edge tie g (min i j) (max i j) w := by
      simp only [after, insert_edge_eq, if_neg hr, if_neg he, hE]
    rw [this]
    exact hnoop _ ⟨min i j, max i j, w⟩ rfl (by simp [store_edge]) rfl
  | some e0 =>
    by_cases hw0 : e0.weight = w
    · have : g.after tie (Call.insert_edge i j w) = g := by
        simp only [after, insert_edge_eq, if_neg hr, if_neg he, hE, if_pos hw0]
      rw [this, this]
    · have : g.after tie (Call.insert_edge i j w) =
          store_edge tie (remove_edge g (min i j) (max i j) e0) (min i j) (max i j) w := by
        simp only [after, insert_edge_eq, if_neg hr, if_neg he, hE, if_neg hw0]
      rw [this]
      exact hnoop _ ⟨min i j, max i j, w⟩ rfl (by simp [store_edge]) rfl

/-- With weights that are numbers: on a reachable graph whose slot `(min i j, max i j)`
holds an edge of weight `w`, `insert_edge(i, j, w)` returns `true` and the graph after
the call is the graph before it; and after any `insert_edge` a second one with the same
arguments leaves the graph as the first one left it. -/
theorem insert_edge_same_weight (tie : Edge → Edge → Bool) (g : Weighted_graph)
    (h : Reachable tie g) (i j : Int) (w : ℚ) (e0 : Edge)
    (he0 : g.edges (min i j) (max i j) = some e0) (hw : e0.weight = w) :
    insert_edge tie g i j w = .ok (true, g) ∧
      g.after tie (Call.insert_edge i j w) = g ∧
      ∀ (i1 j1 : Int) (w1 : ℚ),
        (g.after tie (Call.insert_edge i1 j1 w1)).after tie (Call.insert_edge i1 j1 w1) =
          g.after tie (Call.insert_edge i1 j1 w1) := by
  have hinv := reachable_inv tie g h
  obtain ⟨h1, h2, hlo0, hlt, hhi, hw0⟩ := hinv.slot _ _ e0 he0
  have hij : i ≠ j := by
    rintro rfl
    simp at hlt
  have hr : ¬ (i < 0 ∨ i > (g.N : Int) - 1 ∨ j < 0 ∨ j > (g.N : Int) - 1 ∨ w < 0) := by
    simp only [not_or, not_lt, gt_iff_lt]
    have := le_min_iff.1 hlo0
    have := max_lt_iff.1 hhi
    exact ⟨by omega, by omega, by omega, by omega, hw ▸ hw0⟩
  have hins : insert_edge tie g i j w = .ok (true, g) := by
    rw [insert_edge_eq, if_neg hr, if_neg hij, he0]
    simp only
    rw [if_pos hw]
  refine ⟨hins, ?_, fun i1 j1 w1 => after_insert_edge_twice tie g i1 j1 w1⟩
  simp only [after, hins]

theorem insert_edge_same_weight_witness :
    Reachable tie_right (scenario_A 0) ∧
      (scenario_A 0).edges (min 3 2) (max 3 2) = some ⟨2, 3, 3⟩ ∧
      (⟨2, 3, 3⟩ : Edge).weight = 3 ∧
      (insert_edge tie_right (scenario_A 0) 3 2 3 = .ok (true, scenario_A 0) ∧
        (scenario_A 0).after tie_right (Call.insert_edge 3 2 3) = scenario_A 0 ∧
        ∀ (i1 j1 : Int) (w1 : ℚ),
          ((scenario_A 0).after tie_right (Call.insert_edge i1 j1 w1)).after tie_right
              (Call.insert_edge i1 j1 w1) =
            (scenario_A 0).after tie_right (Call.insert_edge i1 j1 w1)) :=
  ⟨reachable_scenario_A 0, rfl, rfl,
    insert_edge_same_weight tie_right (scenario_A 0) (reachable_scenario_A 0) 3 2 3
      ⟨2, 3, 3⟩ rfl rfl⟩

end Weighted_graph

namespace Weighted_graph

/-! ## Self-loops, invalid arguments and argument order of insert_edge -/

/-- C11: for a vertex `v` of the graph and a weight `w` that is not negative,
`insert_edge(v, v, w)` does not throw and returns `false`, and the graph after the call
is the graph before it: the counter, the matrix and the tree are unchanged. -/
theorem insert_edge_self_loop (tie : Edge → Edge → Bool) (g : Weighted_graph) (v : Int)
    (w : ℚ) (hv0 : 0 ≤ v) (hv : v < (g.N : Int)) (hw : 0 ≤ w) :
    insert_edge tie g v v w = .ok (false, g) ∧
      g.after tie (Call.insert_edge v v w) = g ∧
      (g.after tie (Call.insert_edge v v w)).edge_count = g.edge_count ∧
      (g.after tie (Call.insert_edge v v w)).edges = g.edges ∧
      (g.after tie (Call.insert_edge v v w)).tree = g.tree := by
  have hr : ¬ (v < 0 ∨ v > (g.N : Int) - 1 ∨ v < 0 ∨ v > (g.N : Int) - 1 ∨ w < 0) := by
    simp only [not_or, not_lt, gt_iff_lt]
    exact ⟨hv0, by omega, hv0, by omega, hw⟩
  have hins : insert_edge tie g v v w = .ok (false, g) := by
    unfold insert_edge
    rw [if_neg hr, if_pos rfl]
  have hafter : g.after tie (Call.insert_edge v v w) = g := by
    simp only [after, hins]
  rw [hafter]
  exact ⟨hins, rfl, rfl, rfl, rfl⟩

theorem insert_edge_self_loop_witness :
    (0 : Int) ≤ 2 ∧ (2 : Int) < ((scenario_A 0).N : Int) ∧ (0 : ℚ) ≤ 7 ∧
      (insert_edge tie_right (scenario_A 0) 2 2 7 = .ok (false, scenario_A 0) ∧
        (scenario_A 0).after tie_right (Call.insert_edge 2 2 7) = scenario_A 0 ∧
        ((scenario_A 0).after tie_right (Call.insert_edge 2 2 7)).edge_count =
          (scenario_A 0).edge_count ∧
        ((scenario_A 0).after tie_right (Call.insert_edge 2 2 7)).edges =
          (scenario_A 0).edges ∧
        ((scenario_A 0).after tie_right (Call.insert_edge 2 2 7)).tree =
          (scenario_A 0).tree) :=
  ⟨by decide, by decide, by norm_num,
    insert_edge_self_loop tie_right (scenario_A 0) 2 7 (by decide) (by decide)
      (by norm_num)⟩

/-- C12: `insert_edge(i, j, w)` throws exactly when `i < 0`, `i >= N`, `j < 0`,
`j >= N` or `w < 0`, whether or not `i = j`; what it throws is `illegal_argument`, and
the graph after a call that throws is the graph before it. -/
theorem insert_edge_throws_iff (tie : Edge → Edge → Bool) (g : Weighted_graph) (i j : Int)
    (w : ℚ) :
    ((∃ ex, insert_edge tie g i j w = .error ex) ↔
        (i < 0 ∨ i ≥ (g.N : Int) ∨ j < 0 ∨ j ≥ (g.N : Int) ∨ w < 0)) ∧
      (∀ ex, insert_edge tie g i j w = .error ex →
        ex = Exception.illegal_argument ∧ g.after tie (Call.insert_edge i j w) = g) ∧
      ((i < 0 ∨ i ≥ (g.N : Int) ∨ j < 0 ∨ j ≥ (g.N : Int) ∨ w < 0) →
        insert_edge tie g i j w = .error Exception.illegal_argument) := by
  have hcond : (i < 0 ∨ i > (g.N : Int) - 1 ∨ j < 0 ∨ j > (g.N : Int) - 1 ∨ w < 0) ↔
      (i < 0 ∨ i ≥ (g.N : Int) ∨ j < 0 ∨ j ≥ (g.N : Int) ∨ w < 0) := by
    constructor
    · rintro (h | h | h | h | h)
      · exact Or.inl h
      · exact Or.inr (Or.inl (by omega))
      · exact Or.inr (Or.inr (Or.inl h))
      · exact Or.inr (Or.inr (Or.inr (Or.inl (by omega))))
      · exact Or.inr (Or.inr (Or.inr (Or.inr h)))
    · rintro (h | h | h | h | h)
      · exact Or.inl h
      · exact Or.inr (Or.inl (by omega))
      · exact Or.inr (Or.inr (Or.inl h))
      · exact Or.inr (Or.inr (Or.inr (Or.inl (by omega))))
      · exact Or.inr (Or.inr (Or.inr (Or.inr h)))
  have hok : ¬ (i < 0 ∨ i > (g.N : Int) - 1 ∨ j < 0 ∨ j > (g.N : Int) - 1 ∨ w < 0) →
      ∃ r, insert_edge tie g i j w = .ok r := by
    intro hr
    rw [insert_edge_eq, if_neg hr]
    split_ifs with he
    · exact ⟨_, rfl⟩
    · cases hE : g.edges (min i j) (max i j) with
      | none => exact ⟨_, rfl⟩
      | some e0 =>
        simp only
        split_ifs with hw0
        · exact ⟨_, rfl⟩
        · exact ⟨_, rfl⟩
  have herr : (i < 0 ∨ i > (g.N : Int) - 1 ∨ j < 0 ∨ j > (g.N : Int) - 1 ∨ w < 0) →
      insert_edge tie g i j w = .error Exception.illegal_argument := by
    intro hr
    rw [insert_edge_eq, if_pos hr]
  refine ⟨⟨?_, ?_⟩, ?_, fun h => herr (hcond.2 h)⟩
  · rintro ⟨ex, hex⟩
    by_contra hn
    obtain ⟨r, hr⟩ := hok (fun h => hn (hcond.1 h))
    rw [hr] at hex
    cases hex
  · intro h
    exact ⟨_, herr (hcond.2 h)⟩
  · intro ex hex
    have hr : i < 0 ∨ i > (g.N : Int) - 1 ∨ j < 0 ∨ j > (g.N : Int) - 1 ∨ w < 0 := by
      by_contra hn
      obtain ⟨r, hr⟩ := hok hn
      rw [hr] at hex
      cases hex
    have h1 := herr hr
    rw [h1] at hex
    refine ⟨(Except.error.inj hex).symm, ?_⟩
    simp only [after, h1]

/-- C13: `insert_edge(i, j, w)` and `insert_edge(j, i, w)` return the same value and
leave the same graph: the same counter, matrix and tree, hence the same degrees and the
same result of `minimum_spanning_tree()`. -/
theorem insert_edge_order_independent (tie : Edge → Edge → Bool) (g : Weighted_graph)
    (i j : Int) (w : ℚ) :
    insert_edge tie g i j w = insert_edge tie g j i w ∧
      g.after tie (Call.insert_edge i j w) = g.after tie (Call.insert_edge j i w) ∧
      (g.after tie (Call.insert_edge i j w)).edge_count =
        (g.after tie (Call.insert_edge j i w)).edge_count ∧
      (∀ v, (g.after tie (Call.insert_edge i j w)).degree v =
        (g.after tie (Call.insert_edge j i w)).degree v) ∧
      minimum_spanning_tree (g.after tie (Call.insert_edge i j w)) =
        minimum_spanning_tree (g.after tie (Call.insert_edge j i w)) ∧
      (0 ≤ i → i < (g.N : Int) → 0 ≤ j → j < (g.N : Int) → i ≠ j → 0 ≤ w →
        ∃ g1, insert_edge tie g i j w = .ok (true, g1) ∧
          insert_edge tie g j i w = .ok (true, g1)) := by
  have hins : insert_edge tie g i j w = insert_edge tie g j i w := by
    rw [insert_edge_eq, insert_edge_eq, min_comm j i, max_comm j i]
    by_cases hr : i < 0 ∨ i > (g.N : Int) - 1 ∨ j < 0 ∨ j > (g.N : Int) - 1 ∨ w < 0
    · have hr1 : j < 0 ∨ j > (g.N : Int) - 1 ∨ i < 0 ∨ i > (g.N : Int) - 1 ∨ w < 0 := by
        tauto
      rw [if_pos hr, if_pos hr1]
    · have hr1 : ¬ (j < 0 ∨ j > (g.N : Int) - 1 ∨ i < 0 ∨ i > (g.N : Int) - 1 ∨ w < 0) := by
        tauto
      rw [if_neg hr, if_neg hr1]
      by_cases he : i = j
      · rw [if_pos he, if_pos he.symm]
      · rw [if_neg he, if_neg (fun h => he h.symm)]
  have hafter : g.after tie (Call.insert_edge i j w) =
      g.after tie (Call.insert_edge j i w) := by
    simp only [after, hins]
  refine ⟨hins, hafter, by rw [hafter], fun v => by rw [hafter], by rw [hafter], ?_⟩
  intro hi0 hi hj0 hj hij hw
  have hr : ¬ (i < 0 ∨ i > (g.N : Int) - 1 ∨ j < 0 ∨ j > (g.N : Int) - 1 ∨ w < 0) := by
    simp only [not_or, not_lt, gt_iff_lt]
    exact ⟨hi0, by omega, hj0, by omega, hw⟩
  rw [← hins, insert_edge_eq, if_neg hr, if_neg hij]
  cases hE : g.edges (min i j) (max i j) with
  | none => exact ⟨_, rfl, rfl⟩
  | some e0 =>
    simp only
    split_ifs with hw0
    · exact ⟨_, rfl, rfl⟩
    · exact ⟨_, rfl, rfl⟩

end Weighted_graph

namespace Weighted_graph

/-! ## erase_edge -/

theorem after_N (tie : Edge → Edge → Bool) (g : Weighted_graph) (c : Call) :
    (g.after tie c).N = g.N := by
  cases c with
  | insert_edge i j d =>
    simp only [after, insert_edge_eq]
    split_ifs with hr he
    · rfl
    · rfl
    · cases hE : g.edges (min i j) (max i j) with
      | none => rfl
      | some e0 =>
        simp only
        split_ifs with hw
        · rfl
        · rfl
  | erase_edge i j =>
    simp only [after, erase_edge_eq]
    split_ifs with hr
    · rfl
    · cases hE : g.edges (min i j) (max i j) with
      | none => rfl
      | some e0 => rfl
  | clear_edges => rfl

/-- The two slots of a pair of vertices are empty once the slot above the diagonal is. -/
theorem slots_none_of_min_max (g : Weighted_graph) (h : Inv g) (i j : Int)
    (hslot : g.edges (min i j) (max i j) = none) :
    g.edges i j = none ∧ g.edges j i = none := by
  have hlow : ∀ a b : Int, b ≤ a → g.edges a b = none := by
    intro a b hba
    cases hE : g.edges a b with
    | none => rfl
    | some e =>
      obtain ⟨_, _, _, hlt, _, _⟩ := h.slot a b e hE
      omega
  rcases le_total i j with hle | hle
  · rw [min_eq_left hle, max_eq_right hle] at hslot
    exact ⟨hslot, hlow j i hle⟩
  · rw [min_eq_right hle, max_eq_left hle] at hslot
    exact ⟨hlow i j hle, hslot⟩

/-- C14: on a reachable graph whose slot `(min i j, max i j)` holds an edge `e0`,
`erase_edge(i, j)` and `erase_edge(j, i)` return `true` and leave the same graph; the
counter is one less, the slot is empty and `e0` is no longer stored in the matrix, the
tree holds the edges it held without `e0`, in the same order, and every other slot of
the matrix is as before. -/
theorem erase_edge_present (tie : Edge → Edge → Bool) (g : Weighted_graph)
    (h : Reachable tie g) (i j : Int) (e0 : Edge)
    (he0 : g.edges (min i j) (max i j) = some e0) :
    erase_edge g i j = .ok (true, g.after tie (Call.erase_edge i j)) ∧
      erase_edge g j i = .ok (true, g.after tie (Call.erase_edge i j)) ∧
      (g.after tie (Call.erase_edge i j)).edge_count = g.edge_count - 1 ∧
      (g.after tie (Call.erase_edge i j)).edges (min i j) (max i j) = none ∧
      ¬ (g.after tie (Call.erase_edge i j)).has_edge e0 ∧
      (g.after tie (Call.erase_edge i j)).tree.root.inorder =
        g.tree.root.inorder.erase e0 ∧
      e0 ∉ (g.after tie (Call.erase_edge i j)).tree.root.inorder ∧
      (∀ a b, ¬ (a = min i j ∧ b = max i j) →
        (g.after tie (Call.erase_edge i j)).edges a b = g.edges a b) := by
  have hinv := reachable_inv tie g h
  have hinv1 := inv_after tie g hinv (Call.erase_edge i j)
  obtain ⟨h1, h2, hlo0, hlt, hhi, _⟩ := hinv.slot _ _ e0 he0
  have hr : ¬ (i < 0 ∨ i > (g.N : Int) - 1 ∨ j < 0 ∨ j > (g.N : Int) - 1) := by
    simp only [not_or, not_lt, gt_iff_lt]
    have := le_min_iff.1 hlo0
    have := max_lt_iff.1 hhi
    exact ⟨by omega, by omega, by omega, by omega⟩
  have hr1 : ¬ (j < 0 ∨ j > (g.N : Int) - 1 ∨ i < 0 ∨ i > (g.N : Int) - 1) := by
    tauto
  have hers : erase_edge g i j = .ok (true, remove_edge g (min i j) (max i j) e0) := by
    rw [erase_edge_eq, if_neg hr, he0]
  have hers1 : erase_edge g j i = .ok (true, remove_edge g (min i j) (max i j) e0) := by
    rw [erase_edge_eq, if_neg hr1, min_comm j i, max_comm j i, he0]
  have hafter : g.after tie (Call.erase_edge i j) =
      remove_edge g (min i j) (max i j) e0 := by
    simp only [after, hers]
  rw [hafter] at hinv1 ⊢
  have hnot : e0 ∉ (remove_edge g (min i j) (max i j) e0).tree.root.inorder := by
    rw [inorder_remove_edge g hinv]
    intro hm
    exact (hinv.nodup.mem_erase_iff.1 hm).1 rfl
  refine ⟨hers, hers1, rfl, remove_edge_slot g _ _ e0, ?_, inorder_remove_edge g hinv _ _ e0,
    hnot, ?_⟩
  · intro hhas
    exact hnot ((has_edge_iff _ hinv1 e0).1 hhas)
  · intro a b hab
    simp only [remove_edge]
    rw [if_neg hab]

theorem erase_edge_present_witness :
    Reachable tie_right (scenario_A 0) ∧
      (scenario_A 0).edges (min 2 1) (max 2 1) = some ⟨1, 2, 2⟩ ∧
      (erase_edge (scenario_A 0) 2 1 =
          .ok (true, (scenario_A 0).after tie_right (Call.erase_edge 2 1)) ∧
        erase_edge (scenario_A 0) 1 2 =
          .ok (true, (scenario_A 0).after tie_right (Call.erase_edge 2 1)) ∧
        ((scenario_A 0).after tie_right (Call.erase_edge 2 1)).edge_count =
          (scenario_A 0).edge_count - 1 ∧
        ((scenario_A 0).after tie_right (Call.erase_edge 2 1)).edges (min 2 1) (max 2 1) =
          none ∧
        ¬ ((scenario_A 0).after tie_right (Call.erase_edge 2 1)).has_edge ⟨1, 2, 2⟩ ∧
        ((scenario_A 0).after tie_right (Call.erase_edge 2 1)).tree.root.inorder =
          (scenario_A 0).tree.root.inorder.erase ⟨1, 2, 2⟩ ∧
        (⟨1, 2, 2⟩ : Edge) ∉
          ((scenario_A 0).after tie_right (Call.erase_edge 2 1)).tree.root.inorder ∧
        (∀ a b, ¬ (a = min 2 1 ∧ b = max 2 1) →
          ((scenario_A 0).after tie_right (Call.erase_edge 2 1)).edges a b =
            (scenario_A 0).edges a b)) :=
  ⟨reachable_scenario_A 0, rfl,
    erase_edge_present tie_right (scenario_A 0) (reachable_scenario_A 0) 2 1 ⟨1, 2, 2⟩ rfl⟩

/-- C15: on a reachable graph, for two vertices `i` and `j` of the graph that are equal
or whose two slots `edges[i][j]` and `edges[j][i]` are empty, `erase_edge(i, j)` does
not throw and returns `false`, and the graph after the call is the graph before it. -/
theorem erase_edge_absent (tie : Edge → Edge → Bool) (g : Weighted_graph)
    (h : Reachable tie g) (i j : Int) (hi0 : 0 ≤ i) (hi : i < (g.N : Int)) (hj0 : 0 ≤ j)
    (hj : j < (g.N : Int))
    (hnone : i = j ∨ (g.edges i j = none ∧ g.edges j i = none)) :
    erase_edge g i j = .ok (false, g) ∧
      g.after tie (Call.erase_edge i j) = g ∧
      (g.after tie (Call.erase_edge i j)).edge_count = g.edge_count ∧
      (g.after tie (Call.erase_edge i j)).edges = g.edges ∧
      (g.after tie (Call.erase_edge i j)).tree = g.tree := by
  have hinv := reachable_inv tie g h
  have hslot : g.edges (min i j) (max i j) = none := by
    rcases hnone with rfl | ⟨h1, h2⟩
    · rw [min_self, max_self]
      cases hE : g.edges i i with
      | none => rfl
      | some e =>
        obtain ⟨_, _, _, hlt, _, _⟩ := hinv.slot i i e hE
        omega
    · rcases le_total i j with hle | hle
      · rw [min_eq_left hle, max_eq_right hle]; exact h1
      · rw [min_eq_right hle, max_eq_left hle]; exact h2
  have hr : ¬ (i < 0 ∨ i > (g.N : Int) - 1 ∨ j < 0 ∨ j > (g.N : Int) - 1) := by
    simp only [not_or, not_lt, gt_iff_lt]
    exact ⟨hi0, by omega, hj0, by omega⟩
  have hers : erase_edge g i j = .ok (false, g) := by
    rw [erase_edge_eq, if_neg hr, hslot]
  have hafter : g.after tie (Call.erase_edge i j) = g := by
    simp only [after, hers]
  rw [hafter]
  exact ⟨hers, rfl, rfl, rfl, rfl⟩

theorem erase_edge_absent_witness :
    Reachable tie_right (scenario_B 0) ∧ (0 : Int) ≤ 3 ∧ (3 : Int) < ((scenario_B 0).N : Int) ∧
      (0 : Int) ≤ 0 ∧ (0 : Int) < ((scenario_B 0).N : Int) ∧
      ((3 : Int) = 0 ∨ ((scenario_B 0).edges 3 0 = none ∧ (scenario_B 0).edges 0 3 = none)) ∧
      (erase_edge (scenario_B 0) 3 0 = .ok (false, scenario_B 0) ∧
        (scenario_B 0).after tie_right (Call.erase_edge 3 0) = scenario_B 0 ∧
        ((scenario_B 0).after tie_right (Call.erase_edge 3 0)).edge_count =
          (scenario_B 0).edge_count ∧
        ((scenario_B 0).after tie_right (Call.erase_edge 3 0)).edges = (scenario_B 0).edges ∧
        ((scenario_B 0).after tie_right (Call.erase_edge 3 0)).tree = (scenario_B 0).tree) :=
  ⟨reachable_scenario_B 0, by decide, by decide, by decide, by decide, Or.inr ⟨rfl, rfl⟩,
    erase_edge_absent tie_right (scenario_B 0) (reachable_scenario_B 0) 3 0 (by decide)
      (by decide) (by decide) (by decide) (Or.inr ⟨rfl, rfl⟩)⟩

/-- C16: `erase_edge(i, j)` throws exactly when `i` or `j` is outside `0 .. N-1`, and
`degree(v)` throws exactly when `v` is outside `0 .. N-1`; both throw
`illegal_argument`; the graph after an `erase_edge` that throws is the graph before it,
and `degree` is an accessor that returns no new state. -/
theorem erase_edge_degree_throw_iff (tie : Edge → Edge → Bool) (g : Weighted_graph)
    (i j v : Int) :
    ((∃ ex, erase_edge g i j = .error ex) ↔
        (i < 0 ∨ i ≥ (g.N : Int) ∨ j < 0 ∨ j ≥ (g.N : Int))) ∧
      (∀ ex, erase_edge g i j = .error ex →
        ex = Exception.illegal_argument ∧ g.after tie (Call.erase_edge i j) = g) ∧
      ((∃ ex, degree g v = .error ex) ↔ (v < 0 ∨ v ≥ (g.N : Int))) ∧
      (∀ ex, degree g v = .error ex → ex = Exception.illegal_argument) := by
  have hcond : (i < 0 ∨ i > (g.N : Int) - 1 ∨ j < 0 ∨ j > (g.N : Int) - 1) ↔
      (i < 0 ∨ i ≥ (g.N : Int) ∨ j < 0 ∨ j ≥ (g.N : Int)) := by
    constructor
    · rintro (h | h | h | h)
      · exact Or.inl h
      · exact Or.inr (Or.inl (by omega))
      · exact Or.inr (Or.inr (Or.inl h))
      · exact Or.inr (Or.inr (Or.inr (by omega)))
    · rintro (h | h | h | h)
      · exact Or.inl h
      · exact Or.inr (Or.inl (by omega))
      · exact Or.inr (Or.inr (Or.inl h))
      · exact Or.inr (Or.inr (Or.inr (by omega)))
  have hcondv : (v < 0 ∨ v > (g.N : Int) - 1) ↔ (v < 0 ∨ v ≥ (g.N : Int)) := by
    constructor
    · rintro (h | h)
      · exact Or.inl h
      · exact Or.inr (by omega)
    · rintro (h | h)
      · exact Or.inl h
      · exact Or.inr (by omega)
  have hok : ¬ (i < 0 ∨ i > (g.N : Int) - 1 ∨ j < 0 ∨ j > (g.N : Int) - 1) →
      ∃ r, erase_edge g i j = .ok r := by
    intro hr
    rw [erase_edge_eq, if_neg hr]
    cases hE : g.edges (min i j) (max i j) with
    | none => exact ⟨_, rfl⟩
    | some e0 => exact ⟨_, rfl⟩
  have herr : (i < 0 ∨ i > (g.N : Int) - 1 ∨ j < 0 ∨ j > (g.N : Int) - 1) →
      erase_edge g i j = .error Exception.illegal_argument := by
    intro hr
    rw [erase_edge_eq, if_pos hr]
  have hraise : ∀ ex, erase_edge g i j = .error ex →
      (i < 0 ∨ i > (g.N : Int) - 1 ∨ j < 0 ∨ j > (g.N : Int) - 1) := by
    intro ex hex
    by_contra hn
    obtain ⟨r, hr⟩ := hok hn
    rw [hr] at hex
    cases hex
  refine ⟨⟨?_, ?_⟩, ?_, ⟨?_, ?_⟩, ?_⟩
  · rintro ⟨ex, hex⟩
    exact hcond.1 (hraise ex hex)
  · intro h
    exact ⟨_, herr (hcond.2 h)⟩
  · intro ex hex
    have h1 := herr (hraise ex hex)
    rw [h1] at hex
    refine ⟨(Except.error.inj hex).symm, ?_⟩
    simp only [after, h1]
  · rintro ⟨ex, hex⟩
    apply hcondv.1
    by_contra hn
    simp only [degree, if_neg hn] at hex
    cases hex
  · intro h
    refine ⟨Exception.illegal_argument, ?_⟩
    simp only [degree, if_pos (hcondv.2 h)]
  · intro ex hex
    by_cases hn : v < 0 ∨ v > (g.N : Int) - 1
    · simp only [degree, if_pos hn] at hex
      exact (Except.error.inj hex).symm
    · simp only [degree, if_neg hn] at hex
      cases hex

end Weighted_graph

namespace Weighted_graph

/-! ## insert_edge followed by erase_edge -/

/-- C17, as stated, fails: on scenario A the pair {0, 1} already has an edge;
`insert_edge(0, 1, 5)` (valid arguments) followed by `erase_edge(0, 1)` leaves
`edge_count()` at 3, one below the 4 it was before the insert. -/
theorem insert_then_erase_edge_count_not_restored :
    Reachable tie_right (scenario_A 0) ∧
      (0 : Int) ≤ 0 ∧ (0 : Int) < ((scenario_A 0).N : Int) ∧
      (0 : Int) ≤ 1 ∧ (1 : Int) < ((scenario_A 0).N : Int) ∧ (0 : Int) ≠ 1 ∧ (0 : ℚ) ≤ 5 ∧
      (scenario_A 0).edge_count = 4 ∧
      (((scenario_A 0).after tie_right (Call.insert_edge 0 1 5)).after tie_right
        (Call.erase_edge 0 1)).edge_count = 3 ∧
      (((scenario_A 0).after tie_right (Call.insert_edge 0 1 5)).after tie_right
        (Call.erase_edge 0 1)).edge_count ≠ (scenario_A 0).edge_count := by
  refine ⟨reachable_scenario_A 0, by decide, by decide, by decide, by decide, by decide,
    by norm_num, by decide, by decide, by decide⟩

/-- C17, amended: on a reachable graph, for two different vertices `i`, `j` of the
graph and `w` not negative, `erase_edge(i, j)` after `insert_edge(i, j, w)` returns
`true` and leaves the pair without an edge in the matrix; `edge_count()` is back at
its value before the insert when the pair had no edge before the insert, and one below
that value when the pair had an edge. -/
theorem insert_then_erase (tie : Edge → Edge → Bool) (g : Weighted_graph)
    (h : Reachable tie g) (i j : Int) (w : ℚ) (hi0 : 0 ≤ i) (hi : i < (g.N : Int))
    (hj0 : 0 ≤ j) (hj : j < (g.N : Int)) (hij : i ≠ j) (hw : 0 ≤ w) :
    erase_edge (g.after tie (Call.insert_edge i j w)) i j =
        .ok (true, (g.after tie (Call.insert_edge i j w)).after tie (Call.erase_edge i j)) ∧
      (g.edges (min i j) (max i j) = none →
        ((g.after tie (Call.insert_edge i j w)).after tie (Call.erase_edge i j)).edge_count =
          g.edge_count) ∧
      (g.edges (min i j) (max i j) ≠ none →
        ((g.after tie (Call.insert_edge i j w)).after tie (Call.erase_edge i j)).edge_count =
          g.edge_count - 1) ∧
      ((g.after tie (Call.insert_edge i j w)).after tie (Call.erase_edge i j)).edges i j =
        none ∧
      ((g.after tie (Call.insert_edge i j w)).after tie (Call.erase_edge i j)).edges j i =
        none ∧
      (∀ e, ((g.after tie (Call.insert_edge i j w)).after tie (Call.erase_edge i j)).has_edge e →
        ¬ ((e.v1 = i ∧ e.v2 = j) ∨ (e.v1 = j ∧ e.v2 = i))) := by
  have hinv := reachable_inv tie g h
  have hinv1 := inv_after tie g hinv (Call.insert_edge i j w)
  have hinv2 := inv_after tie _ hinv1 (Call.erase_edge i j)
  have hN1 : (g.after tie (Call.insert_edge i j w)).N = g.N := after_N tie g _
  have hr : ¬ (i < 0 ∨ i > (g.N : Int) - 1 ∨ j < 0 ∨ j > (g.N : Int) - 1 ∨ w < 0) := by
    simp only [not_or, not_lt, gt_iff_lt]
    exact ⟨hi0, by omega, hj0, by omega, hw⟩
  have hr1 : ¬ (i < 0 ∨ i > ((g.after tie (Call.insert_edge i j w)).N : Int) - 1 ∨ j < 0 ∨
      j > ((g.after tie (Call.insert_edge i j w)).N : Int) - 1) := by
    rw [hN1]
    simp only [not_or, not_lt, gt_iff_lt]
    exact ⟨hi0, by omega, hj0, by omega⟩
  -- the graph after the insert, its slot of the pair and its counter
  obtain ⟨e1, hslot1, hcnt_none, hcnt_some⟩ : ∃ e1,
      (g.after tie (Call.insert_edge i j w)).edges (min i j) (max i j) = some e1 ∧
      (g.edges (min i j) (max i j) = none →
        (g.after tie (Call.insert_edge i j w)).edge_counter = g.edge_counter + 1) ∧
      (g.edges (min i j) (max i j) ≠ none →
        (g.after tie (Call.insert_edge i j w)).edge_counter = g.edge_counter) := by
    cases hE : g.edges (min i j) (max i j) with
    | none =>
      have hg1 : g.after tie (Call.insert_edge i j w) =
          store_edge tie g (min i j) (max i j) w := by
        simp only [after, insert_edge_eq, if_neg hr, if_neg hij, hE]
      rw [hg1]
      exact ⟨⟨min i j, max i j, w⟩, by simp [store_edge], fun _ => rfl,
        fun hne => absurd rfl hne⟩
    | some e0 =>
      by_cases hw0 : e0.weight = w
      · have hg1 : g.after tie (Call.insert_edge i j w) = g := by
          simp only [after, insert_edge_eq, if_neg hr, if_neg hij, hE, if_pos hw0]
        rw [hg1]
        exact ⟨e0, hE, (fun hn => Option.noConfusion hn), (fun _ => rfl)⟩
      · have hg1 : g.after tie (Call.insert_edge i j w) =
            store_edge tie (remove_edge g (min i j) (max i j) e0) (min i j) (max i j) w := by
          simp only [after, insert_edge_eq, if_neg hr, if_neg hij, hE, if_neg hw0]
        rw [hg1]
        refine ⟨⟨min i j, max i j, w⟩, by simp [store_edge], (fun hn => Option.noConfusion hn),
          fun _ => ?_⟩
        simp only [store_edge, remove_edge]
        ring
  have hers : erase_edge (g.after tie (Call.insert_edge i j w)) i j =
      .ok (true, remove_edge (g.after tie (Call.insert_edge i j w)) (min i j) (max i j) e1) := by
    rw [erase_edge_eq, if_neg hr1, hslot1]
  have hafter : (g.after tie (Call.insert_edge i j w)).after tie (Call.erase_edge i j) =
      remove_edge (g.after tie (Call.insert_edge i j w)) (min i j) (max i j) e1 := by
    generalize g.after tie (Call.insert_edge i j w) = g1 at hers
    simp only [after, hers]
  rw [hafter] at hinv2 ⊢
  have hslots := slots_none_of_min_max _ hinv2 i j (remove_edge_slot _ _ _ e1)
  refine ⟨hers, ?_, ?_, hslots.1, hslots.2, ?_⟩
  · intro hn
    simp only [edge_count, remove_edge]
    rw [hcnt_none hn]
    ring
  · intro hs
    simp only [edge_count, remove_edge]
    rw [hcnt_some hs]
  · intro e he hpair
    have hhas : (remove_edge (g.after tie (Call.insert_edge i j w))
        (min i j) (max i j) e1).edges e.v1 e.v2 = some e :=
      (hinv2.mem_tree e).1 ((has_edge_iff _ hinv2 e).1 he)
    rcases hpair with ⟨h1, h2⟩ | ⟨h1, h2⟩
    · rw [h1, h2, hslots.1] at hhas
      cases hhas
    · rw [h1, h2, hslots.2] at hhas
      cases hhas

theorem insert_then_erase_witness :
    Reachable tie_right (scenario_B 0) ∧ (0 : Int) ≤ 1 ∧ (1 : Int) < ((scenario_B 0).N : Int) ∧
      (0 : Int) ≤ 2 ∧ (2 : Int) < ((scenario_B 0).N : Int) ∧ (1 : Int) ≠ 2 ∧ (0 : ℚ) ≤ 4 ∧
      (erase_edge ((scenario_B 0).after tie_right (Call.insert_edge 1 2 4)) 1 2 =
          .ok (true, ((scenario_B 0).after tie_right (Call.insert_edge 1 2 4)).after tie_right
            (Call.erase_edge 1 2)) ∧
        ((scenario_B 0).edges (min 1 2) (max 1 2) = none →
          (((scenario_B 0).after tie_right (Call.insert_edge 1 2 4)).after tie_right
            (Call.erase_edge 1 2)).edge_count = (scenario_B 0).edge_count) ∧
        ((scenario_B 0).edges (min 1 2) (max 1 2) ≠ none →
          (((scenario_B 0).after tie_right (Call.insert_edge 1 2 4)).after tie_right
            (Call.erase_edge 1 2)).edge_count = (scenario_B 0).edge_count - 1) ∧
        (((scenario_B 0).after tie_right (Call.insert_edge 1 2 4)).after tie_right
          (Call.erase_edge 1 2)).edges 1 2 = none ∧
        (((scenario_B 0).after tie_right (Call.insert_edge 1 2 4)).after tie_right
          (Call.erase_edge 1 2)).edges 2 1 = none ∧
        (∀ e, (((scenario_B 0).after tie_right (Call.insert_edge 1 2 4)).after tie_right
              (Call.erase_edge 1 2)).has_edge e →
          ¬ ((e.v1 = 1 ∧ e.v2 = 2) ∨ (e.v1 = 2 ∧ e.v2 = 1)))) :=
  ⟨reachable_scenario_B 0, by decide, by decide, by decide, by decide, by decide,
    by norm_num,
    insert_then_erase tie_right (scenario_B 0) (reachable_scenario_B 0) 1 2 4 (by decide)
      (by decide) (by decide) (by decide) (by decide) (by norm_num)⟩

end Weighted_graph

namespace Weighted_graph

/-! ## degree, clear_edges and the constructor -/

theorem foldl_count {α : Type} (p : α → Prop) [DecidablePred p] (l : List α) (d : Int) :
    l.foldl (fun degree j => if p j then degree + 1 else degree) d =
      d + ((l.filter (fun j => decide (p j))).length : Int) := by
  induction l generalizing d with
  | nil => simp
  | cons a l ih =>
    simp only [List.foldl_cons, List.filter_cons]
    rw [ih]
    by_cases ha : p a
    · simp only [ha, if_true, decide_True, List.length_cons]
      push_cast
      ring
    · simp [ha]

/-- The loop of `degree` counts the columns `j` below `N` with `edges[i][j]` or
`edges[j][i]` set. -/
theorem degree_eq_filter (g : Weighted_graph) (v : Int) (hv0 : 0 ≤ v)
    (hv : v < (g.N : Int)) :
    degree g v = .ok ((((List.range g.N).map (fun j : Nat => (j : Int))).filter
      (fun j : Int => decide (g.edges v j ≠ none ∨ g.edges j v ≠ none))).length : Int) := by
  have hr : ¬ (v < 0 ∨ v > (g.N : Int) - 1) := by
    simp only [not_or, not_lt, gt_iff_lt]
    exact ⟨hv0, by omega⟩
  simp only [degree, if_neg hr]
  rw [foldl_count (fun j : Int => g.edges v j ≠ none ∨ g.edges j v ≠ none)]
  simp [List.map_eq_flatMap]

theorem degree_of_empty (g : Weighted_graph) (hnone : ∀ i j, g.edges i j = none) (v : Int)
    (hv0 : 0 ≤ v) (hv : v < (g.N : Int)) : degree g v = .ok 0 := by
  rw [degree_eq_filter g v hv0 hv]
  simp [hnone]

theorem minimum_spanning_tree_of_empty (g : Weighted_graph)
    (h : g.tree = Binary_search_tree.empty) : minimum_spanning_tree g = (0, 0) := by
  rw [minimum_spanning_tree_eq_scan, h]
  rfl

/-- C18: on a reachable graph `clear_edges()` (a function that always returns) leaves
every slot of the matrix empty and the tree empty, `edge_count()` at 0, `degree(v)` at 0
for every vertex `v`, and `minimum_spanning_tree()` then returns `(0, 0)`. -/
theorem clear_edges_empties (tie : Edge → Edge → Bool) (g : Weighted_graph)
    (h : Reachable tie g) :
    g.after tie Call.clear_edges = clear_edges g ∧
      (∀ i j, (clear_edges g).edges i j = none) ∧
      (∀ e, ¬ (clear_edges g).has_edge e) ∧
      (clear_edges g).tree = Binary_search_tree.empty ∧
      (clear_edges g).tree.root.inorder = [] ∧
      (clear_edges g).edge_count = 0 ∧
      (clear_edges g).N = g.N ∧
      (∀ v : Int, 0 ≤ v → v < (g.N : Int) → degree (clear_edges g) v = .ok 0) ∧
      minimum_spanning_tree (clear_edges g) = (0, 0) := by
  have hinv := reachable_inv tie g h
  have hnone : ∀ i j, (clear_edges g).edges i j = none := by
    intro i j
    simp only [clear_edges]
    split_ifs with hr
    · rfl
    · cases hE : g.edges i j with
      | none => rfl
      | some e =>
        obtain ⟨_, _, h0, hij, hj, _⟩ := hinv.slot i j e hE
        exact absurd ⟨h0, by omega, by omega, hj⟩ hr
  refine ⟨rfl, hnone, ?_, rfl, rfl, rfl, rfl, ?_, minimum_spanning_tree_of_empty _ rfl⟩
  · rintro e ⟨i, j, he⟩
    rw [hnone i j] at he
    cases he
  · intro v hv0 hv
    exact degree_of_empty _ hnone v hv0 hv

theorem clear_edges_empties_witness :
    Reachable tie_right (scenario_A 0) ∧
      ((scenario_A 0).after tie_right Call.clear_edges = clear_edges (scenario_A 0) ∧
        (∀ i j, (clear_edges (scenario_A 0)).edges i j = none) ∧
        (∀ e, ¬ (clear_edges (scenario_A 0)).has_edge e) ∧
        (clear_edges (scenario_A 0)).tree = Binary_search_tree.empty ∧
        (clear_edges (scenario_A 0)).tree.root.inorder = [] ∧
        (clear_edges (scenario_A 0)).edge_count = 0 ∧
        (clear_edges (scenario_A 0)).N = (scenario_A 0).N ∧
        (∀ v : Int, 0 ≤ v → v < ((scenario_A 0).N : Int) →
          degree (clear_edges (scenario_A 0)) v = .ok 0) ∧
        minimum_spanning_tree (clear_edges (scenario_A 0)) = (0, 0)) :=
  ⟨reachable_scenario_A 0,
    clear_edges_empties tie_right (scenario_A 0) (reachable_scenario_A 0)⟩

/-- A newly constructed graph has no edge in the matrix and none in the tree, every
degree is 0 and `minimum_spanning_tree()` returns `(0, 0)`; `edge_count()` returns the
value `c0` that the storage of `edge_counter` held. -/
theorem construct_empty (n : Nat) (c0 : Int) :
    (∀ i j, (construct n c0).edges i j = none) ∧
      (construct n c0).tree.root.inorder = [] ∧
      (∀ v : Int, 0 ≤ v → v < (n : Int) → degree (construct n c0) v = .ok 0) ∧
      minimum_spanning_tree (construct n c0) = (0, 0) ∧
      (construct n c0).edge_count = c0 :=
  ⟨fun _ _ => rfl, rfl, fun v hv0 hv => degree_of_empty _ (fun _ _ => rfl) v hv0 hv,
    minimum_spanning_tree_of_empty _ rfl, rfl⟩

/-- C20: a graph of one vertex constructed where the storage of `edge_counter` held 5
has no edge in either index, degree 0 at its vertex and `minimum_spanning_tree()`
returns `(0, 0)`, but `edge_count()` returns 5, not 0. -/
theorem edge_count_of_new_graph_not_zero :
    (1 : Nat) ≥ 1 ∧
      (∀ i j, (construct 1 5).edges i j = none) ∧
      (construct 1 5).tree.root.inorder = [] ∧
      degree (construct 1 5) 0 = .ok 0 ∧
      minimum_spanning_tree (construct 1 5) = (0, 0) ∧
      (construct 1 5).edge_count = 5 ∧
      (construct 1 5).edge_count ≠ 0 := by
  refine ⟨le_refl 1, fun _ _ => rfl, rfl, ?_, minimum_spanning_tree_of_empty _ rfl, rfl,
    by decide⟩
  exact degree_of_empty _ (fun _ _ => rfl) 0 (by decide) (by decide)

end Weighted_graph

namespace Weighted_graph

theorem reachable_insert_all (tie : Edge → Edge → Bool) (v : Int) (xs : List (Int × ℚ)) :
    ∀ g : Weighted_graph, Reachable tie g → Reachable tie (insert_all tie g v xs) := by
  induction xs with
  | nil => intro g h; exact h
  | cons p xs ih =>
    intro g h
    exact ih _ (Reachable.step g (Call.insert_edge v p.1 p.2) h)

/-- A valid `insert_edge` leaves the slot of its pair occupied and every other slot as
it was. -/
theorem after_insert_edge_slots (tie : Edge → Edge → Bool) (g : Weighted_graph) (i j : Int)
    (w : ℚ) (hi0 : 0 ≤ i) (hi : i < (g.N : Int)) (hj0 : 0 ≤ j) (hj : j < (g.N : Int))
    (hij : i ≠ j) (hw : 0 ≤ w) :
    (g.after tie (Call.insert_edge i j w)).edges (min i j) (max i j) ≠ none ∧
      ∀ a b, ¬ (a = min i j ∧ b = max i j) →
        (g.after tie (Call.insert_edge i j w)).edges a b = g.edges a b := by
  have hr : ¬ (i < 0 ∨ i > (g.N : Int) - 1 ∨ j < 0 ∨ j > (g.N : Int) - 1 ∨ w < 0) := by
    simp only [not_or, not_lt, gt_iff_lt]
    exact ⟨hi0, by omega, hj0, by omega, hw⟩
  cases hE : g.edges (min i j) (max i j) with
  | none =>
    have hg1 : g.after tie (Call.insert_edge i j w) =
        store_edge tie g (min i j) (max i j) w := by
      simp only [after, insert_edge_eq, if_neg hr, if_neg hij, hE]
    rw [hg1]
    refine ⟨by simp [store_edge], fun a b hab => ?_⟩
    simp only [store_edge]
    rw [if_neg hab]
  | some e0 =>
    by_cases hw0 : e0.weight = w
    · have hg1 : g.after tie (Call.insert_edge i j w) = g := by
        simp only [after, insert_edge_eq, if_neg hr, if_neg hij, hE, if_pos hw0]
      rw [hg1]
      exact ⟨by simp [hE], fun _ _ _ => rfl⟩
    · have hg1 : g.after tie (Call.insert_edge i j w) =
          store_edge tie (remove_edge g (min i j) (max i j) e0) (min i j) (max i j) w := by
        simp only [after, insert_edge_eq, if_neg hr, if_neg hij, hE, if_neg hw0]
      rw [hg1]
      refine ⟨by simp [store_edge], fun a b hab => ?_⟩
      simp only [store_edge, remove_edge]
      rw [if_neg hab, if_neg hab]

theorem insert_all_slots (tie : Edge → Edge → Bool) (v : Int) (xs : List (Int × ℚ)) :
    ∀ g : Weighted_graph, 0 ≤ v → v < (g.N : Int) →
      (∀ p ∈ xs, 0 ≤ p.1 ∧ p.1 < (g.N : Int) ∧ p.1 ≠ v ∧ 0 ≤ p.2) →
      (insert_all tie g v xs).N = g.N ∧
        ∀ x : Int, ((insert_all tie g v xs).edges (min v x) (max v x) ≠ none ↔
          (g.edges (min v x) (max v x) ≠ none ∨ x ∈ xs.map Prod.fst)) := by
  induction xs with
  | nil =>
    intro g _ _ _
    exact ⟨rfl, fun x => by simp [insert_all]⟩
  | cons p xs ih =>
    intro g hv0 hv hvalid
    obtain ⟨hp0, hpN, hpv, hpw⟩ := hvalid p (List.mem_cons_self _ _)
    have hN1 : (g.after tie (Call.insert_edge v p.1 p.2)).N = g.N := after_N tie g _
    obtain ⟨hset, hother⟩ := after_insert_edge_slots tie g v p.1 p.2 hv0 hv hp0 hpN
      (fun h => hpv h.symm) hpw
    obtain ⟨hN, hslots⟩ := ih (g.after tie (Call.insert_edge v p.1 p.2)) hv0
      (by rw [hN1]; exact hv)
      (fun q hq => by rw [hN1]; exact hvalid q (List.mem_cons_of_mem _ hq))
    refine ⟨hN.trans hN1, fun x => ?_⟩
    show (insert_all tie (g.after tie (Call.insert_edge v p.1 p.2)) v xs).edges
      (min v x) (max v x) ≠ none ↔ _
    rw [hslots x, List.map_cons, List.mem_cons]
    by_cases hx : x = p.1
    · subst hx
      constructor
      · intro _; exact Or.inr (Or.inl rfl)
      · intro _; exact Or.inl hset
    · have hne : ¬ (min v x = min v p.1 ∧ max v x = max v p.1) := by
        rintro ⟨h1, h2⟩
        have e1 := min_add_max v x
        have e2 := min_add_max v p.1
        apply hx
        omega
      rw [hother _ _ hne]
      constructor
      · rintro (h | h)
        · exact Or.inl h
        · exact Or.inr (Or.inr h)
      · rintro (h | h | h)
        · exact Or.inl h
        · exact absurd h hx
        · exact Or.inr h

theorem pair_slot_iff (g : Weighted_graph) (h : Inv g) (a b : Int) :
    (g.edges a b ≠ none ∨ g.edges b a ≠ none) ↔ g.edges (min a b) (max a b) ≠ none := by
  constructor
  · intro hab hslot
    obtain ⟨h1, h2⟩ := slots_none_of_min_max g h a b hslot
    rcases hab with hab | hab
    · exact hab h1
    · exact hab h2
  · intro hslot
    rcases le_total a b with hle | hle
    · rw [min_eq_left hle, max_eq_right hle] at hslot
      exact Or.inl hslot
    · rw [min_eq_right hle, max_eq_left hle] at hslot
      exact Or.inr hslot

theorem nodup_range_cast (n : Nat) :
    ((List.range n).map (fun j : Nat => (j : Int))).Nodup :=
  (List.nodup_range n).map (fun a b hab => by exact_mod_cast hab)

/-- C19: on a reachable graph, for a vertex `v` of the graph, `degree(v)` is the number
of elements of the set of the vertices `x` such that an edge on the pair `{v, x}` is
stored; and after `insert_edge(v, x, w)` for `k` different vertices `x` other than `v`
into a newly constructed graph, `degree(v)` is `k`. -/
theorem degree_counts_neighbours (tie : Edge → Edge → Bool) (g : Weighted_graph)
    (h : Reachable tie g) (v : Int) (hv0 : 0 ≤ v) (hv : v < (g.N : Int)) :
    (∃ S : Finset Int,
        (∀ x, x ∈ S ↔
          ∃ e, g.has_edge e ∧ ((e.v1 = v ∧ e.v2 = x) ∨ (e.v1 = x ∧ e.v2 = v))) ∧
        degree g v = .ok (S.card : Int)) ∧
      ∀ (c0 : Int) (xs : List (Int × ℚ)),
        (∀ p ∈ xs, 0 ≤ p.1 ∧ p.1 < (g.N : Int) ∧ p.1 ≠ v ∧ 0 ≤ p.2) →
        (xs.map Prod.fst).Nodup →
        degree (insert_all tie (construct g.N c0) v xs) v = .ok (xs.length : Int) := by
  have hinv := reachable_inv tie g h
  constructor
  · refine ⟨(((List.range g.N).map (fun j : Nat => (j : Int))).filter
      (fun j : Int => decide (g.edges v j ≠ none ∨ g.edges j v ≠ none))).toFinset, ?_, ?_⟩
    · intro x
      simp only [List.mem_toFinset, List.mem_filter, List.mem_map, List.mem_range,
        decide_eq_true_eq]
      constructor
      · rintro ⟨_, hx⟩
        rcases hx with hx | hx
        · cases hE : g.edges v x with
          | none => exact absurd hE hx
          | some e =>
            obtain ⟨h1, h2, _⟩ := hinv.slot v x e hE
            exact ⟨e, ⟨v, x, hE⟩, Or.inl ⟨h1, h2⟩⟩
        · cases hE : g.edges x v with
          | none => exact absurd hE hx
          | some e =>
            obtain ⟨h1, h2, _⟩ := hinv.slot x v e hE
            exact ⟨e, ⟨x, v, hE⟩, Or.inr ⟨h1, h2⟩⟩
      · rintro ⟨e, ⟨a, b, hE⟩, hpair⟩
        obtain ⟨h1, h2, ha0, hab, hbN, _⟩ := hinv.slot a b e hE
        rcases hpair with ⟨hp1, hp2⟩ | ⟨hp1, hp2⟩
        · have hav : a = v := by rw [← h1, hp1]
          have hbx : b = x := by rw [← h2, hp2]
          subst hav hbx
          exact ⟨⟨b.toNat, by omega, by omega⟩, Or.inl (by rw [hE]; simp)⟩
        · have hax : a = x := by rw [← h1, hp1]
          have hbv : b = v := by rw [← h2, hp2]
          subst hax hbv
          exact ⟨⟨a.toNat, by omega, by omega⟩, Or.inr (by rw [hE]; simp)⟩
    · rw [degree_eq_filter g v hv0 hv,
        List.toFinset_card_of_nodup ((nodup_range_cast g.N).filter _)]
  · intro c0 xs hvalid hnd
    have hreach : Reachable tie (insert_all tie (construct g.N c0) v xs) :=
      reachable_insert_all tie v xs _ (Reachable.construct g.N c0)
    have hinv1 := reachable_inv tie _ hreach
    obtain ⟨hN, hslots⟩ := insert_all_slots tie v xs (construct g.N c0) hv0 hv hvalid
    have hN1 : (insert_all tie (construct g.N c0) v xs).N = g.N := hN
    rw [degree_eq_filter _ v hv0 (by rw [hN1]; exact hv), hN1]
    have hperm : (((List.range g.N).map (fun j : Nat => (j : Int))).filter
        (fun j : Int => decide ((insert_all tie (construct g.N c0) v xs).edges v j ≠ none ∨
          (insert_all tie (construct g.N c0) v xs).edges j v ≠ none))).Perm
        (xs.map Prod.fst) := by
      rw [List.perm_ext_iff_of_nodup ((nodup_range_cast g.N).filter _) hnd]
      intro x
      simp only [List.mem_filter, List.mem_map, List.mem_range, decide_eq_true_eq]
      rw [pair_slot_iff _ hinv1 v x, hslots x]
      constructor
      · rintro ⟨_, hx | hx⟩
        · exact absurd rfl hx
        · exact List.mem_map.1 hx
      · rintro ⟨p, hp, hpx⟩
        obtain ⟨hp0, hpN, _, _⟩ := hvalid p hp
        subst hpx
        exact ⟨⟨p.1.toNat, by omega, by omega⟩, Or.inr (List.mem_map.2 ⟨p, hp, rfl⟩)⟩
    rw [hperm.length_eq, List.length_map]

theorem reachable_star_graph (c0 : Int) : Reachable tie_right (star_graph c0) :=
  reachable_insert_all tie_right 0 _ _ (Reachable.construct 4 c0)

theorem degree_counts_neighbours_witness :
    Reachable tie_right (star_graph 0) ∧ (0 : Int) ≤ 0 ∧ (0 : Int) < ((star_graph 0).N : Int) ∧
      ((∃ S : Finset Int,
          (∀ x, x ∈ S ↔
            ∃ e, (star_graph 0).has_edge e ∧
              ((e.v1 = 0 ∧ e.v2 = x) ∨ (e.v1 = x ∧ e.v2 = 0))) ∧
          degree (star_graph 0) 0 = .ok (S.card : Int)) ∧
        ∀ (c0 : Int) (xs : List (Int × ℚ)),
          (∀ p ∈ xs, 0 ≤ p.1 ∧ p.1 < ((star_graph 0).N : Int) ∧ p.1 ≠ 0 ∧ 0 ≤ p.2) →
          (xs.map Prod.fst).Nodup →
          degree (insert_all tie_right (construct (star_graph 0).N c0) 0 xs) 0 =
            .ok (xs.length : Int)) :=
  ⟨reachable_star_graph 0, by decide, by decide,
    degree_counts_neighbours tie_right (star_graph 0) (reachable_star_graph 0) 0 (by decide)
      (by decide)⟩

theorem degree_star_graph :
    degree (star_graph 0) 0 = .ok 3 ∧ degree (star_graph 0) 2 = .ok 1 :=
  ⟨rfl, rfl⟩

end Weighted_graph

namespace Weighted_graph

/-! ## The run of minimum_spanning_tree -/

theorem mst_step_inl (st st1 : Mst_state) (h : mst_step st = .inl st1) :
    st1.graph = st.graph ∧
      mst_loop st.s st.node st.set st.edges_tested =
        mst_loop st1.s st1.node st1.set st1.edges_tested := by
  obtain ⟨g, set, k, s, node⟩ := st
  cases node with
  | node l e r =>
    simp only [mst_step] at h
    cases h
    refine ⟨rfl, ?_⟩
    rw [mst_loop]
  | nil =>
    cases s with
    | nil =>
      simp only [mst_step] at h
      cases h
    | cons top s1 =>
      obtain ⟨l, e, r⟩ := top
      simp only [mst_step] at h
      split at h
      · cases h
      · rename_i hne
        cases h
        refine ⟨rfl, ?_⟩
        rw [mst_loop]
        simp only [if_neg hne]

theorem mst_step_inr (st : Mst_state) (result : (ℚ × Int) × Weighted_graph)
    (h : mst_step st = .inr result) :
    result.2 = st.graph ∧ mst_loop st.s st.node st.set st.edges_tested = result.1 := by
  obtain ⟨g, set, k, s, node⟩ := st
  cases node with
  | node l e r =>
    simp only [mst_step] at h
    cases h
  | nil =>
    cases s with
    | nil =>
      simp only [mst_step] at h
      cases h
      refine ⟨rfl, ?_⟩
      rw [mst_loop]
    | cons top s1 =>
      obtain ⟨l, e, r⟩ := top
      simp only [mst_step] at h
      split at h
      · rename_i hone
        cases h
        refine ⟨rfl, ?_⟩
        rw [mst_loop]
        simp only [if_pos hone]
      · cases h

theorem mst_run_eq (st : Mst_state) :
    mst_run st = (mst_loop st.s st.node st.set st.edges_tested, st.graph) := by
  induction st using mst_run.induct with
  | case1 st result h =>
    rw [mst_run]
    obtain ⟨h1, h2⟩ := mst_step_inr st result h
    split
    · rename_i r hr
      rw [h] at hr
      cases hr
      exact Prod.ext h2.symm h1
    · rename_i st1 hr
      rw [h] at hr
      cases hr
  | case2 st st1 h ih =>
    rw [mst_run]
    obtain ⟨h1, h2⟩ := mst_step_inl st st1 h
    split
    · rename_i r hr
      rw [h] at hr
      cases hr
    · rename_i st2 hr
      rw [h] at hr
      cases hr
      rw [ih, h1, h2]

/-- C21: in the run of `minimum_spanning_tree()` on the state of the call, no iteration
of the loop and no return changes a member of the object; so the graph after the call
is the graph before it (the counter, the matrix and the tree), the pair returned is the
one the loop computes from `N` and the tree, a second call right after the first
returns the same pair, and the pair is the same on every graph with the same `N` and
the same tree, whatever its matrix and counter. -/
theorem minimum_spanning_tree_leaves_graph_unchanged (g : Weighted_graph) :
    (∀ st st1 : Mst_state, mst_step st = .inl st1 → st1.graph = st.graph) ∧
      (∀ (st : Mst_state) (result : (ℚ × Int) × Weighted_graph),
        mst_step st = .inr result → result.2 = st.graph) ∧
      (minimum_spanning_tree_call g).2 = g ∧
      (minimum_spanning_tree_call g).2.edge_count = g.edge_count ∧
      (minimum_spanning_tree_call g).2.edges = g.edges ∧
      (minimum_spanning_tree_call g).2.tree = g.tree ∧
      (minimum_spanning_tree_call g).1 = minimum_spanning_tree g ∧
      (minimum_spanning_tree_call (minimum_spanning_tree_call g).2).1 =
        (minimum_spanning_tree_call g).1 ∧
      ∀ g1 : Weighted_graph, g1.N = g.N → g1.tree = g.tree →
        (minimum_spanning_tree_call g1).1 = (minimum_spanning_tree_call g).1 := by
  have hcall : ∀ g0 : Weighted_graph,
      minimum_spanning_tree_call g0 = (minimum_spanning_tree g0, g0) := by
    intro g0
    unfold minimum_spanning_tree_call
    rw [mst_run_eq]
    rfl
  refine ⟨fun st st1 h => (mst_step_inl st st1 h).1,
    fun st result h => (mst_step_inr st result h).1, ?_, ?_, ?_, ?_, ?_, ?_, ?_⟩
  · rw [hcall]
  · rw [hcall]
  · rw [hcall]
  · rw [hcall]
  · rw [hcall]
  · rw [hcall, hcall]
  · intro g1 hN htree
    rw [hcall, hcall]
    show minimum_spanning_tree g1 = minimum_spanning_tree g
    rw [minimum_spanning_tree_eq_scan, minimum_spanning_tree_eq_scan, hN, htree]

end Weighted_graph

theorem unite_count (E : List Edge) :
    ∀ set : Disjoint_sets,
      (unite set E).set_count = set.set_count - ((merging set E).length : Int) := by
  induction E with
  | nil => intro set; simp [unite, merging]
  | cons e es ih =>
    intro set
    simp only [unite, merging]
    by_cases hs : set.find e.v1 = set.find e.v2
    · rw [set_union_same _ _ _ _ hs, if_pos hs, ih]
    · rw [if_neg hs, ih, List.length_cons]
      simp only [Disjoint_sets.set_union, if_neg hs]
      push_cast
      ring

theorem merging_take_length_le (E : List Edge) :
    ∀ (set : Disjoint_sets) (k : Nat),
      (merging set (E.take k)).length ≤ (merging set (E.take (k + 1))).length := by
  induction E with
  | nil => intro set k; simp [merging]
  | cons e es ih =>
    intro set k
    cases k with
    | zero => simp [merging]
    | succ k =>
      simp only [List.take_succ_cons, merging]
      split_ifs with hs
      · exact ih set k
      · simp only [List.length_cons]
        exact Nat.succ_le_succ (ih _ k)

theorem represents_unite (E : List Edge) :
    ∀ (P : List Edge) (set : Disjoint_sets), Represents set P →
      Represents (unite set E) (P ++ E) := by
  induction E with
  | nil => intro P set h; simpa [unite] using h
  | cons e es ih =>
    intro P set h
    have h1 := ih (e :: P) _ (represents_union set P e h)
    intro a b
    rw [unite, h1 a b]
    constructor
    · intro hc
      exact hc.mono (fun x hx => by
        simp only [List.cons_append, List.mem_cons, List.mem_append] at hx ⊢
        tauto)
    · intro hc
      exact hc.mono (fun x hx => by
        simp only [List.cons_append, List.mem_cons, List.mem_append] at hx ⊢
        tauto)

theorem in_range_take {n : Nat} {E : List Edge} (h : In_range n E) (k : Nat) :
    In_range n (E.take k) :=
  fun e he => h e (List.mem_of_mem_take he)

theorem counted_unite (n : Nat) (E : List Edge) :
    ∀ set : Disjoint_sets, Counted n set → In_range n E → Counted n (unite set E) := by
  induction E with
  | nil => intro set h _; exact h
  | cons e es ih =>
    intro set h hr
    obtain ⟨h10, h1n, h20, h2n⟩ := hr e (List.mem_cons_self _ _)
    exact ih _ (counted_union n set e.v1 e.v2 e.weight h h10 h1n h20 h2n) (in_range_tail hr)

/-- The set count of disjoint sets that stand for the edges of `P` is the number of
connected components of the graph with these edges. -/
theorem component_count_of_represents (n : Nat) (set : Disjoint_sets) (P : List Edge)
    (hrep : Represents set P) (hc : Counted n set) :
    Component_count n P set.set_count := by
  classical
  have hmem : ∀ a : Int, 0 ≤ a → a < (n : Int) →
      a ∈ (Finset.range n).image (fun j : Nat => (j : Int)) := by
    intro a ha0 ha
    exact Finset.mem_image.2 ⟨a.toNat, Finset.mem_range.2 (by omega), by omega⟩
  have hrange : ∀ a ∈ (Finset.range n).image (fun j : Nat => (j : Int)),
      0 ≤ a ∧ a < (n : Int) := by
    intro a ha
    obtain ⟨j, hj, rfl⟩ := Finset.mem_image.1 ha
    have := Finset.mem_range.1 hj
    omega
  refine ⟨((Finset.range n).image (fun j : Nat => (j : Int))).filter
    (fun a => ∀ b : Int, 0 ≤ b → b < a → set.find b ≠ set.find a), ?_, ?_, ?_, ?_⟩
  · intro a ha
    exact hrange a (Finset.mem_filter.1 ha).1
  · intro a ha b hb hab
    have hfa := (Finset.mem_filter.1 ha).2
    have hfb := (Finset.mem_filter.1 hb).2
    have ha0 := (hrange a (Finset.mem_filter.1 ha).1).1
    have hb0 := (hrange b (Finset.mem_filter.1 hb).1).1
    have hf : set.find a = set.find b := (hrep a b).2 hab
    rcases lt_trichotomy a b with hlt | heq | hgt
    · exact absurd hf (hfb a ha0 hlt)
    · exact heq
    · exact absurd hf.symm (hfa b hb0 hgt)
  · have key : ∀ (m : Nat) (a : Int), a.toNat = m → 0 ≤ a → a < (n : Int) →
        ∃ r ∈ ((Finset.range n).image (fun j : Nat => (j : Int))).filter
          (fun a => ∀ b : Int, 0 ≤ b → b < a → set.find b ≠ set.find a),
          Connected P a r := by
      intro m
      induction m using Nat.strong_induction_on with
      | _ m ih =>
        intro a ham ha0 ha
        by_cases hmin : ∀ b : Int, 0 ≤ b → b < a → set.find b ≠ set.find a
        · exact ⟨a, Finset.mem_filter.2 ⟨hmem a ha0 ha, hmin⟩, Connected.refl a⟩
        · push_neg at hmin
          obtain ⟨b, hb0, hba, hfb⟩ := hmin
          obtain ⟨r, hr, hbr⟩ := ih b.toNat (by omega) b rfl hb0 (by omega)
          exact ⟨r, hr, ((hrep b a).1 hfb).symm.trans hbr⟩
    intro a ha0 ha
    exact key a.toNat a rfl ha0 ha
  · rw [hc]
    congr 1
    have himg : (((Finset.range n).image (fun j : Nat => (j : Int))).filter
        (fun a => ∀ b : Int, 0 ≤ b → b < a → set.find b ≠ set.find a)).image set.find =
        (Finset.range n).image (fun v : Nat => set.find (v : Int)) := by
      ext y
      simp only [Finset.mem_image, Finset.mem_filter, Finset.mem_range]
      constructor
      · rintro ⟨a, ⟨⟨j, hj, rfl⟩, _⟩, rfl⟩
        exact ⟨j, hj, rfl⟩
      · rintro ⟨j, hj, rfl⟩
        have key : ∀ (m : Nat) (a : Int), a.toNat = m → 0 ≤ a → a < (n : Int) →
            ∃ r : Int, ((∃ i, i < n ∧ (i : Int) = r) ∧
              ∀ b : Int, 0 ≤ b → b < r → set.find b ≠ set.find r) ∧
              set.find r = set.find a := by
          intro m
          induction m using Nat.strong_induction_on with
          | _ m ih =>
            intro a ham ha0 ha
            by_cases hmin : ∀ b : Int, 0 ≤ b → b < a → set.find b ≠ set.find a
            · exact ⟨a, ⟨⟨a.toNat, by omega, by omega⟩, hmin⟩, rfl⟩
            · push_neg at hmin
              obtain ⟨b, hb0, hba, hfb⟩ := hmin
              obtain ⟨r, hr, hbr⟩ := ih b.toNat (by omega) b rfl hb0 (by omega)
              exact ⟨r, hr, hbr.trans hfb⟩
        exact key j (j : Int) (by simp) (by omega) (by omega)
    rw [← himg, Finset.card_image_of_injOn]
    intro a ha b hb hab
    have ha' := Finset.mem_filter.1 (Finset.mem_coe.1 ha)
    have hb' := Finset.mem_filter.1 (Finset.mem_coe.1 hb)
    have ha0 := (hrange a ha'.1).1
    have hb0 := (hrange b hb'.1).1
    rcases lt_trichotomy a b with hlt | heq | hgt
    · exact absurd hab (hb'.2 a ha0 hlt)
    · exact heq
    · exact absurd hab.symm (ha'.2 b hb0 hgt)

/-- The run of the loop body over a list of edges: it makes the unions of the first `m`
edges, for the least `m >= 1` that leaves one set, or of all the edges when there is no
such `m`. -/
theorem scan_run (E : List Edge) :
    ∀ (set : Disjoint_sets) (j : Int), ∃ m : Nat, m ≤ E.length ∧
      scan set j E = ((unite set (E.take m)).get_weight, j + m) ∧
      (∀ k, 1 ≤ k → k < m → (unite set (E.take k)).disjoint_sets ≠ 1) ∧
      (m < E.length → 1 ≤ m ∧ (unite set (E.take m)).disjoint_sets = 1) := by
  induction E with
  | nil =>
    intro set j
    exact ⟨0, le_refl _, by simp [scan, unite], fun k h1 h2 => by omega,
      fun h => by simp at h⟩
  | cons e es ih =>
    intro set j
    by_cases h1 : (set.set_union e.v1 e.v2 e.weight).disjoint_sets = 1
    · refine ⟨1, by simp, ?_, fun k hk1 hk2 => by omega, fun _ => ⟨le_refl 1, ?_⟩⟩
      · simp [scan, unite, h1]
      · simpa [unite] using h1
    · obtain ⟨m, hm, hscan, hbefore, hstop⟩ := ih (set.set_union e.v1 e.v2 e.weight) (j + 1)
      refine ⟨m + 1, by simpa using hm, ?_, ?_, ?_⟩
      · simp only [scan, if_neg h1, List.take_succ_cons, unite]
        rw [hscan]
        push_cast
        simp only [Prod.mk.injEq, true_and]
        ring
      · intro k hk1 hk2
        obtain ⟨k0, rfl⟩ : ∃ k0, k = k0 + 1 := ⟨k - 1, by omega⟩
        simp only [List.take_succ_cons, unite]
        rcases Nat.eq_zero_or_pos k0 with hk0 | hk0
        · subst hk0
          simpa [unite] using h1
        · exact hbefore k0 hk0 (by omega)
      · intro hlt
        simp only [List.length_cons] at hlt
        obtain ⟨hm1, hone⟩ := hstop (by omega)
        exact ⟨by omega, by simpa [unite] using hone⟩

namespace Weighted_graph

/-- C30: on a reachable graph, `minimum_spanning_tree()` makes the unions of the first
`m` edges of the traversal, where `m` is the first number of edges that leaves one set
(or all the edges), and returns the weight of the disjoint sets then. After `k` edges
the set count is `N` minus the number of merging unions, it is the number of connected
components of the graph with these `k` edges, it is not above the count after `k - 1`
edges, and (for `k >= 1`) it is 1 exactly when these edges connect all `N` vertices; it
starts at `N`; and when the function returns with one set left, `N - 1` of the edges it
examined were merging. -/
theorem set_count_during_minimum_spanning_tree (tie : Edge → Edge → Bool)
    (g : Weighted_graph) (h : Reachable tie g) :
    ∃ m : Nat, m ≤ g.tree.root.inorder.length ∧
      minimum_spanning_tree g =
        ((unite (Disjoint_sets.init g.N) (g.tree.root.inorder.take m)).get_weight,
          (m : Int)) ∧
      (∀ k, 1 ≤ k → k < m →
        (unite (Disjoint_sets.init g.N) (g.tree.root.inorder.take k)).disjoint_sets ≠ 1) ∧
      (m < g.tree.root.inorder.length → 1 ≤ m ∧
        (unite (Disjoint_sets.init g.N) (g.tree.root.inorder.take m)).disjoint_sets = 1) ∧
      (unite (Disjoint_sets.init g.N) (g.tree.root.inorder.take 0)).disjoint_sets =
        (g.N : Int) ∧
      (∀ k, k ≤ g.tree.root.inorder.length →
        (unite (Disjoint_sets.init g.N) (g.tree.root.inorder.take k)).disjoint_sets =
          (g.N : Int) -
            ((merging (Disjoint_sets.init g.N) (g.tree.root.inorder.take k)).length : Int) ∧
        Component_count g.N (g.tree.root.inorder.take k)
          (unite (Disjoint_sets.init g.N) (g.tree.root.inorder.take k)).disjoint_sets ∧
        (unite (Disjoint_sets.init g.N) (g.tree.root.inorder.take (k + 1))).disjoint_sets ≤
          (unite (Disjoint_sets.init g.N) (g.tree.root.inorder.take k)).disjoint_sets ∧
        (1 ≤ k →
          ((unite (Disjoint_sets.init g.N) (g.tree.root.inorder.take k)).disjoint_sets = 1 ↔
            All_connected g.N (g.tree.root.inorder.take k)))) ∧
      ((unite (Disjoint_sets.init g.N) (g.tree.root.inorder.take m)).disjoint_sets = 1 →
        ((merging (Disjoint_sets.init g.N) (g.tree.root.inorder.take m)).length : Int) =
          (g.N : Int) - 1) := by
  have hinv := reachable_inv tie g h
  have hr := in_range_inorder g hinv
  have hcount : ∀ k,
      (unite (Disjoint_sets.init g.N) (g.tree.root.inorder.take k)).disjoint_sets =
        (g.N : Int) -
          ((merging (Disjoint_sets.init g.N) (g.tree.root.inorder.take k)).length : Int) := by
    intro k
    simp only [Disjoint_sets.disjoint_sets]
    rw [unite_count]
    rfl
  have hrep : ∀ k, Represents (unite (Disjoint_sets.init g.N) (g.tree.root.inorder.take k))
      (g.tree.root.inorder.take k) := by
    intro k
    have := represents_unite (g.tree.root.inorder.take k) [] _ (represents_init g.N)
    simpa using this
  have hcnt : ∀ k, Counted g.N (unite (Disjoint_sets.init g.N) (g.tree.root.inorder.take k)) :=
    fun k => counted_unite g.N _ _ (counted_init g.N) (in_range_take hr k)
  obtain ⟨m, hm, hscan, hbefore, hstop⟩ :=
    scan_run g.tree.root.inorder (Disjoint_sets.init g.N) 0
  refine ⟨m, hm, ?_, hbefore, hstop, ?_, ?_, ?_⟩
  · rw [minimum_spanning_tree_eq_scan, hscan]
    simp
  · simp [unite, Disjoint_sets.init, Disjoint_sets.disjoint_sets]
  · intro k hk
    refine ⟨hcount k, component_count_of_represents g.N _ _ (hrep k) (hcnt k), ?_, ?_⟩
    · rw [hcount, hcount]
      have := merging_take_length_le g.tree.root.inorder (Disjoint_sets.init g.N) k
      omega
    · intro hk1
      rw [count_one_iff g.N _ _ (hrep k) (hcnt k)]
      have hpos : 0 < g.N := by
        have hlen : 0 < g.tree.root.inorder.length := by omega
        obtain ⟨e, he⟩ := List.exists_mem_of_length_pos hlen
        obtain ⟨h10, h1n, _, _⟩ := hr e he
        omega
      exact ⟨fun hh => hh.2, fun hh => ⟨hpos, hh⟩⟩
  · intro hone
    rw [hcount] at hone
    omega

theorem reachable_isolated_graph (c0 : Int) : Reachable tie_right (isolated_graph c0) :=
  Reachable.step _ _ (Reachable.step _ _ (Reachable.construct 4 c0))

/-- On a reachable graph of more than one vertex with a vertex of degree 0, no prefix
of the traversal connects all the vertices and `minimum_spanning_tree()` visits every
edge of the tree: it does not return from inside the loop before the last edge, and
`edges_tested` is the number of stored edges. -/
theorem minimum_spanning_tree_isolated_vertex (tie : Edge → Edge → Bool)
    (g : Weighted_graph) (h : Reachable tie g) (hN : 1 < g.N) (v : Int) (hv0 : 0 ≤ v)
    (hv : v < (g.N : Int)) (hdeg : degree g v = .ok 0) :
    (∀ k, ¬ All_connected g.N (g.tree.root.inorder.take k)) ∧
      (minimum_spanning_tree g).2 = g.tree.root.inorder.length := by
  have hinv := reachable_inv tie g h
  have hfree : ∀ e ∈ g.tree.root.inorder, e.v1 ≠ v ∧ e.v2 ≠ v := by
    intro e he
    have hslot := (hinv.mem_tree e).1 he
    obtain ⟨h10, h1n, h20, h2n⟩ := in_range_inorder g hinv e he
    rw [degree_eq_filter g v hv0 hv] at hdeg
    have hlen := Except.ok.inj hdeg
    have hnil := List.length_eq_zero.1 (by exact_mod_cast hlen)
    have hall := List.filter_eq_nil_iff.1 hnil
    constructor
    · intro h1
      have := hall e.v2 (List.mem_map.2 ⟨e.v2.toNat, List.mem_range.2 (by omega), by omega⟩)
      apply this
      simp only [decide_eq_true_eq]
      left
      rw [← h1, hslot]
      simp
    · intro h2
      have := hall e.v1 (List.mem_map.2 ⟨e.v1.toNat, List.mem_range.2 (by omega), by omega⟩)
      apply this
      simp only [decide_eq_true_eq]
      right
      rw [← h2, hslot]
      simp
  have hnone : ∀ k, ¬ All_connected g.N (g.tree.root.inorder.take k) := by
    intro k hcon
    have hlab : ∀ u : Int, Connected (g.tree.root.inorder.take k) v u → u = v := by
      intro u hc
      have := connected_label (fun x => if x = v then (1 : Int) else 0) (by
        intro e he
        obtain ⟨h1, h2⟩ := hfree e (List.mem_of_mem_take he)
        simp [h1, h2]) hc
      by_contra hne
      simp [hne] at this
    by_cases hv1 : v = 0
    · have := hlab 1 (hcon v 1 hv0 hv (by decide) (by omega))
      omega
    · have := hlab 0 (hcon v 0 hv0 hv (le_refl 0) (by omega))
      omega
  exact ⟨hnone, minimum_spanning_tree_visits_all tie g h (fun k _ => hnone k)⟩

/-- C22: a graph of four vertices with the edges (0,1,1) and (1,2,2), constructed where
the storage of `edge_counter` held 7. Vertex 3 has degree 0; `minimum_spanning_tree()`
visits both stored edges and returns `edges_tested = 2`, while `edge_count()` returns
9. -/
theorem isolated_vertex_edges_tested_differs_from_edge_count :
    Reachable tie_right (isolated_graph 7) ∧ 1 < (isolated_graph 7).N ∧
      degree (isolated_graph 7) 3 = .ok 0 ∧
      (isolated_graph 7).tree.root.inorder.length = 2 ∧
      (minimum_spanning_tree (isolated_graph 7)).2 = 2 ∧
      (isolated_graph 7).edge_count = 9 ∧
      (minimum_spanning_tree (isolated_graph 7)).2 ≠ (isolated_graph 7).edge_count := by
  have hdeg : degree (isolated_graph 7) 3 = .ok 0 := rfl
  have hlen : (isolated_graph 7).tree.root.inorder.length = 2 := rfl
  have hmst := (minimum_spanning_tree_isolated_vertex tie_right (isolated_graph 7)
    (reachable_isolated_graph 7) (by decide) 3 (by decide) (by decide) hdeg).2
  rw [hlen] at hmst
  have hcount : (isolated_graph 7).edge_count = 9 := by decide
  refine ⟨reachable_isolated_graph 7, by decide, hdeg, hlen, hmst, hcount, ?_⟩
  rw [hmst, hcount]
  decide

end Weighted_graph

namespace Double_sentinel_list

/-! ## The doubly linked list -/

theorem foldl_push_back {α : Type} (xs : List α) :
    ∀ l : Double_sentinel_list α,
      (xs.foldl (fun this x => this.push_back x) l).nodes = l.nodes ++ xs ∧
        (xs.foldl (fun this x => this.push_back x) l).list_size =
          l.list_size + (xs.length : Int) := by
  induction xs with
  | nil => intro l; simp
  | cons x xs ih =>
    intro l
    obtain ⟨h1, h2⟩ := ih (l.push_back x)
    simp only [List.foldl_cons]
    rw [h1, h2]
    simp only [push_back, List.append_assoc, List.singleton_append, List.length_cons,
      true_and]
    push_cast
    ring

/-- The copy constructor copies the elements in their order, and leaves in `list_size`
the size of the source plus the number of copied elements. -/
theorem copy_eq {α : Type} (l : Double_sentinel_list α) :
    (copy l).nodes = l.nodes ∧ (copy l).size = l.size + (l.nodes.length : Int) := by
  obtain ⟨h1, h2⟩ := foldl_push_back l.nodes { nodes := [], list_size := l.size }
  exact ⟨by simpa [copy] using h1, by simpa [copy, size] using h2⟩

/-- C24: the list with the single element 5, made by `push_back(5)` on a new list, has
size 1; its copy has the same element, and `size()` of the copy returns 2. -/
theorem copy_size_doubled :
    ((construct : Double_sentinel_list Int).push_back 5).size = 1 ∧
      ((construct : Double_sentinel_list Int).push_back 5).nodes = [5] ∧
      (copy ((construct : Double_sentinel_list Int).push_back 5)).nodes = [5] ∧
      (copy ((construct : Double_sentinel_list Int).push_back 5)).size = 2 ∧
      (copy ((construct : Double_sentinel_list Int).push_back 5)).size ≠
        ((construct : Double_sentinel_list Int).push_back 5).size := by
  decide

theorem count_loop_eq {α : Type} [DecidableEq α] (obj : α) (xs : List α) :
    ∀ c : Int, count_loop obj xs c = c + (xs.count obj : Int) := by
  induction xs with
  | nil => intro c; simp [count_loop]
  | cons x xs ih =>
    intro c
    simp only [count_loop]
    rw [ih]
    by_cases hx : x = obj
    · subst hx
      simp only [if_true, List.count_cons_self]
      push_cast
      ring
    · rw [if_neg hx, List.count_cons_of_ne (fun h => hx h.symm)]

theorem count_eq {α : Type} [DecidableEq α] (l : Double_sentinel_list α) (obj : α) :
    count l obj = (l.nodes.count obj : Int) := by
  simp [count, count_loop_eq]

theorem erase_loop_some {α : Type} [DecidableEq α] (obj : α) (xs : List α)
    (h : obj ∈ xs) :
    ∃ pre post, xs = pre ++ obj :: post ∧ obj ∉ pre ∧ erase_loop obj xs = some (pre ++ post) := by
  induction xs with
  | nil => cases h
  | cons x xs ih =>
    by_cases hx : obj = x
    · subst hx
      exact ⟨[], xs, rfl, List.not_mem_nil _, by simp [erase_loop]⟩
    · have hm : obj ∈ xs := by
        rcases List.mem_cons.1 h with h | h
        · exact absurd h hx
        · exact h
      obtain ⟨pre, post, h1, h2, h3⟩ := ih hm
      refine ⟨x :: pre, post, by rw [h1]; rfl, ?_, ?_⟩
      · intro hmem
        rcases List.mem_cons.1 hmem with h | h
        · exact hx h
        · exact h2 h
      · simp only [erase_loop, if_neg hx, h3, List.cons_append]

theorem erase_loop_none {α : Type} [DecidableEq α] (obj : α) (xs : List α)
    (h : obj ∉ xs) : erase_loop obj xs = none := by
  induction xs with
  | nil => rfl
  | cons x xs ih =>
    have hx : obj ≠ x := fun hx => h (hx ▸ List.mem_cons_self _ _)
    have hm : obj ∉ xs := fun hm => h (List.mem_cons_of_mem _ hm)
    simp only [erase_loop, if_neg hx, ih hm]

/-- C25: when `x` occurs in the list, `erase(x)` returns 1, the list after the call is
the list before it without the first node that holds `x` (the nodes before and after it
in their order) and `size()` is one less; when `x` does not occur, `erase(x)` returns 0
and the list is unchanged; in both cases `count(x)` after the call is `count(x)` before
it minus the returned value. -/
theorem erase_first_match {α : Type} [DecidableEq α] (l : Double_sentinel_list α) (x : α) :
    (x ∈ l.nodes →
        (erase l x).1 = 1 ∧
        (∃ pre post, l.nodes = pre ++ x :: post ∧ x ∉ pre ∧
          (erase l x).2.nodes = pre ++ post) ∧
        (erase l x).2.nodes = l.nodes.erase x ∧
        (erase l x).2.size = l.size - 1) ∧
      (x ∉ l.nodes → (erase l x).1 = 0 ∧ (erase l x).2 = l) ∧
      count (erase l x).2 x = count l x - (erase l x).1 := by
  by_cases hx : x ∈ l.nodes
  · obtain ⟨pre, post, h1, h2, h3⟩ := erase_loop_some x l.nodes hx
    have hers : erase l x = (1, { nodes := pre ++ post, list_size := l.list_size - 1 }) := by
      simp only [erase, h3]
    have hlist : l.nodes.erase x = pre ++ post := by
      rw [h1, List.erase_append_right _ h2, List.erase_cons_head]
    refine ⟨fun _ => ?_, fun hn => absurd hx hn, ?_⟩
    · rw [hers]
      exact ⟨rfl, ⟨pre, post, h1, h2, rfl⟩, hlist.symm, rfl⟩
    · rw [hers, count_eq, count_eq]
      simp only
      rw [← hlist, List.count_erase_self]
      have hpos : 0 < l.nodes.count x := List.count_pos_iff.2 hx
      omega
  · have hers : erase l x = (0, l) := by
      simp only [erase, erase_loop_none x l.nodes hx]
    refine ⟨fun h => absurd h hx, fun _ => ?_, ?_⟩
    · rw [hers]
      exact ⟨rfl, rfl⟩
    · rw [hers]
      simp

end Double_sentinel_list

namespace Linked_stack

/-! ## The linked stack -/

theorem Inv.size_zero_iff {α : Type} {s : Linked_stack α} (h : Inv s) :
    s.stack_size = 0 ↔ s.list.nodes = [] := by
  constructor
  · intro h0
    cases hn : s.list.nodes with
    | nil => rfl
    | cons a rest =>
      have h1 := h.size
      have h2 := h.itop_lo
      rw [hn] at h1
      simp only [List.length_cons] at h1
      push_cast at h1
      omega
  · intro hn
    have h1 := h.size
    rw [h.no_array hn, hn] at h1
    simpa using h1

theorem entries_down_congr {α : Type} (a b : Int → α) (k : Nat)
    (h : ∀ i : Int, 0 ≤ i → i ≤ (k : Int) → a i = b i) :
    entries_down a k = entries_down b k := by
  induction k with
  | zero => simp [entries_down, h 0 (le_refl 0) (le_refl 0)]
  | succ k ih =>
    simp only [entries_down]
    rw [h ((k : Int) + 1) (by omega) (by push_cast; omega),
      ih (fun i hi0 hik => h i hi0 (by push_cast; omega))]

/-- A `push` on a stack that satisfies the invariant returns; the stack after it, its
top, its size and its entries. -/
theorem push_ok {α : Type} [Inhabited α] (s : Linked_stack α) (h : Inv s) (x : α) :
    ∃ s1, push s x = .ok s1 ∧ Inv s1 ∧ top s1 = .ok x ∧ s1.size = s.size + 1 ∧
      entries s1 = x :: entries s ∧
      (s.itop = 7 → s1.list_size = s.list_size + 1 ∧ s1.itop = 0 ∧
        s1.list.nodes.tail = s.list.nodes) ∧
      (s.itop ≠ 7 → s1.list_size = s.list_size ∧ s1.itop = s.itop + 1 ∧
        ∃ a rest, s.list.nodes = a :: rest ∧
          s1.list.nodes = (fun k => if k = s.itop + 1 then x else a k) :: rest) := by
  by_cases h7 : s.itop = 7
  · have hfront : (s.list.push_front (fun _ => default)).front =
        .ok (fun _ => (default : α)) := by
      have hne : ¬ (s.list.list_size + 1 = 0) := by
        rw [h.list_size]; omega
      simp [Double_sentinel_list.front, Double_sentinel_list.push_front, hne]
    refine ⟨Linked_stack.mk (write_first (s.list.push_front (fun _ => default)) 0 x) 0
      (s.stack_size + 1), ?_, ?_, ?_, rfl, ?_, ?_, fun hn => absurd h7 hn⟩
    · simp only [push, if_pos h7, hfront]
    · refine ⟨?_, le_refl (0 : Int), (show (0 : Int) ≤ 7 by decide), ?_, ?_⟩
      · simp only [write_first, Double_sentinel_list.push_front, List.length_cons]
        rw [h.list_size]
        push_cast
        ring
      · simp only [write_first, Double_sentinel_list.push_front, List.length_cons]
        rw [h.size, h7]
        push_cast
        ring
      · intro hn
        simp [write_first, Double_sentinel_list.push_front] at hn
    · have hne : ¬ (s.stack_size + 1 = 0) := by
        have := h.size
        rw [h7] at this
        omega
      simp [top, empty, hne, first_array, write_first, Double_sentinel_list.push_front]
    · simp only [entries, write_first, Double_sentinel_list.push_front]
      rw [h7]
      cases hn : s.list.nodes with
      | nil => simp [entries_down]
      | cons a rest => simp [entries_down]
    · intro _
      exact ⟨by simp [list_size, Double_sentinel_list.size, write_first,
        Double_sentinel_list.push_front], rfl,
        by simp [write_first, Double_sentinel_list.push_front]⟩
  · obtain ⟨a, rest, hn⟩ : ∃ a rest, s.list.nodes = a :: rest := by
      cases hn : s.list.nodes with
      | nil => exact absurd (h.no_array hn) h7
      | cons a rest => exact ⟨a, rest, rfl⟩
    have hlo := h.itop_lo
    have hhi := h.itop_hi
    have hw : write_first s.list (s.itop + 1) x =
        { s.list with nodes := (fun k => if k = s.itop + 1 then x else a k) :: rest } := by
      simp only [write_first, hn]
    refine ⟨Linked_stack.mk (write_first s.list (s.itop + 1) x) (s.itop + 1)
      (s.stack_size + 1), ?_, ?_, ?_, rfl, ?_, fun h => absurd h h7, ?_⟩
    · simp only [push, if_neg h7]
    · have i1 : (0 : Int) ≤ s.itop + 1 := by omega
      have i2 : s.itop + 1 ≤ 7 := by omega
      refine ⟨?_, i1, i2, ?_, ?_⟩
      · rw [hw]
        simp only [List.length_cons]
        rw [h.list_size, hn]
        simp
      · rw [hw]
        simp only [List.length_cons]
        rw [h.size, hn]
        simp only [List.length_cons]
        ring
      · rw [hw]
        intro hnil
        cases hnil
    · have hne : ¬ (s.stack_size + 1 = 0) := by
        have := h.size
        rw [hn] at this
        simp only [List.length_cons] at this
        push_cast at this
        omega
      rw [hw]
      simp [top, empty, hne, first_array]
    · rw [hw]
      simp only [entries, hn]
      have hk : (s.itop + 1).toNat = s.itop.toNat + 1 := by omega
      rw [hk]
      simp only [entries_down, List.cons_append]
      have hcast : ((s.itop.toNat : Int)) = s.itop := Int.toNat_of_nonneg hlo
      rw [hcast, if_pos rfl]
      congr 2
      apply entries_down_congr
      intro i hi0 hik
      rw [if_neg (by omega)]
    · intro _
      refine ⟨?_, rfl, a, rest, hn, ?_⟩
      · rw [hw]
        rfl
      · rw [hw]

/-- A `pop` on a stack that is not empty and satisfies the invariant returns the first
of its entries and leaves the others. -/
theorem pop_ok {α : Type} [Inhabited α] (s : Linked_stack α) (h : Inv s)
    (hne : s.stack_size ≠ 0) :
    ∃ x s1, pop s = .ok (x, s1) ∧ Inv s1 ∧ top s = .ok x ∧ s1.size = s.size - 1 ∧
      entries s = x :: entries s1 ∧
      (s.itop = 0 → s1.itop = 7 ∧ s1.list.nodes = s.list.nodes.tail ∧
        s1.list.list_size = s.list.list_size - 1) ∧
      (s.itop ≠ 0 → s1.itop = s.itop - 1 ∧ s1.list = s.list) := by
  obtain ⟨a, rest, hn⟩ : ∃ a rest, s.list.nodes = a :: rest := by
    cases hn : s.list.nodes with
    | nil => exact absurd (h.size_zero_iff.2 hn) hne
    | cons a rest => exact ⟨a, rest, rfl⟩
  have hlo := h.itop_lo
  have hhi := h.itop_hi
  have hempty : s.empty = false := by simp [empty, hne]
  have htop : top s = .ok (a s.itop) := by
    simp [top, hempty, first_array, hn]
  by_cases h0 : s.itop = 0
  · have hls : ¬ (s.list.list_size = 0) := by
      rw [h.list_size, hn]
      simp only [List.length_cons]
      push_cast
      omega
    refine ⟨a s.itop, Linked_stack.mk (Double_sentinel_list.mk rest (s.list.list_size - 1))
      7 (s.stack_size - 1), ?_, ?_, htop, rfl, ?_, ?_, fun hn0 => absurd h0 hn0⟩
    · simp [pop, hempty, h0, Double_sentinel_list.pop_front, hls, first_array, hn]
    · refine ⟨?_, (show (0 : Int) ≤ 7 by decide), le_refl (7 : Int), ?_, fun _ => rfl⟩
      · show s.list.list_size - 1 = (rest.length : Int)
        rw [h.list_size, hn]
        simp
      · show s.stack_size - 1 = 8 * (rest.length : Int) - 7 + 7
        rw [h.size, hn, h0]
        simp only [List.length_cons]
        push_cast
        ring
    · simp only [entries, hn, h0]
      cases rest with
      | nil => simp [entries_down]
      | cons b rest1 => simp [entries_down]
    · intro _
      exact ⟨rfl, by simp [hn], rfl⟩
  · refine ⟨a s.itop, Linked_stack.mk s.list (s.itop - 1) (s.stack_size - 1), ?_, ?_,
      htop, rfl, ?_, fun hh => absurd hh h0, fun _ => ⟨rfl, rfl⟩⟩
    · simp [pop, hempty, h0, first_array, hn]
    · have i1 : (0 : Int) ≤ s.itop - 1 := by omega
      have i2 : s.itop - 1 ≤ 7 := by omega
      refine ⟨h.list_size, i1, i2, ?_, ?_⟩
      · show s.stack_size - 1 = 8 * (s.list.nodes.length : Int) - 7 + (s.itop - 1)
        rw [h.size]
        ring
      · intro hnil
        rw [hn] at hnil
        cases hnil
    · simp only [entries, hn]
      have hk : s.itop.toNat = (s.itop - 1).toNat + 1 := by omega
      rw [hk]
      simp only [entries_down, List.cons_append]
      have hcast : (((s.itop - 1).toNat : Int)) + 1 = s.itop := by omega
      rw [hcast]

theorem stack_inv_construct {α : Type} : Inv (construct : Linked_stack α) :=
  ⟨rfl, (by show (0 : Int) ≤ 7; decide), (by show (7 : Int) ≤ 7; decide), rfl, fun _ => rfl⟩

theorem stack_reachable_inv {α : Type} [Inhabited α] (s : Linked_stack α) (h : Reachable s) :
    Inv s := by
  induction h with
  | construct => exact stack_inv_construct
  | push s s1 x _ hpush ih =>
    obtain ⟨s2, h1, h2, _⟩ := push_ok s ih x
    rw [hpush] at h1
    cases h1
    exact h2
  | pop s s1 x _ hpop ih =>
    have hne : s.stack_size ≠ 0 := by
      intro h0
      simp [pop, empty, h0] at hpop
    obtain ⟨y, s2, h1, h2, _⟩ := pop_ok s ih hne
    rw [hpop] at h1
    cases h1
    exact h2

end Linked_stack

namespace Linked_stack

/-- C26: on a stack reachable by `push` and `pop`, `push(x)` returns, after it `top()`
returns `x`, `size()` is one more and `x` is on top of the entries stored before; the
`pop()` that follows returns `x` and leaves the size, the top, the stored entries, the
number of arrays and `itop` as they were before the push; when the push allocates a
new array (`itop = 7`) the list has one more array after it and the stack after the pop
is the stack before the push. On an empty stack `top()` and `pop()` throw
`underflow`. -/
theorem push_pop_lifo {α : Type} [Inhabited α] (s : Linked_stack α) (h : Reachable s)
    (x : α) :
    (∃ s1 s2, push s x = .ok s1 ∧ top s1 = .ok x ∧ s1.size = s.size + 1 ∧
        entries s1 = x :: entries s ∧
        pop s1 = .ok (x, s2) ∧ s2.size = s.size ∧ top s2 = top s ∧
        entries s2 = entries s ∧ s2.list_size = s.list_size ∧ s2.itop = s.itop ∧
        (s.itop = 7 → s1.list_size = s.list_size + 1 ∧ s2 = s)) ∧
      (s.size = 0 → top s = .error Exception.underflow ∧
        pop s = .error Exception.underflow) ∧
      top (construct : Linked_stack α) = .error Exception.underflow ∧
      pop (construct : Linked_stack α) = .error Exception.underflow := by
  have hinv := stack_reachable_inv s h
  refine ⟨?_, ?_, rfl, rfl⟩
  · obtain ⟨s1, hpush, hinv1, htop1, hsize1, hent1, h7, hn7⟩ := push_ok s hinv x
    have hs0 : 0 ≤ s.stack_size := by
      have h1 := hinv.size
      have h2 := hinv.itop_lo
      cases hn : s.list.nodes with
      | nil =>
        rw [hinv.no_array hn, hn] at h1
        simp at h1
        omega
      | cons a rest =>
        rw [hn] at h1
        simp only [List.length_cons] at h1
        push_cast at h1
        omega
    have hne1 : s1.stack_size ≠ 0 := by
      have : s1.stack_size = s.stack_size + 1 := hsize1
      omega
    obtain ⟨y, s2, hpop, hinv2, htop1', hsize2, hent2, h0, hn0⟩ := pop_ok s1 hinv1 hne1
    have hyx : y = x := by
      rw [htop1] at htop1'
      exact (Except.ok.inj htop1').symm
    subst hyx
    have hent : entries s2 = entries s := by
      rw [hent1] at hent2
      exact (List.cons.inj hent2).2.symm
    have hsize : s2.size = s.size := by
      rw [hsize2, hsize1]
      ring
    by_cases hs7 : s.itop = 7
    · obtain ⟨hl1, hi1, hnodes1⟩ := h7 hs7
      obtain ⟨hi2, hnodes2, hl2⟩ := h0 hi1
      have heq : s2 = s := by
        have e1 : s2.list.nodes = s.list.nodes := by rw [hnodes2, hnodes1]
        have e2 : s2.list.list_size = s.list.list_size := by
          have : s1.list.list_size = s.list.list_size + 1 := hl1
          rw [hl2, this]
          ring
        have e3 : s2.itop = s.itop := by rw [hi2, hs7]
        have e4 : s2.stack_size = s.stack_size := hsize
        cases s with
        | mk l i n =>
          cases s2 with
          | mk l2 i2 n2 =>
            cases l with
            | mk ns ls =>
              cases l2 with
              | mk ns2 ls2 =>
                simp only at e1 e2 e3 e4
                subst e1 e2 e3 e4
                rfl
      refine ⟨s1, s2, hpush, htop1, hsize1, hent1, hpop, hsize, ?_, hent, ?_, ?_,
        fun _ => ⟨hl1, heq⟩⟩
      · rw [heq]
      · rw [heq]
      · rw [heq]
    · obtain ⟨hl1, hi1, a, rest, hnodes, hnodes1⟩ := hn7 hs7
      have hlo := hinv.itop_lo
      have hi1ne : s1.itop ≠ 0 := by rw [hi1]; omega
      obtain ⟨hi2, hlist2⟩ := hn0 hi1ne
      have hitop : s2.itop = s.itop := by rw [hi2, hi1]; ring
      refine ⟨s1, s2, hpush, htop1, hsize1, hent1, hpop, hsize, ?_, hent, ?_, hitop,
        fun h7' => absurd h7' hs7⟩
      · have hst : s2.stack_size = s.stack_size := hsize
        have hsne : s.stack_size ≠ 0 := by
          intro h0
          have hnil := hinv.size_zero_iff.1 h0
          rw [hnodes] at hnil
          exact List.cons_ne_nil _ _ hnil
        have hne : s.itop ≠ s.itop + 1 := by omega
        simp [top, empty, first_array, hst, hitop, hlist2, hnodes1, hnodes, hsne, hne]
      · show s2.list.list_size = s.list.list_size
        rw [hlist2]
        exact hl1
  · intro h0
    have h0' : s.stack_size = 0 := h0
    simp [top, pop, empty, h0']

theorem reachable_construct_push_three :
    ∃ s : Linked_stack Int, Reachable s ∧ entries s = [3, 2, 1] := by
  obtain ⟨s1, h1, _, _, _, e1, _⟩ := push_ok (construct : Linked_stack Int) stack_inv_construct 1
  have r1 : Reachable s1 := Reachable.push _ _ _ Reachable.construct h1
  obtain ⟨s2, h2, _, _, _, e2, _⟩ := push_ok s1 (stack_reachable_inv s1 r1) 2
  have r2 : Reachable s2 := Reachable.push _ _ _ r1 h2
  obtain ⟨s3, h3, _, _, _, e3, _⟩ := push_ok s2 (stack_reachable_inv s2 r2) 3
  have r3 : Reachable s3 := Reachable.push _ _ _ r2 h3
  refine ⟨s3, r3, ?_⟩
  rw [e3, e2, e1]
  rfl

theorem push_pop_lifo_witness :
    Reachable (construct : Linked_stack Int) ∧
      ((∃ s1 s2, push (construct : Linked_stack Int) 5 = .ok s1 ∧ top s1 = .ok 5 ∧
          s1.size = (construct : Linked_stack Int).size + 1 ∧
          entries s1 = 5 :: entries (construct : Linked_stack Int) ∧
          pop s1 = .ok (5, s2) ∧ s2.size = (construct : Linked_stack Int).size ∧
          top s2 = top (construct : Linked_stack Int) ∧
          entries s2 = entries (construct : Linked_stack Int) ∧
          s2.list_size = (construct : Linked_stack Int).list_size ∧
          s2.itop = (construct : Linked_stack Int).itop ∧
          ((construct : Linked_stack Int).itop = 7 →
            s1.list_size = (construct : Linked_stack Int).list_size + 1 ∧
              s2 = (construct : Linked_stack Int))) ∧
        ((construct : Linked_stack Int).size = 0 →
          top (construct : Linked_stack Int) = .error Exception.underflow ∧
            pop (construct : Linked_stack Int) = .error Exception.underflow) ∧
        top (construct : Linked_stack Int) = .error Exception.underflow ∧
        pop (construct : Linked_stack Int) = .error Exception.underflow) :=
  ⟨Reachable.construct, push_pop_lifo (construct : Linked_stack Int) Reachable.construct 5⟩

end Linked_stack

namespace Dynamic_queue

/-! ## The dynamic queue -/

/-- C23 (the code departs from it): on a queue of initial capacity 3, whatever the
new blocks hold, after `enqueue` of 1, 2, 3, a `dequeue`, `enqueue` of 4, 5, 6, 7, a
`dequeue`, `enqueue(8)`, five `dequeue`, `enqueue(9)` and a `dequeue`, the eight
`dequeue` calls have returned 1 to 8 and `size()` is 1, so 9 is the one element
enqueued and not yet dequeued; but `head()` returns 3 and `dequeue()` returns 3. -/
theorem dequeue_after_halving_returns_stale_element (mem fresh : Int → Int) :
    (run (construct 3 mem) (fifo_calls fresh)).1 =
        [.ok 1, .ok 2, .ok 3, .ok 4, .ok 5, .ok 6, .ok 7, .ok 8] ∧
      size (run (construct 3 mem) (fifo_calls fresh)).2 = 1 ∧
      head (run (construct 3 mem) (fifo_calls fresh)).2 = .ok 3 ∧
      ∃ q1, dequeue (run (construct 3 mem) (fifo_calls fresh)).2 = .ok (3, q1) := by
  simp [run, fifo_calls, enqueue, dequeue, grow, construct, copy_loop, iterations, empty,
    head, size, Function.update_apply]

end Dynamic_queue

namespace Leftist_node

/-! ## The leftist heap -/

theorem push_nil_left {α : Type} [LinearOrder α] (t : Leftist_node α) : push nil t = t := by
  rw [push]

theorem push_nil_right {α : Type} [LinearOrder α] (t : Leftist_node α) : push t nil = t := by
  cases t with
  | nil => rw [push]
  | node e l r p => rw [push]

theorem elements_push {α : Type} [LinearOrder α] (a b : Leftist_node α) :
    elements (push a b) = elements a + elements b := by
  induction a, b using push.induct with
  | case1 t => rw [push_nil_left]; simp [elements]
  | case2 e l r p => rw [push_nil_right]; simp [elements]
  | case3 e l r p e1 l1 r1 p1 h right_tree hlt ih =>
    rw [push, dif_pos h]
    simp only []
    rw [if_pos hlt]
    simp only [elements] at ih ⊢
    rw [ih]
    simp only [← Multiset.singleton_add]
    ac_rfl
  | case4 e l r p e1 l1 r1 p1 h right_tree hlt ih =>
    rw [push, dif_pos h]
    simp only []
    rw [if_neg hlt]
    simp only [elements] at ih ⊢
    rw [ih]
    simp only [← Multiset.singleton_add]
    ac_rfl
  | case5 e l r p e1 l1 r1 p1 h ih =>
    rw [push, dif_neg h, ih, add_comm]

theorem heap_ordered_push {α : Type} [LinearOrder α] (a b : Leftist_node α)
    (ha : Heap_ordered a) (hb : Heap_ordered b) : Heap_ordered (push a b) := by
  induction a, b using push.induct with
  | case1 t => rw [push_nil_left]; exact hb
  | case2 e l r p => rw [push_nil_right]; exact ha
  | case3 e l r p e1 l1 r1 p1 h right_tree hlt ih =>
    rw [push, dif_pos h]
    simp only []
    rw [if_pos hlt]
    obtain ⟨hb1, hb2, hb3, hb4⟩ := hb
    have hr := ih ha hb4
    refine ⟨?_, hb1, hr, hb3⟩
    intro y hy
    rw [elements_push] at hy
    rcases Multiset.mem_add.1 hy with hy | hy
    · simp only [elements, Multiset.mem_cons, Multiset.mem_add] at hy
      rcases hy with rfl | hy | hy
      · exact h
      · exact le_trans h (ha.1 y hy)
      · exact le_trans h (ha.2.1 y hy)
    · exact hb2 y hy
  | case4 e l r p e1 l1 r1 p1 h right_tree hlt ih =>
    rw [push, dif_pos h]
    simp only []
    rw [if_neg hlt]
    obtain ⟨hb1, hb2, hb3, hb4⟩ := hb
    have hr := ih ha hb4
    refine ⟨hb1, ?_, hb3, hr⟩
    intro y hy
    rw [elements_push] at hy
    rcases Multiset.mem_add.1 hy with hy | hy
    · simp only [elements, Multiset.mem_cons, Multiset.mem_add] at hy
      rcases hy with rfl | hy | hy
      · exact h
      · exact le_trans h (ha.1 y hy)
      · exact le_trans h (ha.2.1 y hy)
    · exact hb2 y hy
  | case5 e l r p e1 l1 r1 p1 h ih =>
    rw [push, dif_neg h]
    exact ih hb ha

theorem heap_ordered_construct {α : Type} [LinearOrder α] (x : α) :
    Heap_ordered (construct x) := by
  simp [construct, Heap_ordered, elements]

theorem elements_construct {α : Type} (x : α) : elements (construct x) = {x} := by
  simp [construct, elements]

end Leftist_node

namespace Leftist_heap

theorem heap_inv_construct {α : Type} [LinearOrder α] :
    Inv (construct : Leftist_heap α) :=
  ⟨trivial, rfl⟩

theorem elements_heap_push {α : Type} [LinearOrder α] (h : Leftist_heap α) (x : α) :
    (push h x).root_node.elements = x ::ₘ h.root_node.elements := by
  show (Leftist_node.push (Leftist_node.construct x) h.root_node).elements = _
  rw [Leftist_node.elements_push, Leftist_node.elements_construct]
  rfl

theorem heap_inv_push {α : Type} [LinearOrder α] (h : Leftist_heap α) (hi : Inv h) (x : α) :
    Inv (push h x) := by
  refine ⟨?_, ?_⟩
  · exact Leftist_node.heap_ordered_push _ _ (Leftist_node.heap_ordered_construct x)
      hi.ordered
  · rw [elements_heap_push, Multiset.card_cons]
    show h.heap_size + 1 = _
    rw [hi.size]
    push_cast
    rfl

theorem heap_size_zero_iff {α : Type} [LinearOrder α] (h : Leftist_heap α) (hi : Inv h) :
    h.heap_size = 0 ↔ h.root_node.elements = 0 := by
  rw [hi.size]
  constructor
  · intro h0
    exact Multiset.card_eq_zero.1 (by exact_mod_cast h0)
  · intro h0
    rw [h0]
    rfl

theorem heap_pop_ok {α : Type} [LinearOrder α] [Inhabited α] (h : Leftist_heap α)
    (hi : Inv h) (hne : h.heap_size ≠ 0) :
    ∃ m h1, top h = .ok m ∧ pop h = .ok (m, h1) ∧ m ∈ h.root_node.elements ∧
      (∀ y ∈ h.root_node.elements, m ≤ y) ∧
      h1.root_node.elements = h.root_node.elements.erase m ∧
      h1.size = h.size - 1 ∧ Inv h1 := by
  obtain ⟨root, n⟩ := h
  cases root with
  | nil =>
    exfalso
    apply hne
    exact (heap_size_zero_iff _ hi).2 rfl
  | node e l r p =>
    have hn : n ≠ 0 := hne
    obtain ⟨ho1, ho2, ho3, ho4⟩ := hi.ordered
    have hsz := hi.size
    simp only [Leftist_node.elements, Multiset.card_cons, Multiset.card_add] at hsz
    refine ⟨e, ⟨Leftist_node.push r l, n - 1⟩, ?_, ?_, ?_, ?_, ?_, rfl, ?_, ?_⟩
    · simp [top, empty, hn, Leftist_node.retrieve]
    · simp [pop, empty, hn, Leftist_node.retrieve, Leftist_node.right, Leftist_node.left]
    · simp [Leftist_node.elements]
    · intro y hy
      simp only [Leftist_node.elements, Multiset.mem_cons, Multiset.mem_add] at hy
      rcases hy with rfl | hy | hy
      · exact le_refl _
      · exact ho1 y hy
      · exact ho2 y hy
    · show (Leftist_node.push r l).elements = _
      rw [Leftist_node.elements_push]
      simp only [Leftist_node.elements, Multiset.erase_cons_head]
      exact add_comm _ _
    · exact Leftist_node.heap_ordered_push _ _ ho4 ho3
    · show n - 1 = _
      rw [Leftist_node.elements_push, Multiset.card_add]
      push_cast at hsz ⊢
      omega

theorem built_inv {α : Type} [LinearOrder α] [Inhabited α] (p q : Nat)
    (h : Leftist_heap α) (hb : Built p q h) :
    Inv h ∧ h.heap_size = (p : Int) - (q : Int) := by
  induction hb with
  | construct => exact ⟨heap_inv_construct, rfl⟩
  | push p q h x _ ih =>
    refine ⟨heap_inv_push h ih.1 x, ?_⟩
    show h.heap_size + 1 = _
    rw [ih.2]
    push_cast
    ring
  | pop p q h h1 x _ hpop ih =>
    have hne : h.heap_size ≠ 0 := by
      intro h0
      simp [pop, empty, h0] at hpop
    obtain ⟨m, h2, _, hpop2, _, _, _, hsize, hinv⟩ := heap_pop_ok h ih.1 hne
    rw [hpop] at hpop2
    cases hpop2
    refine ⟨hinv, ?_⟩
    have : h1.heap_size = h.heap_size - 1 := hsize
    rw [this, ih.2]
    push_cast
    ring

theorem pop_all_sorted {α : Type} [LinearOrder α] [Inhabited α] (n : Nat) :
    ∀ h : Leftist_heap α, Inv h → h.heap_size = (n : Int) →
      (pop_all n h).Sorted (fun a b => a ≤ b) ∧
        ((pop_all n h : List α) : Multiset α) = h.root_node.elements := by
  induction n with
  | zero =>
    intro h hi h0
    refine ⟨List.sorted_nil, ?_⟩
    rw [(heap_size_zero_iff h hi).1 (by simpa using h0)]
    rfl
  | succ n ih =>
    intro h hi hn
    have hne : h.heap_size ≠ 0 := by
      rw [hn]
      push_cast
      omega
    obtain ⟨m, h1, _, hpop, hmem, hmin, helts, hsize, hinv⟩ := heap_pop_ok h hi hne
    have hsz1 : h1.heap_size = (n : Int) := by
      have : h1.heap_size = h.heap_size - 1 := hsize
      rw [this, hn]
      push_cast
      ring
    obtain ⟨hs, hm⟩ := ih h1 hinv hsz1
    have hall : pop_all (n + 1) h = m :: pop_all n h1 := by
      simp only [pop_all, hpop]
    rw [hall]
    refine ⟨List.sorted_cons.2 ⟨?_, hs⟩, ?_⟩
    · intro y hy
      have hy1 : y ∈ ((pop_all n h1 : List α) : Multiset α) := Multiset.mem_coe.2 hy
      rw [hm, helts] at hy1
      exact hmin y (Multiset.mem_of_mem_erase hy1)
    · rw [← Multiset.cons_coe, hm, helts, Multiset.cons_erase hmem]

/-- C27: on a heap built from an empty heap by `p` calls of `push` and `q` calls of
`pop` that return, `size()` is `p - q` and `push(x)` adds one occurrence of `x` to the
multiset stored; on an empty heap nothing is stored and `top()` and `pop()` throw
`underflow`; on a non-empty heap `top()` returns an element `m` of the multiset stored
that is at most every element stored, and `pop()` returns the same `m`, removes
exactly one occurrence of it and lowers `size()` by one; `size()` successive calls of
`pop` return all the elements stored, in non-decreasing order. -/
theorem top_pop_minimum {α : Type} [LinearOrder α] [Inhabited α] (p q : Nat)
    (h : Leftist_heap α) (hb : Built p q h) :
    h.size = (p : Int) - (q : Int) ∧
      (∀ x, (push h x).root_node.elements = x ::ₘ h.root_node.elements ∧
        (push h x).size = h.size + 1) ∧
      (h.size = 0 → h.root_node.elements = 0 ∧ top h = .error Exception.underflow ∧
        pop h = .error Exception.underflow) ∧
      (h.size ≠ 0 → ∃ m h1, top h = .ok m ∧ pop h = .ok (m, h1) ∧
        m ∈ h.root_node.elements ∧ (∀ y ∈ h.root_node.elements, m ≤ y) ∧
        h1.root_node.elements = h.root_node.elements.erase m ∧ h1.size = h.size - 1) ∧
      (pop_all h.size.toNat h).Sorted (fun a b => a ≤ b) ∧
      ((pop_all h.size.toNat h : List α) : Multiset α) = h.root_node.elements := by
  obtain ⟨hi, hsz⟩ := built_inv p q h hb
  have hnn : (0 : Int) ≤ h.heap_size := by
    rw [hi.size]
    exact Int.natCast_nonneg _
  refine ⟨hsz, fun x => ⟨elements_heap_push h x, rfl⟩, ?_, ?_, ?_⟩
  · intro h0
    have h0' : h.heap_size = 0 := h0
    refine ⟨(heap_size_zero_iff h hi).1 h0', ?_, ?_⟩
    · simp [top, empty, h0']
    · simp [pop, empty, h0']
  · intro hne
    obtain ⟨m, h1, h2, h3, h4, h5, h6, h7, _⟩ := heap_pop_ok h hi hne
    exact ⟨m, h1, h2, h3, h4, h5, h6, h7⟩
  · have hcast : h.heap_size = ((h.size.toNat : Nat) : Int) := by
      show h.heap_size = ((h.heap_size.toNat : Nat) : Int)
      omega
    exact pop_all_sorted h.size.toNat h hi hcast

end Leftist_heap

namespace Leftist_heap

theorem built_heap_example : Built 2 0 heap_example :=
  Built.push 1 0 _ 1 (Built.push 0 0 _ 3 Built.construct)

theorem top_pop_minimum_witness :
    Built 2 0 heap_example ∧
      (heap_example.size = ((2 : Nat) : Int) - ((0 : Nat) : Int) ∧
        (∀ x, (push heap_example x).root_node.elements =
            x ::ₘ heap_example.root_node.elements ∧
          (push heap_example x).size = heap_example.size + 1) ∧
        (heap_example.size = 0 → heap_example.root_node.elements = 0 ∧
          top heap_example = .error Exception.underflow ∧
          pop heap_example = .error Exception.underflow) ∧
        (heap_example.size ≠ 0 → ∃ m h1, top heap_example = .ok m ∧
          pop heap_example = .ok (m, h1) ∧
          m ∈ heap_example.root_node.elements ∧
          (∀ y ∈ heap_example.root_node.elements, m ≤ y) ∧
          h1.root_node.elements = heap_example.root_node.elements.erase m ∧
          h1.size = heap_example.size - 1) ∧
        (pop_all heap_example.size.toNat heap_example).Sorted (fun a b => a ≤ b) ∧
        ((pop_all heap_example.size.toNat heap_example : List Int) : Multiset Int) =
          heap_example.root_node.elements) :=
  ⟨built_heap_example, top_pop_minimum 2 0 heap_example built_heap_example⟩

end Leftist_heap

namespace Quadratic_hash_table

/-! ## The quadratic hash table -/

theorem wrap_eq_emod (M a : Int) (hM : 0 < M) : wrap M a = a % M := by
  unfold wrap
  have h1 := Int.tmod_add_tdiv a M
  have h2 : (Int.tmod a M) % M = a % M := by
    conv_rhs => rw [← h1]
    simp
  have hlow : -M < Int.tmod a M := by
    obtain ⟨n, rfl⟩ := Int.eq_ofNat_of_zero_le hM.le
    cases a with
    | ofNat k =>
      have h3 : 0 ≤ Int.tmod (Int.ofNat k) (n : Int) :=
        Int.tmod_nonneg (n : Int) (Int.ofNat_nonneg k)
      exact lt_of_lt_of_le (by omega) h3
    | negSucc k =>
      have hn : 0 < n := by omega
      have := Nat.mod_lt k.succ hn
      show -(n : Int) < -Int.ofNat (k.succ % n)
      simp only [Int.ofNat_eq_coe]
      omega
  by_cases hneg : Int.tmod a M < 0
  · rw [if_pos hneg, ← h2]
    rw [← Int.add_emod_self, Int.emod_eq_of_lt (by omega) (by omega)]
  · rw [if_neg hneg, ← h2]
    exact (Int.emod_eq_of_lt (by omega) (Int.tmod_lt_of_pos a hM)).symm

theorem next_eq_emod (M index i : Int) (hM : 0 < M) : next M index i = (index + i) % M :=
  wrap_eq_emod M _ hM

theorem hash_eq_emod (t : Quadratic_hash_table) (obj : Int) (hM : 0 < t.array_size) :
    hash t obj = obj % t.array_size :=
  wrap_eq_emod _ _ hM

theorem hash_range (t : Quadratic_hash_table) (obj : Int) (hM : 0 < t.array_size) :
    0 ≤ hash t obj ∧ hash t obj < t.array_size := by
  rw [hash_eq_emod t obj hM]
  exact ⟨Int.emod_nonneg _ (ne_of_gt hM), Int.emod_lt_of_pos _ hM⟩

theorem two_mul_triangle (k : Nat) : 2 * triangle k = k * (k + 1) := by
  induction k with
  | zero => rfl
  | succ k ih =>
    simp only [triangle]
    rw [Nat.mul_add, ih]
    ring

theorem triangle_mono {i j : Nat} (h : i ≤ j) : triangle i ≤ triangle j := by
  induction h with
  | refl => exact le_refl _
  | step _ ih =>
    simp only [triangle]
    omega

theorem index_at_eq (M h : Int) (k : Nat) (hM : 0 < M) (h0 : 0 ≤ h) (h1 : h < M) :
    index_at M h k = (h + (triangle k : Int)) % M := by
  induction k with
  | zero =>
    simp only [index_at, triangle]
    rw [Nat.cast_zero, add_zero, Int.emod_eq_of_lt h0 h1]
  | succ k ih =>
    simp only [index_at, triangle]
    rw [next_eq_emod _ _ _ hM, ih, Int.emod_add_emod]
    congr 1
    push_cast
    ring

theorem index_at_range (M h : Int) (k : Nat) (hM : 0 < M) (h0 : 0 ≤ h) (h1 : h < M) :
    0 ≤ index_at M h k ∧ index_at M h k < M := by
  rw [index_at_eq M h k hM h0 h1]
  exact ⟨Int.emod_nonneg _ (ne_of_gt hM), Int.emod_lt_of_pos _ hM⟩

theorem triangle_lt_of_dvd (m i j : Nat) (hij : i < j) (hj : j < 2 ^ m)
    (h : 2 ^ m ∣ triangle j - triangle i) : False := by
  obtain ⟨d, rfl⟩ : ∃ d, j = i + d := ⟨j - i, by omega⟩
  have hd : 0 < d := by omega
  have hle := triangle_mono (le_of_lt hij)
  have hprod : 2 * (triangle (i + d) - triangle i) = d * (2 * i + d + 1) := by
    rw [Nat.mul_sub, two_mul_triangle, two_mul_triangle]
    apply Nat.sub_eq_of_eq_add
    ring
  have hdvd : 2 ^ (m + 1) ∣ d * (2 * i + d + 1) := by
    rw [← hprod, pow_succ, mul_comm]
    exact Nat.mul_dvd_mul_left 2 h
  rcases Nat.even_or_odd d with he | ho
  · have hodd : Odd (2 * i + d + 1) := by
      obtain ⟨c, hc⟩ := he
      exact ⟨i + c, by omega⟩
    have hco : Nat.Coprime (2 ^ (m + 1)) (2 * i + d + 1) :=
      Nat.Coprime.pow_left _ (Nat.coprime_two_left.2 hodd)
    have h2 : 2 ^ (m + 1) ∣ d := hco.dvd_of_dvd_mul_right hdvd
    have h3 := Nat.le_of_dvd hd h2
    have h4 : 2 ^ (m + 1) = 2 * 2 ^ m := by rw [pow_succ, mul_comm]
    omega
  · have hco : Nat.Coprime (2 ^ (m + 1)) d :=
      Nat.Coprime.pow_left _ (Nat.coprime_two_left.2 ho)
    have h2 : 2 ^ (m + 1) ∣ 2 * i + d + 1 := hco.dvd_of_dvd_mul_left hdvd
    have h3 := Nat.le_of_dvd (by omega) h2
    have h4 : 2 ^ (m + 1) = 2 * 2 ^ m := by rw [pow_succ, mul_comm]
    omega

theorem index_at_injective (m : Nat) (h : Int) (h0 : 0 ≤ h) (h1 : h < 2 ^ m) (i j : Nat)
    (hi : i < 2 ^ m) (hj : j < 2 ^ m)
    (heq : index_at (2 ^ m) h i = index_at (2 ^ m) h j) : i = j := by
  have hM : (0 : Int) < 2 ^ m := by positivity
  rw [index_at_eq _ h i hM h0 h1, index_at_eq _ h j hM h0 h1] at heq
  have key : ∀ a b : Nat, a < b → b < 2 ^ m →
      (h + (triangle a : Int)) % 2 ^ m = (h + (triangle b : Int)) % 2 ^ m → False := by
    intro a b hab hb he
    have hle := triangle_mono (le_of_lt hab)
    have hd : ((2 : Int) ^ m) ∣ (h + (triangle b : Int)) - (h + (triangle a : Int)) :=
      Int.ModEq.dvd he
    have hd2 : (((2 ^ m : Nat) : Int)) ∣ ((triangle b - triangle a : Nat) : Int) := by
      rw [Nat.cast_sub hle]
      push_cast
      have : (h + (triangle b : Int)) - (h + (triangle a : Int)) =
          (triangle b : Int) - (triangle a : Int) := by ring
      rwa [this] at hd
    exact triangle_lt_of_dvd m a b hab hb (Int.natCast_dvd_natCast.1 hd2)
  rcases Nat.lt_trichotomy i j with hlt | heq2 | hgt
  · exact (key i j hlt hj heq).elim
  · exact heq2
  · exact (key j i hgt hi heq.symm).elim

theorem index_at_surjective (m : Nat) (h : Int) (h0 : 0 ≤ h) (h1 : h < 2 ^ m) (b : Int)
    (hb0 : 0 ≤ b) (hb1 : b < 2 ^ m) : ∃ k : Nat, k < 2 ^ m ∧ index_at (2 ^ m) h k = b := by
  have hM : (0 : Int) < 2 ^ m := by positivity
  have hsub : (Finset.range (2 ^ m)).image (index_at (2 ^ m) h) ⊆
      Finset.Ico (0 : Int) (2 ^ m) := by
    intro x hx
    obtain ⟨k, _, rfl⟩ := Finset.mem_image.1 hx
    exact Finset.mem_Ico.2 (index_at_range _ h k hM h0 h1)
  have hcard : ((Finset.range (2 ^ m)).image (index_at (2 ^ m) h)).card = 2 ^ m := by
    rw [Finset.card_image_of_injOn, Finset.card_range]
    intro i hi j hj heq
    exact index_at_injective m h h0 h1 i j (Finset.mem_range.1 hi) (Finset.mem_range.1 hj) heq
  have hIco : (Finset.Ico (0 : Int) (2 ^ m)).card = 2 ^ m := by
    rw [Int.card_Ico, sub_zero]
    have : ((2 : Int) ^ m) = ((2 ^ m : Nat) : Int) := by push_cast; rfl
    rw [this, Int.toNat_natCast]
  have heq := Finset.eq_of_subset_of_card_le hsub (by rw [hcard, hIco])
  have hmem : b ∈ (Finset.range (2 ^ m)).image (index_at (2 ^ m) h) := by
    rw [heq]
    exact Finset.mem_Ico.2 ⟨hb0, hb1⟩
  obtain ⟨k, hk, hkb⟩ := Finset.mem_image.1 hmem
  exact ⟨k, Finset.mem_range.1 hk, hkb⟩

end Quadratic_hash_table

namespace Quadratic_hash_table

theorem probe_from_some (M : Int) (hit : Int → Bool) (h : Int) (b : Int) (n : Nat) :
    ∀ k : Nat, probe M hit n (index_at M h k) (k : Int) = some b ↔
      ∃ j, k ≤ j ∧ j < k + n ∧ index_at M h j = b ∧ hit b = true ∧
        ∀ i, k ≤ i → i < j → hit (index_at M h i) = false := by
  induction n with
  | zero =>
    intro k
    simp only [probe]
    constructor
    · intro hn
      exact Option.noConfusion hn
    · rintro ⟨j, h1, h2, _⟩
      omega
  | succ n ih =>
    intro k
    have hstep : next M (index_at M h k) ((k : Int) + 1) = index_at M h (k + 1) := rfl
    have hcast : ((k : Int) + 1) = ((k + 1 : Nat) : Int) := by push_cast; rfl
    simp only [probe]
    by_cases hk : hit (index_at M h k) = true
    · rw [if_pos hk]
      constructor
      · intro hs
        have hb : index_at M h k = b := Option.some.inj hs
        refine ⟨k, le_refl _, by omega, hb, by rw [← hb]; exact hk, ?_⟩
        intro i h1 h2
        omega
      · rintro ⟨j, h1, _, h3, _, h5⟩
        by_cases hjk : j = k
        · rw [← h3, hjk]
        · have := h5 k (le_refl _) (by omega)
          rw [hk] at this
          exact Bool.noConfusion this
    · rw [if_neg hk, hstep, hcast, ih (k + 1)]
      have hkf : hit (index_at M h k) = false := by simpa using hk
      constructor
      · rintro ⟨j, h1, h2, h3, h4, h5⟩
        refine ⟨j, by omega, by omega, h3, h4, ?_⟩
        intro i hi1 hi2
        by_cases hik : i = k
        · rw [hik]; exact hkf
        · exact h5 i (by omega) hi2
      · rintro ⟨j, h1, h2, h3, h4, h5⟩
        have hjk : j ≠ k := by
          intro hjk
          rw [hjk] at h3
          rw [h3, h4] at hkf
          exact Bool.noConfusion hkf
        exact ⟨j, by omega, by omega, h3, h4, fun i hi1 hi2 => h5 i (by omega) hi2⟩

theorem probe_some_iff (M : Int) (hit : Int → Bool) (h b : Int) (n : Nat) :
    probe M hit n h 0 = some b ↔
      ∃ j, j < n ∧ index_at M h j = b ∧ hit b = true ∧
        ∀ i, i < j → hit (index_at M h i) = false := by
  have h1 := probe_from_some M hit h b n 0
  simp only [index_at, Nat.cast_zero, zero_add, Nat.zero_le, true_and, true_implies] at h1
  exact h1

theorem probe_none_iff (M : Int) (hit : Int → Bool) (h : Int) (n : Nat) :
    probe M hit n h 0 = none ↔ ∀ j, j < n → hit (index_at M h j) = false := by
  constructor
  · intro hn j hj
    by_contra hc
    have hex : ∃ j, j < n ∧ hit (index_at M h j) = true := ⟨j, hj, by simpa using hc⟩
    classical
    let j0 := Nat.find hex
    have hj0 := Nat.find_spec hex
    have hmin : ∀ i, i < j0 → hit (index_at M h i) = false := by
      intro i hi
      have := Nat.find_min hex hi
      by_contra hc2
      exact this ⟨by omega, by simpa using hc2⟩
    have := (probe_some_iff M hit h (index_at M h j0) n).2 ⟨j0, hj0.1, rfl, hj0.2, hmin⟩
    rw [hn] at this
    exact Option.noConfusion this
  · intro hall
    cases hp : probe M hit n h 0 with
    | none => rfl
    | some b =>
      obtain ⟨j, hj, hb, hhit, _⟩ := (probe_some_iff M hit h b n).1 hp
      rw [← hb, hall j hj] at hhit
      exact Bool.noConfusion hhit

theorem probe_change (M : Int) (hit hit1 : Int → Bool) (h b : Int) (n : Nat)
    (hp : probe M hit n h 0 = some b) (hb : hit1 b = true)
    (hc : ∀ c, hit c = false → hit1 c = false) : probe M hit1 n h 0 = some b := by
  obtain ⟨j, hj, hjb, _, hmin⟩ := (probe_some_iff M hit h b n).1 hp
  exact (probe_some_iff M hit1 h b n).2 ⟨j, hj, hjb, hb, fun i hi => hc _ (hmin i hi)⟩

theorem two_pow_toNat (m : Nat) : ((2 : Int) ^ m).toNat = 2 ^ m := by
  have : ((2 : Int) ^ m) = ((2 ^ m : Nat) : Int) := by push_cast; rfl
  rw [this, Int.toNat_natCast]

theorem probe_some_range (m : Nat) (hit : Int → Bool) (h b : Int) (h0 : 0 ≤ h)
    (h1 : h < 2 ^ m) (hp : probe (2 ^ m) hit ((2 : Int) ^ m).toNat h 0 = some b) :
    0 ≤ b ∧ b < 2 ^ m ∧ hit b = true := by
  obtain ⟨j, _, hjb, hhit, _⟩ := (probe_some_iff _ hit h b _).1 hp
  have hM : (0 : Int) < 2 ^ m := by positivity
  have := index_at_range (2 ^ m) h j hM h0 h1
  rw [hjb] at this
  exact ⟨this.1, this.2, hhit⟩

theorem probe_none_all (m : Nat) (hit : Int → Bool) (h : Int) (h0 : 0 ≤ h)
    (h1 : h < 2 ^ m) :
    probe (2 ^ m) hit ((2 : Int) ^ m).toNat h 0 = none ↔
      ∀ b, 0 ≤ b → b < 2 ^ m → hit b = false := by
  have hM : (0 : Int) < 2 ^ m := by positivity
  rw [probe_none_iff, two_pow_toNat]
  constructor
  · intro hall b hb0 hb1
    obtain ⟨k, hk, hkb⟩ := index_at_surjective m h h0 h1 b hb0 hb1
    rw [← hkb]
    exact hall k hk
  · intro hall j _
    have := index_at_range (2 ^ m) h j hM h0 h1
    exact hall _ this.1 this.2

theorem probe_isSome_iff (m : Nat) (hit : Int → Bool) (h : Int) (h0 : 0 ≤ h)
    (h1 : h < 2 ^ m) :
    (probe (2 ^ m) hit ((2 : Int) ^ m).toNat h 0).isSome = true ↔
      ∃ b, 0 ≤ b ∧ b < 2 ^ m ∧ hit b = true := by
  constructor
  · intro hs
    obtain ⟨b, hb⟩ := Option.isSome_iff_exists.1 hs
    exact ⟨b, probe_some_range m hit h b h0 h1 hb⟩
  · rintro ⟨b, hb0, hb1, hhit⟩
    cases hp : probe (2 ^ m) hit ((2 : Int) ^ m).toNat h 0 with
    | some c => rfl
    | none =>
      have := (probe_none_all m hit h h0 h1).1 hp b hb0 hb1
      rw [this] at hhit
      exact Bool.noConfusion hhit

end Quadratic_hash_table

namespace Quadratic_hash_table

theorem member_iff (t : Quadratic_hash_table) (hpow : ∃ m : Nat, t.array_size = 2 ^ m)
    (y : Int) : member t y = true ↔ Stored t y := by
  obtain ⟨m, hm⟩ := hpow
  have hM : 0 < t.array_size := by rw [hm]; positivity
  have hr := hash_range t y hM
  rw [hm] at hr
  unfold member capacity Stored
  rw [hm, probe_isSome_iff m _ _ hr.1 hr.2]
  constructor
  · rintro ⟨b, h0, h1, h2⟩
    simp only [Bool.and_eq_true, decide_eq_true_eq] at h2
    exact ⟨b, h0, h1, h2.1, h2.2⟩
  · rintro ⟨b, h0, h1, h2, h3⟩
    refine ⟨b, h0, h1, ?_⟩
    simp only [Bool.and_eq_true, decide_eq_true_eq]
    exact ⟨h2, h3⟩

theorem occupied_bins_card_le (t : Quadratic_hash_table) (m : Nat)
    (hm : t.array_size = 2 ^ m) : t.occupied_bins.card ≤ 2 ^ m := by
  unfold occupied_bins
  refine le_trans (Finset.card_filter_le _ _) ?_
  rw [Int.card_Ico, sub_zero, hm, two_pow_toNat]

theorem exists_free_bin (t : Quadratic_hash_table) (hi : Inv t)
    (hlt : t.count < t.array_size) :
    ∃ b, 0 ≤ b ∧ b < t.array_size ∧ t.occupied b ≠ bin_state_t.OCCUPIED := by
  by_contra hc
  obtain ⟨m, hm⟩ := hi.pow
  have hall : t.occupied_bins = Finset.Ico 0 t.array_size := by
    unfold occupied_bins
    apply Finset.filter_true_of_mem
    intro b hb
    obtain ⟨h0, h1⟩ := Finset.mem_Ico.1 hb
    by_contra hne
    exact hc ⟨b, h0, h1, hne⟩
  have hcount := hi.count
  rw [hall, Int.card_Ico, sub_zero] at hcount
  have hM : 0 < t.array_size := by rw [hm]; positivity
  rw [Int.toNat_of_nonneg hM.le] at hcount
  omega

theorem first_unique (t : Quadratic_hash_table) (hi : Inv t) (b c : Int)
    (hb0 : 0 ≤ b) (hb1 : b < t.array_size) (hb : t.occupied b = bin_state_t.OCCUPIED)
    (hc0 : 0 ≤ c) (hc1 : c < t.array_size) (hc : t.occupied c = bin_state_t.OCCUPIED)
    (heq : t.array b = t.array c) : b = c := by
  have h1 := hi.first b hb0 hb1 hb
  have h2 := hi.first c hc0 hc1 hc
  rw [heq, h2] at h1
  exact (Option.some.inj h1).symm

theorem occupied_bins_mark (t t1 : Quadratic_hash_table) (j : Int)
    (hj0 : 0 ≤ j) (hj1 : j < t.array_size) (hsz : t1.array_size = t.array_size)
    (hocc : t1.occupied = Function.update t.occupied j bin_state_t.OCCUPIED) :
    t1.occupied_bins = Insert.insert j t.occupied_bins := by
  unfold occupied_bins
  rw [hsz, hocc]
  ext b
  simp only [Finset.mem_filter, Finset.mem_Ico, Finset.mem_insert]
  by_cases hbj : b = j
  · rw [hbj, Function.update_same]
    simp [hj0, hj1]
  · rw [Function.update_noteq hbj]
    simp [hbj]

theorem occupied_bins_unmark (t t1 : Quadratic_hash_table) (j : Int)
    (s : bin_state_t) (hs : s ≠ bin_state_t.OCCUPIED)
    (hsz : t1.array_size = t.array_size)
    (hocc : t1.occupied = Function.update t.occupied j s) :
    t1.occupied_bins = t.occupied_bins.erase j := by
  unfold occupied_bins
  rw [hsz, hocc]
  ext b
  simp only [Finset.mem_filter, Finset.mem_Ico, Finset.mem_erase]
  by_cases hbj : b = j
  · rw [hbj, Function.update_same]
    simp [hs]
  · rw [Function.update_noteq hbj]
    simp [hbj]

theorem mem_occupied_bins (t : Quadratic_hash_table) (b : Int) :
    b ∈ t.occupied_bins ↔
      (0 ≤ b ∧ b < t.array_size) ∧ t.occupied b = bin_state_t.OCCUPIED := by
  unfold occupied_bins
  simp only [Finset.mem_filter, Finset.mem_Ico]

theorem first_congr (t t1 : Quadratic_hash_table) (hsz : t1.array_size = t.array_size)
    (harr : t1.array = t.array) (b : Int)
    (h : probe t.capacity (fun index => t.array index = t.array b) t.array_size.toNat
      (t.hash (t.array b)) 0 = some b) :
    probe t1.capacity (fun index => t1.array index = t1.array b) t1.array_size.toNat
      (t1.hash (t1.array b)) 0 = some b := by
  unfold hash capacity at h ⊢
  rw [hsz, harr]
  exact h

theorem inv_of_mark (t t1 : Quadratic_hash_table) (hi : Inv t) (j : Int)
    (hj0 : 0 ≤ j) (hj1 : j < t.array_size)
    (hsz : t1.array_size = t.array_size) (harr : t1.array = t.array)
    (hocc : t1.occupied = Function.update t.occupied j bin_state_t.OCCUPIED)
    (hcnt : t1.count =
      if t.occupied j = bin_state_t.OCCUPIED then t.count else t.count + 1)
    (hfirst : probe t.capacity (fun index => t.array index = t.array j)
      t.array_size.toNat (t.hash (t.array j)) 0 = some j) : Inv t1 := by
  refine ⟨?_, ?_, ?_⟩
  · rw [hsz]
    exact hi.pow
  · rw [hcnt, occupied_bins_mark t t1 j hj0 hj1 hsz hocc]
    by_cases hoj : t.occupied j = bin_state_t.OCCUPIED
    · rw [if_pos hoj, hi.count,
        Finset.insert_eq_of_mem ((mem_occupied_bins t j).2 ⟨⟨hj0, hj1⟩, hoj⟩)]
    · have hnot : j ∉ t.occupied_bins := fun hmem => hoj ((mem_occupied_bins t j).1 hmem).2
      rw [if_neg hoj, hi.count, Finset.card_insert_of_not_mem hnot]
      push_cast
      rfl
  · intro b hb0 hb1 hb
    rw [hsz] at hb1
    apply first_congr t t1 hsz harr
    rw [hocc] at hb
    by_cases hbj : b = j
    · rw [hbj]
      exact hfirst
    · rw [Function.update_noteq hbj] at hb
      exact hi.first b hb0 hb1 hb

theorem stored_of_mark (t t1 : Quadratic_hash_table) (j : Int)
    (hj0 : 0 ≤ j) (hj1 : j < t.array_size)
    (hsz : t1.array_size = t.array_size) (harr : t1.array = t.array)
    (hocc : t1.occupied = Function.update t.occupied j bin_state_t.OCCUPIED) (y : Int) :
    Stored t1 y ↔ Stored t y ∨ y = t.array j := by
  unfold Stored
  rw [hsz, harr, hocc]
  constructor
  · rintro ⟨b, h0, h1, h2, h3⟩
    by_cases hbj : b = j
    · right
      rw [← h3, hbj]
    · rw [Function.update_noteq hbj] at h2
      exact Or.inl ⟨b, h0, h1, h2, h3⟩
  · rintro (⟨b, h0, h1, h2, h3⟩ | hy)
    · refine ⟨b, h0, h1, ?_, h3⟩
      by_cases hbj : b = j
      · rw [hbj, Function.update_same]
      · rw [Function.update_noteq hbj]
        exact h2
    · exact ⟨j, hj0, hj1, by rw [Function.update_same], hy.symm⟩

end Quadratic_hash_table

namespace Quadratic_hash_table

theorem inv_of_place (t t1 : Quadratic_hash_table) (hi : Inv t) (j x : Int)
    (hj0 : 0 ≤ j) (hj1 : j < t.array_size)
    (hoj : t.occupied j ≠ bin_state_t.OCCUPIED)
    (hx : ∀ b, 0 ≤ b → b < t.array_size → t.array b ≠ x)
    (hsz : t1.array_size = t.array_size)
    (harr : t1.array = Function.update t.array j x)
    (hocc : t1.occupied = Function.update t.occupied j bin_state_t.OCCUPIED)
    (hcnt : t1.count = t.count + 1) : Inv t1 := by
  obtain ⟨m, hm⟩ := hi.pow
  have hM : 0 < t.array_size := by rw [hm]; positivity
  refine ⟨?_, ?_, ?_⟩
  · rw [hsz]
    exact hi.pow
  · have hnot : j ∉ t.occupied_bins := fun hmem => hoj ((mem_occupied_bins t j).1 hmem).2
    rw [hcnt, occupied_bins_mark t t1 j hj0 hj1 hsz hocc, hi.count,
      Finset.card_insert_of_not_mem hnot]
    push_cast
    rfl
  · intro b hb0 hb1 hb
    rw [hsz] at hb1
    rw [hocc] at hb
    unfold hash capacity
    rw [hsz, harr]
    by_cases hbj : b = j
    · rw [hbj, Function.update_same]
      have hr := hash_range t x hM
      unfold hash capacity at hr
      rw [hm] at hr ⊢
      have hnone : probe (2 ^ m) (fun index => decide (t.array index = x))
          ((2 : Int) ^ m).toNat (wrap (2 ^ m) x) 0 = none := by
        rw [probe_none_all m _ _ hr.1 hr.2]
        intro c hc0 hc1
        rw [← hm] at hc1
        simpa using hx c hc0 hc1
      rw [probe_none_iff] at hnone
      rw [hm] at hj1
      obtain ⟨k, hk, hkj⟩ := index_at_surjective m _ hr.1 hr.2 j hj0 hj1
      have hex : ∃ k, k < 2 ^ m ∧ index_at (2 ^ m) (wrap (2 ^ m) x) k = j := ⟨k, hk, hkj⟩
      classical
      have hk0 := Nat.find_spec hex
      have hmin := fun i (hlt : i < Nat.find hex) => Nat.find_min hex hlt
      rw [probe_some_iff]
      refine ⟨Nat.find hex, by rw [two_pow_toNat]; exact hk0.1, hk0.2, ?_, ?_⟩
      · simp
      · intro i hlt
        have hne : index_at (2 ^ m) (wrap (2 ^ m) x) i ≠ j := by
          intro he
          exact hmin i hlt ⟨by omega, he⟩
        simp only [Function.update_noteq hne, decide_eq_false_iff_not]
        have := hnone i (by rw [two_pow_toNat]; omega)
        simpa using this
    · rw [Function.update_noteq hbj] at hb
      rw [Function.update_noteq hbj]
      have hyx : t.array b ≠ x := hx b hb0 hb1
      have hold := hi.first b hb0 hb1 hb
      unfold hash capacity at hold
      refine probe_change _ _ _ _ _ _ hold ?_ ?_
      · simp [Function.update_noteq hbj]
      · intro c hc
        by_cases hcj : c = j
        · rw [hcj, Function.update_same]
          simpa using fun he : x = t.array b => hyx he.symm
        · rw [Function.update_noteq hcj]
          exact hc

theorem stored_of_place (t t1 : Quadratic_hash_table) (j x : Int)
    (hj0 : 0 ≤ j) (hj1 : j < t.array_size)
    (hoj : t.occupied j ≠ bin_state_t.OCCUPIED)
    (hsz : t1.array_size = t.array_size)
    (harr : t1.array = Function.update t.array j x)
    (hocc : t1.occupied = Function.update t.occupied j bin_state_t.OCCUPIED) (y : Int) :
    Stored t1 y ↔ Stored t y ∨ y = x := by
  unfold Stored
  rw [hsz, harr, hocc]
  constructor
  · rintro ⟨b, h0, h1, h2, h3⟩
    by_cases hbj : b = j
    · right
      rw [hbj, Function.update_same] at h3
      exact h3.symm
    · rw [Function.update_noteq hbj] at h2 h3
      exact Or.inl ⟨b, h0, h1, h2, h3⟩
  · rintro (⟨b, h0, h1, h2, h3⟩ | hy)
    · have hbj : b ≠ j := by
        intro hbj
        rw [hbj] at h2
        exact hoj h2
      exact ⟨b, h0, h1, by rw [Function.update_noteq hbj]; exact h2,
        by rw [Function.update_noteq hbj]; exact h3⟩
    · exact ⟨j, hj0, hj1, by rw [Function.update_same], by rw [Function.update_same, hy]⟩

theorem inv_of_unmark (t t1 : Quadratic_hash_table) (hi : Inv t) (j : Int)
    (hj0 : 0 ≤ j) (hj1 : j < t.array_size)
    (hoj : t.occupied j = bin_state_t.OCCUPIED)
    (hsz : t1.array_size = t.array_size) (harr : t1.array = t.array)
    (hocc : t1.occupied = Function.update t.occupied j bin_state_t.ERASED)
    (hcnt : t1.count = t.count - 1) : Inv t1 := by
  refine ⟨?_, ?_, ?_⟩
  · rw [hsz]
    exact hi.pow
  · have hmem : j ∈ t.occupied_bins := (mem_occupied_bins t j).2 ⟨⟨hj0, hj1⟩, hoj⟩
    rw [hcnt, occupied_bins_unmark t t1 j _ (by decide) hsz hocc, hi.count,
      Finset.card_erase_of_mem hmem]
    have hpos : 0 < t.occupied_bins.card := Finset.card_pos.2 ⟨j, hmem⟩
    omega
  · intro b hb0 hb1 hb
    rw [hsz] at hb1
    apply first_congr t t1 hsz harr
    rw [hocc] at hb
    by_cases hbj : b = j
    · rw [hbj, Function.update_same] at hb
      exact absurd hb (by decide)
    · rw [Function.update_noteq hbj] at hb
      exact hi.first b hb0 hb1 hb

theorem stored_of_unmark (t t1 : Quadratic_hash_table) (hi : Inv t) (j : Int)
    (hj0 : 0 ≤ j) (hj1 : j < t.array_size)
    (hoj : t.occupied j = bin_state_t.OCCUPIED)
    (hsz : t1.array_size = t.array_size) (harr : t1.array = t.array)
    (hocc : t1.occupied = Function.update t.occupied j bin_state_t.ERASED) (y : Int) :
    Stored t1 y ↔ Stored t y ∧ y ≠ t.array j := by
  unfold Stored
  rw [hsz, harr, hocc]
  constructor
  · rintro ⟨b, h0, h1, h2, h3⟩
    have hbj : b ≠ j := by
      intro hbj
      rw [hbj, Function.update_same] at h2
      exact absurd h2 (by decide)
    rw [Function.update_noteq hbj] at h2
    refine ⟨⟨b, h0, h1, h2, h3⟩, ?_⟩
    intro hy
    rw [← h3] at hy
    exact hbj (first_unique t hi b j h0 h1 h2 hj0 hj1 hoj hy)
  · rintro ⟨⟨b, h0, h1, h2, h3⟩, hy⟩
    have hbj : b ≠ j := by
      intro hbj
      rw [hbj] at h3
      exact hy h3.symm
    exact ⟨b, h0, h1, by rw [Function.update_noteq hbj]; exact h2, h3⟩

end Quadratic_hash_table

namespace Quadratic_hash_table

theorem insert_ok (t : Quadratic_hash_table) (hi : Inv t) (x : Int)
    (hlt : t.count < t.array_size) :
    ∃ t1, insert t x = .ok t1 ∧ Inv t1 ∧ t1.array_size = t.array_size ∧
      (∀ y, Stored t1 y ↔ Stored t y ∨ y = x) ∧
      (Stored t x → t1.count = t.count) ∧ (¬ Stored t x → t1.count = t.count + 1) := by
  obtain ⟨m, hm⟩ := hi.pow
  have hM : 0 < t.array_size := by rw [hm]; positivity
  have hr := hash_range t x hM
  rw [hm] at hr
  have hne : ¬ t.count = t.capacity := by
    unfold capacity
    omega
  cases hp1 : probe t.capacity (fun index => decide (t.array index = x)) t.array_size.toNat
      (t.hash x) 0 with
  | some j =>
    have hp1' := hp1
    unfold capacity at hp1'
    rw [hm] at hp1'
    obtain ⟨hj0, hj1, hhit⟩ := probe_some_range m _ _ j hr.1 hr.2 hp1'
    rw [← hm] at hj1
    have harrj : t.array j = x := by simpa using hhit
    obtain ⟨t1, ht1, hsz, harr, hocc, hcnt⟩ : ∃ t1, insert t x = .ok t1 ∧
        t1.array_size = t.array_size ∧ t1.array = t.array ∧
        t1.occupied = Function.update t.occupied j bin_state_t.OCCUPIED ∧
        t1.count = if t.occupied j = bin_state_t.OCCUPIED then t.count else t.count + 1 := by
      unfold insert
      rw [if_neg hne, hp1]
      refine ⟨_, rfl, ?_⟩
      cases hoj : t.occupied j <;> simp [hoj]
    have hfirst : probe t.capacity (fun index => decide (t.array index = t.array j))
        t.array_size.toNat (t.hash (t.array j)) 0 = some j := by
      rw [harrj]
      exact hp1
    refine ⟨t1, ht1, inv_of_mark t t1 hi j hj0 hj1 hsz harr hocc hcnt hfirst, hsz, ?_, ?_, ?_⟩
    · intro y
      rw [stored_of_mark t t1 j hj0 hj1 hsz harr hocc y, harrj]
    · rintro ⟨b, hb0, hb1, hb2, hb3⟩
      have hbj : b = j :=
        by
          have h1 := hi.first b hb0 hb1 hb2
          rw [hb3, hp1] at h1
          exact (Option.some.inj h1).symm
      rw [hcnt, if_pos (by rw [← hbj]; exact hb2)]
    · intro hns
      have hoj : ¬ t.occupied j = bin_state_t.OCCUPIED :=
        fun hoj => hns ⟨j, hj0, hj1, hoj, harrj⟩
      rw [hcnt, if_neg hoj]
  | none =>
    have hp1' := hp1
    unfold capacity at hp1'
    rw [hm, probe_none_all m _ _ hr.1 hr.2] at hp1'
    have hx : ∀ b, 0 ≤ b → b < t.array_size → t.array b ≠ x := by
      intro b hb0 hb1
      rw [hm] at hb1
      simpa using hp1' b hb0 hb1
    cases hp2 : probe t.capacity (fun index => decide (t.occupied index ≠ bin_state_t.OCCUPIED))
        t.array_size.toNat (t.hash x) 0 with
    | some j =>
      have hp2' := hp2
      unfold capacity at hp2'
      rw [hm] at hp2'
      obtain ⟨hj0, hj1, hhit⟩ := probe_some_range m _ _ j hr.1 hr.2 hp2'
      rw [← hm] at hj1
      have hoj : t.occupied j ≠ bin_state_t.OCCUPIED := by simpa using hhit
      obtain ⟨t1, ht1, hsz, harr, hocc, hcnt⟩ : ∃ t1, insert t x = .ok t1 ∧
          t1.array_size = t.array_size ∧ t1.array = Function.update t.array j x ∧
          t1.occupied = Function.update t.occupied j bin_state_t.OCCUPIED ∧
          t1.count = t.count + 1 := by
        unfold insert
        rw [if_neg hne, hp1]
        simp only
        rw [hp2]
        refine ⟨_, rfl, ?_⟩
        cases hoj2 : t.occupied j <;> simp
      refine ⟨t1, ht1, inv_of_place t t1 hi j x hj0 hj1 hoj hx hsz harr hocc hcnt, hsz,
        stored_of_place t t1 j x hj0 hj1 hoj hsz harr hocc, ?_, fun _ => hcnt⟩
      rintro ⟨b, hb0, hb1, _, hb3⟩
      exact absurd hb3 (hx b hb0 hb1)
    | none =>
      exfalso
      have hp2' := hp2
      unfold capacity at hp2'
      rw [hm, probe_none_all m _ _ hr.1 hr.2] at hp2'
      obtain ⟨b, hb0, hb1, hb2⟩ := exists_free_bin t hi hlt
      rw [hm] at hb1
      have := hp2' b hb0 hb1
      simp only [ne_eq, decide_not, Bool.not_eq_false', decide_eq_true_eq] at this
      exact hb2 this

theorem erase_ok (t : Quadratic_hash_table) (hi : Inv t) (x : Int) :
    (erase t x).1 = member t x ∧ Inv (erase t x).2 ∧
      (erase t x).2.array_size = t.array_size ∧
      (∀ y, Stored (erase t x).2 y ↔ Stored t y ∧ y ≠ x) ∧
      ((erase t x).1 = true → (erase t x).2.count = t.count - 1) ∧
      ((erase t x).1 = false → (erase t x).2.count = t.count) := by
  obtain ⟨m, hm⟩ := hi.pow
  have hM : 0 < t.array_size := by rw [hm]; positivity
  have hr := hash_range t x hM
  rw [hm] at hr
  cases hp : probe t.capacity
      (fun index => t.occupied index = bin_state_t.OCCUPIED && t.array index = x)
      t.array_size.toNat (t.hash x) 0 with
  | some j =>
    have hp' := hp
    unfold capacity at hp'
    rw [hm] at hp'
    obtain ⟨hj0, hj1, hhit⟩ := probe_some_range m _ _ j hr.1 hr.2 hp'
    rw [← hm] at hj1
    simp only [Bool.and_eq_true, decide_eq_true_eq] at hhit
    have hmem : member t x = true := by
      unfold member
      rw [hp]
      rfl
    obtain ⟨t1, he, hsz, harr, hocc, hcnt⟩ : ∃ t1, erase t x = (true, t1) ∧
        t1.array_size = t.array_size ∧ t1.array = t.array ∧
        t1.occupied = Function.update t.occupied j bin_state_t.ERASED ∧
        t1.count = t.count - 1 := by
      unfold erase
      rw [hp]
      exact ⟨_, rfl, rfl, rfl, rfl, rfl⟩
    rw [he, hmem]
    refine ⟨rfl, inv_of_unmark t t1 hi j hj0 hj1 hhit.1 hsz harr hocc hcnt, hsz, ?_,
      fun _ => hcnt, fun hf => Bool.noConfusion hf⟩
    intro y
    show Stored t1 y ↔ _
    rw [stored_of_unmark t t1 hi j hj0 hj1 hhit.1 hsz harr hocc y, hhit.2]
  | none =>
    have hmem : member t x = false := by
      unfold member
      rw [hp]
      rfl
    have he : erase t x = (false, t) := by
      unfold erase
      rw [hp]
    rw [he, hmem]
    refine ⟨rfl, hi, rfl, ?_, fun hf => Bool.noConfusion hf, fun _ => rfl⟩
    intro y
    constructor
    · intro hs
      refine ⟨hs, ?_⟩
      intro hy
      rw [hy] at hs
      have := (member_iff t hi.pow x).2 hs
      rw [hmem] at this
      exact Bool.noConfusion this
    · exact fun h => h.1

theorem occupied_bins_set_unoccupied (t : Quadratic_hash_table)
    (occupied : Int → bin_state_t)
    (hocc : t.occupied = set_unoccupied t.array_size occupied) : t.occupied_bins = ∅ := by
  unfold occupied_bins
  apply Finset.filter_false_of_mem
  intro b hb
  obtain ⟨h0, h1⟩ := Finset.mem_Ico.1 hb
  rw [hocc]
  unfold set_unoccupied
  rw [if_pos ⟨h0, h1⟩]
  decide

theorem inv_of_set_unoccupied (t : Quadratic_hash_table) (occupied : Int → bin_state_t)
    (hpow : ∃ m : Nat, t.array_size = 2 ^ m) (hcnt : t.count = 0)
    (hocc : t.occupied = set_unoccupied t.array_size occupied) : Inv t := by
  refine ⟨hpow, ?_, ?_⟩
  · rw [hcnt, occupied_bins_set_unoccupied t occupied hocc]
    rfl
  · intro b hb0 hb1 hb
    rw [hocc] at hb
    unfold set_unoccupied at hb
    rw [if_pos ⟨hb0, hb1⟩] at hb
    exact absurd hb (by decide)

theorem table_inv_construct (m : Nat) (erasedcount : Int) (array : Int → Int)
    (occupied : Int → bin_state_t) : Inv (construct m erasedcount array occupied) :=
  inv_of_set_unoccupied _ occupied ⟨m, rfl⟩ rfl rfl

theorem table_inv_clear (t : Quadratic_hash_table) (hi : Inv t) : Inv (clear t) :=
  inv_of_set_unoccupied _ t.occupied hi.pow rfl rfl

theorem count_le_capacity (t : Quadratic_hash_table) (hi : Inv t) :
    t.count ≤ t.array_size := by
  obtain ⟨m, hm⟩ := hi.pow
  have := occupied_bins_card_le t m hm
  rw [hi.count, hm]
  exact_mod_cast this

theorem table_reachable_inv (t : Quadratic_hash_table) (hr : Reachable t) : Inv t := by
  induction hr with
  | construct m e a o => exact table_inv_construct m e a o
  | insert t t1 x _ hins ih =>
    have hne : t.count ≠ t.array_size := by
      intro heq
      unfold insert capacity at hins
      rw [if_pos heq] at hins
      exact Except.noConfusion hins
    have hlt : t.count < t.array_size := lt_of_le_of_ne (count_le_capacity t ih) hne
    obtain ⟨t2, h2, hinv, _⟩ := insert_ok t ih x hlt
    rw [hins] at h2
    cases h2
    exact hinv
  | erase t x _ ih => exact (erase_ok t ih x).2.1
  | clear t _ ih => exact table_inv_clear t ih

end Quadratic_hash_table

namespace Quadratic_hash_table

theorem member_eq_of_stored_iff (t t1 : Quadratic_hash_table)
    (hp : ∃ m : Nat, t.array_size = 2 ^ m) (hp1 : ∃ m : Nat, t1.array_size = 2 ^ m)
    (y : Int) (h : Stored t1 y ↔ Stored t y) : member t1 y = member t y := by
  rw [Bool.eq_iff_iff, member_iff t1 hp1, member_iff t hp]
  exact h

theorem reachable_table_example : Reachable table_example :=
  Reachable.insert _ _ 9
    (Reachable.insert _ _ 5
      (Reachable.construct 2 0 (fun _ => 0) (fun _ => bin_state_t.UNOCCUPIED)) rfl) rfl

/-- C28: on a table reachable from a new table by `insert`, `erase` and `clear`, when
`size() < capacity()` the call `insert(x)` returns, after it `member(x)` is true,
`size()` is one more when `x` was not a member before and is unchanged when it was,
`member(y)` is unchanged for every other value `y`, and the capacity is unchanged;
when `size() == capacity()` the call throws `overflow`. -/
theorem insert_then_member (t : Quadratic_hash_table) (hr : Reachable t) (x : Int) :
    (t.size < t.capacity →
        ∃ t1, insert t x = .ok t1 ∧ member t1 x = true ∧
          (member t x = false → t1.size = t.size + 1) ∧
          (member t x = true → t1.size = t.size) ∧
          (∀ y, y ≠ x → member t1 y = member t y) ∧ t1.capacity = t.capacity) ∧
      (t.size = t.capacity → insert t x = .error Exception.overflow) := by
  have hi := table_reachable_inv t hr
  constructor
  · intro hlt
    obtain ⟨t1, h1, hi1, hsz, hst, hc1, hc2⟩ := insert_ok t hi x hlt
    refine ⟨t1, h1, ?_, ?_, ?_, ?_, hsz⟩
    · exact (member_iff t1 hi1.pow x).2 ((hst x).2 (Or.inr rfl))
    · intro hm
      apply hc2
      intro hs
      rw [(member_iff t hi.pow x).2 hs] at hm
      exact Bool.noConfusion hm
    · intro hm
      exact hc1 ((member_iff t hi.pow x).1 hm)
    · intro y hy
      apply member_eq_of_stored_iff t t1 hi.pow hi1.pow
      rw [hst y]
      exact ⟨fun h => h.resolve_right hy, Or.inl⟩
  · intro heq
    have heq' : t.count = t.capacity := heq
    unfold insert
    rw [if_pos heq']

theorem insert_then_member_witness :
    Reachable table_example ∧
      ((table_example.size < table_example.capacity →
          ∃ t1, insert table_example 13 = .ok t1 ∧ member t1 13 = true ∧
            (member table_example 13 = false → t1.size = table_example.size + 1) ∧
            (member table_example 13 = true → t1.size = table_example.size) ∧
            (∀ y, y ≠ 13 → member t1 y = member table_example y) ∧
            t1.capacity = table_example.capacity) ∧
        (table_example.size = table_example.capacity →
          insert table_example 13 = .error Exception.overflow)) :=
  ⟨reachable_table_example, insert_then_member table_example reachable_table_example 13⟩

/-- C29: on a table reachable from a new table by `insert`, `erase` and `clear`,
`erase(x)` returns what `member(x)` returned before the call; after the call
`member(x)` is false, `size()` is one less when the call returned true and unchanged
when it returned false, and `member(y)` is unchanged for every other value `y`. -/
theorem erase_iff_member (t : Quadratic_hash_table) (hr : Reachable t) (x : Int) :
    (erase t x).1 = member t x ∧ member (erase t x).2 x = false ∧
      ((erase t x).1 = true → (erase t x).2.size = t.size - 1) ∧
      ((erase t x).1 = false → (erase t x).2.size = t.size) ∧
      ∀ y, y ≠ x → member (erase t x).2 y = member t y := by
  have hi := table_reachable_inv t hr
  obtain ⟨h1, hi1, _, hst, hc1, hc2⟩ := erase_ok t hi x
  refine ⟨h1, ?_, hc1, hc2, ?_⟩
  · cases hm : member (erase t x).2 x with
    | false => rfl
    | true =>
      have := ((hst x).1 ((member_iff _ hi1.pow x).1 hm)).2
      exact absurd rfl this
  · intro y hy
    apply member_eq_of_stored_iff t _ hi.pow hi1.pow
    rw [hst y]
    exact ⟨fun h => h.1, fun h => ⟨h, hy⟩⟩

theorem erase_iff_member_witness :
    Reachable table_example ∧
      ((erase table_example 5).1 = member table_example 5 ∧
        member (erase table_example 5).2 5 = false ∧
        ((erase table_example 5).1 = true →
          (erase table_example 5).2.size = table_example.size - 1) ∧
        ((erase table_example 5).1 = false →
          (erase table_example 5).2.size = table_example.size) ∧
        ∀ y, y ≠ 5 → member (erase table_example 5).2 y = member table_example y) :=
  ⟨reachable_table_example, erase_iff_member table_example reachable_table_example 5⟩

end Quadratic_hash_table

namespace Weighted_graph

theorem set_count_during_minimum_spanning_tree_witness :
    Reachable tie_right (scenario_A 0) ∧
      (∃ m : Nat, m ≤ (scenario_A 0).tree.root.inorder.length ∧
        minimum_spanning_tree (scenario_A 0) =
          ((unite (Disjoint_sets.init (scenario_A 0).N) ((scenario_A 0).tree.root.inorder.take m)).get_weight,
            (m : Int)) ∧
        (∀ k, 1 ≤ k → k < m →
          (unite (Disjoint_sets.init (scenario_A 0).N) ((scenario_A 0).tree.root.inorder.take k)).disjoint_sets ≠ 1) ∧
        (m < (scenario_A 0).tree.root.inorder.length → 1 ≤ m ∧
          (unite (Disjoint_sets.init (scenario_A 0).N) ((scenario_A 0).tree.root.inorder.take m)).disjoint_sets = 1) ∧
        (unite (Disjoint_sets.init (scenario_A 0).N) ((scenario_A 0).tree.root.inorder.take 0)).disjoint_sets =
          ((scenario_A 0).N : Int) ∧
        (∀ k, k ≤ (scenario_A 0).tree.root.inorder.length →
          (unite (Disjoint_sets.init (scenario_A 0).N) ((scenario_A 0).tree.root.inorder.take k)).disjoint_sets =
            ((scenario_A 0).N : Int) -
              ((merging (Disjoint_sets.init (scenario_A 0).N) ((scenario_A 0).tree.root.inorder.take k)).length : Int) ∧
          Component_count (scenario_A 0).N ((scenario_A 0).tree.root.inorder.take k)
            (unite (Disjoint_sets.init (scenario_A 0).N) ((scenario_A 0).tree.root.inorder.take k)).disjoint_sets ∧
          (unite (Disjoint_sets.init (scenario_A 0).N) ((scenario_A 0).tree.root.inorder.take (k + 1))).disjoint_sets ≤
            (unite (Disjoint_sets.init (scenario_A 0).N) ((scenario_A 0).tree.root.inorder.take k)).disjoint_sets ∧
          (1 ≤ k →
            ((unite (Disjoint_sets.init (scenario_A 0).N) ((scenario_A 0).tree.root.inorder.take k)).disjoint_sets = 1 ↔
              All_connected (scenario_A 0).N ((scenario_A 0).tree.root.inorder.take k)))) ∧
        ((unite (Disjoint_sets.init (scenario_A 0).N) ((scenario_A 0).tree.root.inorder.take m)).disjoint_sets = 1 →
          ((merging (Disjoint_sets.init (scenario_A 0).N) ((scenario_A 0).tree.root.inorder.take m)).length : Int) =
            ((scenario_A 0).N : Int) - 1)) :=
  ⟨reachable_scenario_A 0,
    set_count_during_minimum_spanning_tree tie_right (scenario_A 0) (reachable_scenario_A 0)⟩

end Weighted_graph

namespace Quadratic_hash_table

theorem triangle_eq_div (k : Nat) : triangle k = k * (k + 1) / 2 := by
  have h := two_mul_triangle k
  omega

/-- C35: for the capacity `2 ^ m` and a start bin `h` in `[0, 2 ^ m)`, the probe
sequence `index_0 = h`, `index_(k+1) = (index_k + k + 1) mod 2 ^ m` (computed as the
loops do, with the remainder of C++ and the correction of a negative value) is
`(h + k (k + 1) / 2) mod 2 ^ m`, stays in `[0, 2 ^ m)`, and its first `2 ^ m` indices
visit every bin exactly once. The loop of `member`, `insert` and `erase` tests
`index_k` at its iteration `k`, so it runs to its end exactly when no bin in
`[0, 2 ^ m)` is a hit. A constructed table has this capacity and `hash` gives a start
bin in this range; for `m` at most 30 the sum `index_k + k + 1` is below `2 ^ 31`. -/
theorem probe_sequence_visits_every_bin (m : Nat) (h : Int) (h0 : 0 ≤ h)
    (h1 : h < 2 ^ m) :
    index_at (2 ^ m) h 0 = h ∧
      (∀ k : Nat, index_at (2 ^ m) h (k + 1) =
        (index_at (2 ^ m) h k + ((k : Int) + 1)) % 2 ^ m) ∧
      (∀ k : Nat, index_at (2 ^ m) h k = (h + ((k * (k + 1) / 2 : Nat) : Int)) % 2 ^ m) ∧
      (∀ k : Nat, 0 ≤ index_at (2 ^ m) h k ∧ index_at (2 ^ m) h k < 2 ^ m) ∧
      (∀ b : Int, 0 ≤ b → b < 2 ^ m →
        ∃ k : Nat, (k < 2 ^ m ∧ index_at (2 ^ m) h k = b) ∧
          ∀ j : Nat, j < 2 ^ m → index_at (2 ^ m) h j = b → j = k) ∧
      (∀ (hit : Int → Bool) (b : Int),
        probe (2 ^ m) hit ((2 : Int) ^ m).toNat h 0 = some b ↔
          ∃ k : Nat, k < 2 ^ m ∧ index_at (2 ^ m) h k = b ∧ hit b = true ∧
            ∀ i : Nat, i < k → hit (index_at (2 ^ m) h i) = false) ∧
      (∀ hit : Int → Bool,
        probe (2 ^ m) hit ((2 : Int) ^ m).toNat h 0 = none ↔
          ∀ b : Int, 0 ≤ b → b < 2 ^ m → hit b = false) ∧
      (∀ (erasedcount : Int) (array : Int → Int) (occupied : Int → bin_state_t) (x : Int),
        (construct m erasedcount array occupied).capacity = 2 ^ m ∧
          0 ≤ (construct m erasedcount array occupied).hash x ∧
          (construct m erasedcount array occupied).hash x < 2 ^ m) ∧
      (m ≤ 30 → ∀ k : Nat, k < 2 ^ m →
        index_at (2 ^ m) h k + ((k : Int) + 1) < 2 ^ 31) := by
  have hM : (0 : Int) < 2 ^ m := by positivity
  refine ⟨rfl, ?_, ?_, ?_, ?_, ?_, ?_, ?_, ?_⟩
  · intro k
    show next (2 ^ m) (index_at (2 ^ m) h k) ((k : Int) + 1) = _
    exact next_eq_emod _ _ _ hM
  · intro k
    rw [index_at_eq _ h k hM h0 h1, triangle_eq_div]
  · intro k
    exact index_at_range _ h k hM h0 h1
  · intro b hb0 hb1
    obtain ⟨k, hk, hkb⟩ := index_at_surjective m h h0 h1 b hb0 hb1
    refine ⟨k, ⟨hk, hkb⟩, ?_⟩
    intro j hj hjb
    exact index_at_injective m h h0 h1 j k hj hk (hjb.trans hkb.symm)
  · intro hit b
    rw [probe_some_iff, two_pow_toNat]
  · intro hit
    exact probe_none_all m hit h h0 h1
  · intro e a o x
    have hr := hash_range (construct m e a o) x hM
    exact ⟨rfl, hr.1, hr.2⟩
  · intro hm k hk
    have hr := index_at_range _ h k hM h0 h1
    have hpow : (2 : Int) ^ m ≤ 2 ^ 30 := pow_le_pow_right₀ (by norm_num) hm
    have hk' : (k : Int) < 2 ^ m := by exact_mod_cast hk
    have : (2 : Int) ^ 31 = 2 ^ 30 + 2 ^ 30 := by norm_num
    omega

theorem probe_sequence_visits_every_bin_witness :
    (0 : Int) ≤ 1 ∧ (1 : Int) < 2 ^ 2 ∧
      (index_at (2 ^ 2) 1 0 = 1 ∧
        (∀ k : Nat, index_at (2 ^ 2) 1 (k + 1) =
          (index_at (2 ^ 2) 1 k + ((k : Int) + 1)) % 2 ^ 2) ∧
        (∀ k : Nat, index_at (2 ^ 2) 1 k = (1 + ((k * (k + 1) / 2 : Nat) : Int)) % 2 ^ 2) ∧
        (∀ k : Nat, 0 ≤ index_at (2 ^ 2) 1 k ∧ index_at (2 ^ 2) 1 k < 2 ^ 2) ∧
        (∀ b : Int, 0 ≤ b → b < 2 ^ 2 →
          ∃ k : Nat, (k < 2 ^ 2 ∧ index_at (2 ^ 2) 1 k = b) ∧
            ∀ j : Nat, j < 2 ^ 2 → index_at (2 ^ 2) 1 j = b → j = k) ∧
        (∀ (hit : Int → Bool) (b : Int),
          probe (2 ^ 2) hit ((2 : Int) ^ 2).toNat 1 0 = some b ↔
            ∃ k : Nat, k < 2 ^ 2 ∧ index_at (2 ^ 2) 1 k = b ∧ hit b = true ∧
              ∀ i : Nat, i < k → hit (index_at (2 ^ 2) 1 i) = false) ∧
        (∀ hit : Int → Bool,
          probe (2 ^ 2) hit ((2 : Int) ^ 2).toNat 1 0 = none ↔
            ∀ b : Int, 0 ≤ b → b < 2 ^ 2 → hit b = false) ∧
        (∀ (erasedcount : Int) (array : Int → Int) (occupied : Int → bin_state_t)
          (x : Int),
          (construct 2 erasedcount array occupied).capacity = 2 ^ 2 ∧
            0 ≤ (construct 2 erasedcount array occupied).hash x ∧
            (construct 2 erasedcount array occupied).hash x < 2 ^ 2) ∧
        (2 ≤ 30 → ∀ k : Nat, k < 2 ^ 2 →
          index_at (2 ^ 2) 1 k + ((k : Int) + 1) < 2 ^ 31)) :=
  ⟨by decide, by decide, probe_sequence_visits_every_bin 2 1 (by decide) (by decide)⟩

end Quadratic_hash_table

namespace Leftist_node

theorem leftist_construct {α : Type} (x : α) : Leftist (construct x) := by
  simp [construct, Leftist, null_path_length]

theorem leftist_push {α : Type} [LinearOrder α] (a b : Leftist_node α)
    (ha : Leftist a) (hb : Leftist b) : Leftist (push a b) := by
  induction a, b using push.induct with
  | case1 t => rw [push_nil_left]; exact hb
  | case2 e l r p => rw [push_nil_right]; exact ha
  | case3 e l r p e1 l1 r1 p1 h right_tree hlt ih =>
    rw [push, dif_pos h]
    simp only []
    rw [if_pos hlt]
    obtain ⟨_, _, hb3, hb4⟩ := hb
    exact ⟨le_of_lt hlt, by rw [min_comm, add_comm], ih ha hb4, hb3⟩
  | case4 e l r p e1 l1 r1 p1 h right_tree hlt ih =>
    rw [push, dif_pos h]
    simp only []
    rw [if_neg hlt]
    obtain ⟨_, _, hb3, hb4⟩ := hb
    exact ⟨not_lt.1 hlt, by rw [add_comm], hb3, ih ha hb4⟩
  | case5 e l r p e1 l1 r1 p1 h ih =>
    rw [push, dif_neg h]
    exact ih hb ha

theorem null_path_length_eq_npl {α : Type} (t : Leftist_node α) (h : Leftist t) :
    null_path_length t = npl t := by
  induction t with
  | nil => rfl
  | node e l r p ihl ihr =>
    obtain ⟨_, h2, h3, h4⟩ := h
    simp only [null_path_length, npl]
    rw [h2, ihl h3, ihr h4]

theorem npl_ge {α : Type} (t : Leftist_node α) : -1 ≤ npl t := by
  induction t with
  | nil => exact le_refl _
  | node e l r p ihl ihr =>
    simp only [npl]
    have := le_min ihl ihr
    omega

theorem leftist_of_mem_subtrees {α : Type} (t n : Leftist_node α) (h : Leftist t)
    (hn : n ∈ subtrees t) : Leftist n := by
  induction t with
  | nil => simp [subtrees] at hn
  | node e l r p ihl ihr =>
    simp only [subtrees, List.mem_cons, List.mem_append] at hn
    rcases hn with rfl | hn | hn
    · exact h
    · exact ihl h.2.2.1 hn
    · exact ihr h.2.2.2 hn

theorem heap_ordered_of_mem_subtrees {α : Type} [LinearOrder α] (t n : Leftist_node α)
    (h : Heap_ordered t) (hn : n ∈ subtrees t) : Heap_ordered n := by
  induction t with
  | nil => simp [subtrees] at hn
  | node e l r p ihl ihr =>
    simp only [subtrees, List.mem_cons, List.mem_append] at hn
    rcases hn with rfl | hn | hn
    · exact h
    · exact ihl h.2.2.1 hn
    · exact ihr h.2.2.2 hn

end Leftist_node

namespace Leftist_heap

theorem built_leftist {α : Type} [LinearOrder α] [Inhabited α] (p q : Nat)
    (h : Leftist_heap α) (hb : Built p q h) : h.root_node.Leftist := by
  induction hb with
  | construct => exact trivial
  | push p q h x _ ih =>
    exact Leftist_node.leftist_push _ _ (Leftist_node.leftist_construct x) ih
  | pop p q h h1 x _ hpop ih =>
    unfold pop at hpop
    split at hpop
    · exact Except.noConfusion hpop
    · have heq := Except.ok.inj hpop
      have h1eq : h1 = _ := (Prod.mk.inj heq).2.symm
      rw [h1eq]
      show (Leftist_node.push h.root_node.right h.root_node.left).Leftist
      cases hroot : h.root_node with
      | nil =>
        simp only [Leftist_node.right, Leftist_node.left]
        rw [Leftist_node.push_nil_left]
        exact trivial
      | node e l r p1 =>
        rw [hroot] at ih
        simp only [Leftist_node.right, Leftist_node.left]
        exact Leftist_node.leftist_push _ _ ih.2.2.2 ih.2.2.1

/-- C34: in a heap built from an empty heap by calls of `push` and of `pop`, at every
node the value `null_path_length()` of the left subtree is at least that of the right
subtree, the stored `heap_null_path_length` is `1 + min` of the two (with `-1` for
`nullptr`), it is at least 0 and it is the null-path length computed from the shape of
the tree, and the element of the node is at most the element of each child that is not
`nullptr` and at most every element stored below it. -/
theorem every_node_leftist_and_heap_ordered {α : Type} [LinearOrder α] [Inhabited α]
    (p q : Nat) (h : Leftist_heap α) (hb : Built p q h) :
    ∀ (e : α) (l r : Leftist_node α) (n : Int),
      Leftist_node.node e l r n ∈ h.root_node.subtrees →
        r.null_path_length ≤ l.null_path_length ∧
          n = 1 + min l.null_path_length r.null_path_length ∧
          (Leftist_node.nil : Leftist_node α).null_path_length = -1 ∧
          0 ≤ n ∧
          n = (Leftist_node.node e l r n).npl ∧
          l.null_path_length = l.npl ∧ r.null_path_length = r.npl ∧
          (∀ el ll lr ln, l = Leftist_node.node el ll lr ln → e ≤ el) ∧
          (∀ er rl rr rn, r = Leftist_node.node er rl rr rn → e ≤ er) ∧
          (∀ y ∈ l.elements, e ≤ y) ∧ (∀ y ∈ r.elements, e ≤ y) := by
  intro e l r n hmem
  have hl := Leftist_node.leftist_of_mem_subtrees _ _ (built_leftist p q h hb) hmem
  have ho := Leftist_node.heap_ordered_of_mem_subtrees _ _
    (built_inv p q h hb).1.ordered hmem
  have hnpl := Leftist_node.null_path_length_eq_npl _ hl
  have hnl := Leftist_node.null_path_length_eq_npl _ hl.2.2.1
  have hnr := Leftist_node.null_path_length_eq_npl _ hl.2.2.2
  have hge : (0 : Int) ≤ n := by
    have h1 : n = (Leftist_node.node e l r n).npl := hnpl
    have h2 := le_min (Leftist_node.npl_ge l) (Leftist_node.npl_ge r)
    simp only [Leftist_node.npl] at h1
    omega
  refine ⟨hl.1, hl.2.1, rfl, hge, hnpl, hnl, hnr, ?_, ?_, ho.1, ho.2.1⟩
  · intro el ll lr ln hleq
    apply ho.1
    rw [hleq]
    simp [Leftist_node.elements]
  · intro er rl rr rn hreq
    apply ho.2.1
    rw [hreq]
    simp [Leftist_node.elements]

theorem every_node_leftist_and_heap_ordered_witness :
    Built 2 0 heap_example ∧
      ∀ (e : Int) (l r : Leftist_node Int) (n : Int),
        Leftist_node.node e l r n ∈ heap_example.root_node.subtrees →
          r.null_path_length ≤ l.null_path_length ∧
            n = 1 + min l.null_path_length r.null_path_length ∧
            (Leftist_node.nil : Leftist_node Int).null_path_length = -1 ∧
            0 ≤ n ∧
            n = (Leftist_node.node e l r n).npl ∧
            l.null_path_length = l.npl ∧ r.null_path_length = r.npl ∧
            (∀ el ll lr ln, l = Leftist_node.node el ll lr ln → e ≤ el) ∧
            (∀ er rl rr rn, r = Leftist_node.node er rl rr rn → e ≤ er) ∧
            (∀ y ∈ l.elements, e ≤ y) ∧ (∀ y ∈ r.elements, e ≤ y) :=
  ⟨built_heap_example,
    every_node_leftist_and_heap_ordered 2 0 heap_example built_heap_example⟩

end Leftist_heap

namespace Binary_search_node

/-! ## The traversal without the early return -/

theorem retrieve_inorder_nodes (t : Binary_search_node) :
    t.inorder_nodes.filterMap retrieve = t.inorder := by
  induction t with
  | nil => rfl
  | node l e r ihl ihr =>
    simp only [inorder_nodes, inorder, List.filterMap_append, List.filterMap_cons, retrieve,
      ihl, ihr]

theorem length_inorder_nodes (t : Binary_search_node) : t.inorder_nodes.length = t.size := by
  induction t with
  | nil => rfl
  | node l e r ihl ihr =>
    simp only [inorder_nodes, size, List.length_append, List.length_cons, ihl, ihr]
    omega

theorem length_inorder (t : Binary_search_node) : t.inorder.length = t.size := by
  induction t with
  | nil => rfl
  | node l e r ihl ihr =>
    simp only [inorder, size, List.length_append, List.length_cons, ihl, ihr]
    omega

theorem inorder_nodes_perm (t : Binary_search_node) : t.inorder_nodes.Perm t.nodes := by
  induction t with
  | nil => exact List.Perm.refl _
  | node l e r ihl ihr =>
    simp only [inorder_nodes, nodes]
    exact List.perm_middle.trans (List.Perm.cons _ (List.Perm.append ihl ihr))

theorem pairwise_of_ordered (t : Binary_search_node) (h : t.Ordered) :
    t.inorder.Pairwise (fun a b => a.weight ≤ b.weight) := by
  induction t with
  | nil => exact List.Pairwise.nil
  | node l e r ihl ihr =>
    obtain ⟨h1, h2, h3, h4⟩ := h
    simp only [inorder, List.pairwise_append, List.pairwise_cons, List.mem_cons]
    refine ⟨ihl h3, ⟨h2, ihr h4⟩, ?_⟩
    rintro a ha b (rfl | hb)
    · exact h1 a ha
    · exact le_trans (h1 a ha) (h2 b hb)

end Binary_search_node

namespace Weighted_graph

theorem mst_loop_without_return_eq
    (s : List (Binary_search_node × Edge × Binary_search_node))
    (node : Binary_search_node) (set : Disjoint_sets) (k : Int)
    (visited : List Binary_search_node) :
    mst_loop_without_return s node set k visited =
      (((unite set (node.inorder ++ pending s)).get_weight,
          k + ((node.inorder ++ pending s).length : Int)),
        visited ++ (node.inorder_nodes ++ pending_nodes s)) := by
  induction s, node, set, k, visited using mst_loop_without_return.induct with
  | case1 s set k visited l e r ih =>
    rw [mst_loop_without_return, ih]
    simp [Binary_search_node.inorder, Binary_search_node.inorder_nodes, pending,
      pending_nodes]
  | case2 set k visited =>
    rw [mst_loop_without_return]
    simp [Binary_search_node.inorder, Binary_search_node.inorder_nodes, pending,
      pending_nodes, unite]
  | case3 set k visited l e r s1 ih =>
    rw [mst_loop_without_return, ih]
    simp only [Binary_search_node.inorder, Binary_search_node.inorder_nodes, pending,
      pending_nodes, unite, List.nil_append, List.length_cons, List.append_assoc,
      List.singleton_append]
    refine Prod.ext (Prod.ext rfl ?_) rfl
    simp only
    push_cast
    ring

/-- C31: for every tree, the loop of `minimum_spanning_tree` without its early return
ends (the function is total) and the nodes it pops are the nodes of the recursive
in-order traversal in the same order: their edges are the list `inorder`, there are as
many as the tree has nodes, and they are all the nodes of the tree, each once. The
loop makes the unions of these edges in this order and counts them; the loop with the
early return examines the edges in the same order until it returns. For a tree ordered
by weight the weights in this order do not decrease. -/
theorem traversal_loop_is_inorder (root : Binary_search_node) (set : Disjoint_sets)
    (k : Int) :
    (mst_loop_without_return [] root set k []).2 = root.inorder_nodes ∧
      (mst_loop_without_return [] root set k []).2.filterMap Binary_search_node.retrieve =
        root.inorder ∧
      (mst_loop_without_return [] root set k []).2.length = root.size ∧
      (mst_loop_without_return [] root set k []).2.Perm root.nodes ∧
      (mst_loop_without_return [] root set k []).1 =
        ((unite set root.inorder).get_weight, k + (root.size : Int)) ∧
      mst_loop [] root set k = scan set k root.inorder ∧
      (root.Ordered → root.inorder.Pairwise (fun a b => a.weight ≤ b.weight)) := by
  have h := mst_loop_without_return_eq [] root set k []
  simp only [pending, pending_nodes, List.append_nil, List.nil_append] at h
  rw [h]
  refine ⟨rfl, Binary_search_node.retrieve_inorder_nodes root,
    Binary_search_node.length_inorder_nodes root, Binary_search_node.inorder_nodes_perm root,
    ?_, ?_, Binary_search_node.pairwise_of_ordered root⟩
  · rw [Binary_search_node.length_inorder]
  · rw [mst_loop_eq_scan]
    simp [pending]

end Weighted_graph

namespace Weighted_graph

/-- C32: on a reachable graph, the weight that `minimum_spanning_tree()` returns is the
weight returned by the same loop without the test of the set count, which visits all
the edges of the tree in the order of the traversal, by weights that do not decrease,
and makes the unions of all of them; once the unions of the first `k` edges leave one
set, the union of any edge of the tree leaves the disjoint sets as they are. -/
theorem early_return_keeps_weight (tie : Edge → Edge → Bool) (g : Weighted_graph)
    (h : Reachable tie g) :
    (minimum_spanning_tree g).1 =
        (mst_loop_without_return [] g.tree.root (Disjoint_sets.init g.N) 0 []).1.1 ∧
      (mst_loop_without_return [] g.tree.root (Disjoint_sets.init g.N) 0 []).1.1 =
        (unite (Disjoint_sets.init g.N) g.tree.root.inorder).get_weight ∧
      (mst_loop_without_return [] g.tree.root (Disjoint_sets.init g.N) 0 []).1.2 =
        (g.tree.root.inorder.length : Int) ∧
      (mst_loop_without_return [] g.tree.root (Disjoint_sets.init g.N) 0
          []).2.filterMap Binary_search_node.retrieve = g.tree.root.inorder ∧
      g.tree.root.inorder.Pairwise (fun a b => a.weight ≤ b.weight) ∧
      ∀ k, k ≤ g.tree.root.inorder.length →
        (unite (Disjoint_sets.init g.N) (g.tree.root.inorder.take k)).disjoint_sets = 1 →
        ∀ e ∈ g.tree.root.inorder,
          (unite (Disjoint_sets.init g.N) (g.tree.root.inorder.take k)).set_union
              e.v1 e.v2 e.weight =
            unite (Disjoint_sets.init g.N) (g.tree.root.inorder.take k) := by
  have hinv := reachable_inv tie g h
  have hr := in_range_inorder g hinv
  have hloop := mst_loop_without_return_eq [] g.tree.root (Disjoint_sets.init g.N) 0 []
  simp only [pending, pending_nodes, List.append_nil, List.nil_append] at hloop
  rw [hloop]
  refine ⟨?_, rfl, ?_, Binary_search_node.retrieve_inorder_nodes _, hinv.sorted, ?_⟩
  · rw [minimum_spanning_tree_eq_scan,
      scan_fst g.N _ [] _ 0 (represents_init g.N) (counted_init g.N) hr]
    rfl
  · simp
  · intro k _ hone e he
    have hrep := represents_unite (g.tree.root.inorder.take k) [] _ (represents_init g.N)
    have hc := counted_unite g.N (g.tree.root.inorder.take k) _ (counted_init g.N)
      (in_range_take hr k)
    have hre : In_range g.N [e] := by
      intro x hx
      rw [List.mem_singleton.1 hx]
      exact hr e he
    exact unite_of_one g.N [e] _ _ hrep hc hone hre

theorem early_return_keeps_weight_witness :
    Reachable tie_right (scenario_A 0) ∧
      ((minimum_spanning_tree (scenario_A 0)).1 =
          (mst_loop_without_return [] (scenario_A 0).tree.root (Disjoint_sets.init (scenario_A 0).N) 0 []).1.1 ∧
        (mst_loop_without_return [] (scenario_A 0).tree.root (Disjoint_sets.init (scenario_A 0).N) 0 []).1.1 =
          (unite (Disjoint_sets.init (scenario_A 0).N) (scenario_A 0).tree.root.inorder).get_weight ∧
        (mst_loop_without_return [] (scenario_A 0).tree.root (Disjoint_sets.init (scenario_A 0).N) 0 []).1.2 =
          ((scenario_A 0).tree.root.inorder.length : Int) ∧
        (mst_loop_without_return [] (scenario_A 0).tree.root (Disjoint_sets.init (scenario_A 0).N) 0
            []).2.filterMap Binary_search_node.retrieve = (scenario_A 0).tree.root.inorder ∧
        (scenario_A 0).tree.root.inorder.Pairwise (fun a b => a.weight ≤ b.weight) ∧
        ∀ k, k ≤ (scenario_A 0).tree.root.inorder.length →
          (unite (Disjoint_sets.init (scenario_A 0).N) ((scenario_A 0).tree.root.inorder.take k)).disjoint_sets = 1 →
          ∀ e ∈ (scenario_A 0).tree.root.inorder,
            (unite (Disjoint_sets.init (scenario_A 0).N) ((scenario_A 0).tree.root.inorder.take k)).set_union
                e.v1 e.v2 e.weight =
              unite (Disjoint_sets.init (scenario_A 0).N) ((scenario_A 0).tree.root.inorder.take k)) :=
  ⟨reachable_scenario_A 0,
    early_return_keeps_weight tie_right (scenario_A 0) (reachable_scenario_A 0)⟩

end Weighted_graph

namespace Weighted_graph

/-! ## The degrees and the edge counter -/

/-- C33 (the code departs from it): a graph of four vertices with the edges (0,1,1) and
(1,2,2), constructed where the storage of `edge_counter` held 7. The degrees are 1, 2, 1
and 0, each at most `N - 1 = 3`, and their sum is 4, twice the number of stored edges;
but `edge_count()` returns 9, so the sum is not `2 * edge_count()` and `edge_count()`
is above `N (N - 1) / 2 = 6`. -/
theorem degree_sum_differs_from_twice_edge_count :
    Reachable tie_right (isolated_graph 7) ∧ (isolated_graph 7).N = 4 ∧
      degree (isolated_graph 7) 0 = .ok 1 ∧ degree (isolated_graph 7) 1 = .ok 2 ∧
      degree (isolated_graph 7) 2 = .ok 1 ∧ degree (isolated_graph 7) 3 = .ok 0 ∧
      degree_sum (isolated_graph 7) = 4 ∧
      (isolated_graph 7).tree.root.inorder.length = 2 ∧
      (isolated_graph 7).edge_count = 9 ∧
      degree_sum (isolated_graph 7) ≠ 2 * (isolated_graph 7).edge_count ∧
      ¬ (isolated_graph 7).edge_count ≤
        ((isolated_graph 7).N : Int) * (((isolated_graph 7).N : Int) - 1) / 2 := by
  have hsum : degree_sum (isolated_graph 7) = 4 := rfl
  have hcount : (isolated_graph 7).edge_count = 9 := by decide
  have hN : (isolated_graph 7).N = 4 := rfl
  refine ⟨reachable_isolated_graph 7, hN, rfl, rfl, rfl, rfl, hsum, rfl, hcount, ?_, ?_⟩
  · rw [hsum, hcount]
    decide
  · rw [hcount, hN]
    decide

end Weighted_graph

namespace Weighted_graph

theorem filter_range_cast_length (n : Nat) (p : Int → Prop) [DecidablePred p] :
    (((List.range n).map (fun j : Nat => (j : Int))).filter (fun j => decide (p j))).length =
      ((Finset.range n).filter (fun j : Nat => p (j : Int))).card := by
  rw [List.filter_map, List.length_map]
  rfl

theorem degree_eq_card (g : Weighted_graph) (v : Nat) (hv : v < g.N) :
    degree g (v : Int) = .ok (((Finset.range g.N).filter
      (fun j : Nat => g.edges (v : Int) (j : Int) ≠ none ∨
        g.edges (j : Int) (v : Int) ≠ none)).card : Int) := by
  rw [degree_eq_filter g (v : Int) (Int.natCast_nonneg v) (by exact_mod_cast hv)]
  rw [filter_range_cast_length g.N
    (fun j : Int => g.edges (v : Int) j ≠ none ∨ g.edges j (v : Int) ≠ none)]

theorem sum_map_range (n : Nat) (f : Nat → Int) :
    ((List.range n).map f).sum = ∑ v in Finset.range n, f v := by
  induction n with
  | zero => rfl
  | succ n ih =>
    rw [List.range_succ, List.map_append, List.sum_append, ih, Finset.sum_range_succ]
    simp

theorem degree_sum_eq_card (g : Weighted_graph) :
    degree_sum g = (((Finset.range g.N ×ˢ Finset.range g.N).filter
      (fun p : Nat × Nat => g.edges (p.1 : Int) (p.2 : Int) ≠ none ∨
        g.edges (p.2 : Int) (p.1 : Int) ≠ none)).card : Int) := by
  unfold degree_sum
  rw [sum_map_range, Finset.card_filter, Finset.sum_product]
  push_cast
  apply Finset.sum_congr rfl
  intro v hv
  rw [degree_eq_card g v (Finset.mem_range.1 hv), Finset.card_filter]
  push_cast
  rfl

end Weighted_graph

namespace Weighted_graph

theorem slot_ne_none (g : Weighted_graph) (h : Inv g) (a b : Nat)
    (hab : g.edges (a : Int) (b : Int) ≠ none) : a < b ∧ b < g.N := by
  obtain ⟨e, he⟩ := Option.ne_none_iff_exists'.1 hab
  obtain ⟨_, _, _, h4, h5, _⟩ := h.slot _ _ e he
  exact ⟨by exact_mod_cast h4, by exact_mod_cast h5⟩

theorem mem_stored_pairs (g : Weighted_graph) (h : Inv g) (a b : Nat) :
    (a, b) ∈ g.tree.root.inorder.toFinset.image
        (fun e : Edge => (e.v1.toNat, e.v2.toNat)) ↔
      g.edges (a : Int) (b : Int) ≠ none := by
  simp only [Finset.mem_image, List.mem_toFinset, Prod.mk.injEq]
  constructor
  · rintro ⟨e, he, h1, h2⟩
    have hs := (h.mem_tree e).1 he
    obtain ⟨_, _, h0, hlt, _, _⟩ := h.slot _ _ e hs
    have e1 : e.v1 = (a : Int) := by omega
    have e2 : e.v2 = (b : Int) := by omega
    rw [← e1, ← e2, hs]
    exact Option.some_ne_none e
  · intro hab
    obtain ⟨e, he⟩ := Option.ne_none_iff_exists'.1 hab
    obtain ⟨h1, h2, _⟩ := h.slot _ _ e he
    refine ⟨e, (h.mem_tree e).2 (by rw [h1, h2]; exact he), ?_, ?_⟩
    · rw [h1]; exact Int.toNat_natCast a
    · rw [h2]; exact Int.toNat_natCast b

theorem card_stored_pairs (g : Weighted_graph) (h : Inv g) :
    (g.tree.root.inorder.toFinset.image
      (fun e : Edge => (e.v1.toNat, e.v2.toNat))).card = g.tree.root.inorder.length := by
  rw [Finset.card_image_of_injOn, List.toFinset_card_of_nodup h.nodup]
  intro e he e1 he1 heq
  have hs := (h.mem_tree e).1 (List.mem_toFinset.1 he)
  have hs1 := (h.mem_tree e1).1 (List.mem_toFinset.1 he1)
  obtain ⟨_, _, h0, hlt, _, _⟩ := h.slot _ _ e hs
  obtain ⟨_, _, h0', hlt', _, _⟩ := h.slot _ _ e1 hs1
  simp only [Prod.mk.injEq] at heq
  have e1' : e.v1 = e1.v1 := by omega
  have e2' : e.v2 = e1.v2 := by omega
  rw [e1', e2', hs1] at hs
  exact (Option.some.inj hs).symm

theorem adjacent_pairs_eq (g : Weighted_graph) (h : Inv g) :
    (Finset.range g.N ×ˢ Finset.range g.N).filter
        (fun p : Nat × Nat => g.edges (p.1 : Int) (p.2 : Int) ≠ none ∨
          g.edges (p.2 : Int) (p.1 : Int) ≠ none) =
      g.tree.root.inorder.toFinset.image (fun e : Edge => (e.v1.toNat, e.v2.toNat)) ∪
        (g.tree.root.inorder.toFinset.image
          (fun e : Edge => (e.v1.toNat, e.v2.toNat))).image Prod.swap := by
  ext ⟨a, b⟩
  simp only [Finset.mem_filter, Finset.mem_product, Finset.mem_range, Finset.mem_union]
  have hswap : (a, b) ∈ (g.tree.root.inorder.toFinset.image
      (fun e : Edge => (e.v1.toNat, e.v2.toNat))).image Prod.swap ↔
      g.edges (b : Int) (a : Int) ≠ none := by
    rw [← mem_stored_pairs g h b a]
    simp only [Finset.mem_image, Prod.exists, Prod.swap_prod_mk, Prod.mk.injEq]
    constructor
    · rintro ⟨x, y, hxy, rfl, rfl⟩
      exact hxy
    · intro hba
      exact ⟨b, a, hba, rfl, rfl⟩
  rw [hswap, mem_stored_pairs g h a b]
  constructor
  · exact fun hp => hp.2
  · intro hp
    refine ⟨?_, hp⟩
    rcases hp with hp | hp
    · have := slot_ne_none g h a b hp
      omega
    · have := slot_ne_none g h b a hp
      omega

theorem card_adjacent_pairs (g : Weighted_graph) (h : Inv g) :
    ((Finset.range g.N ×ˢ Finset.range g.N).filter
        (fun p : Nat × Nat => g.edges (p.1 : Int) (p.2 : Int) ≠ none ∨
          g.edges (p.2 : Int) (p.1 : Int) ≠ none)).card =
      2 * g.tree.root.inorder.length := by
  rw [adjacent_pairs_eq g h, Finset.card_union_of_disjoint,
    Finset.card_image_of_injective _ Prod.swap_injective, card_stored_pairs g h]
  · ring
  · rw [Finset.disjoint_left]
    rintro ⟨a, b⟩ h1 h2
    obtain ⟨⟨x, y⟩, hxy, hsw⟩ := Finset.mem_image.1 h2
    simp only [Prod.swap_prod_mk, Prod.mk.injEq] at hsw
    obtain ⟨rfl, rfl⟩ := hsw
    have ha := slot_ne_none g h _ _ ((mem_stored_pairs g h _ _).1 h1)
    have hb := slot_ne_none g h _ _ ((mem_stored_pairs g h _ _).1 hxy)
    omega

/-- On a graph that satisfies the state invariant, the degrees sum to twice the number
of stored edges, each degree is at most `N - 1`, and the number of stored edges is at
most `N (N - 1) / 2`. -/
theorem degree_sum_eq_twice_stored_edges (g : Weighted_graph) (h : Inv g) :
    degree_sum g = 2 * (g.tree.root.inorder.length : Int) ∧
      (∀ v : Nat, v < g.N → ∃ d : Int, degree g (v : Int) = .ok d ∧ d ≤ (g.N : Int) - 1) ∧
      (g.tree.root.inorder.length : Int) ≤ (g.N : Int) * ((g.N : Int) - 1) / 2 := by
  refine ⟨?_, ?_, ?_⟩
  · rw [degree_sum_eq_card, card_adjacent_pairs g h]
    push_cast
    rfl
  · intro v hv
    refine ⟨_, degree_eq_card g v hv, ?_⟩
    have hsub : (Finset.range g.N).filter
        (fun j : Nat => g.edges (v : Int) (j : Int) ≠ none ∨
          g.edges (j : Int) (v : Int) ≠ none) ⊆ (Finset.range g.N).erase v := by
      intro j hj
      obtain ⟨hj1, hj2⟩ := Finset.mem_filter.1 hj
      refine Finset.mem_erase.2 ⟨?_, hj1⟩
      rintro rfl
      rcases hj2 with hj2 | hj2
      · have := slot_ne_none g h _ _ hj2
        omega
      · have := slot_ne_none g h _ _ hj2
        omega
    have hle := Finset.card_le_card hsub
    rw [Finset.card_erase_of_mem (Finset.mem_range.2 hv), Finset.card_range] at hle
    have : ((g.N - 1 : Nat) : Int) = (g.N : Int) - 1 := by omega
    rw [← this]
    exact_mod_cast hle
  · have hsub : (Finset.range g.N ×ˢ Finset.range g.N).filter
        (fun p : Nat × Nat => g.edges (p.1 : Int) (p.2 : Int) ≠ none ∨
          g.edges (p.2 : Int) (p.1 : Int) ≠ none) ⊆ (Finset.range g.N).offDiag := by
      intro p hp
      obtain ⟨hp1, hp2⟩ := Finset.mem_filter.1 hp
      obtain ⟨ha, hb⟩ := Finset.mem_product.1 hp1
      refine Finset.mem_offDiag.2 ⟨ha, hb, ?_⟩
      intro heq
      rcases hp2 with hp2 | hp2
      · have := slot_ne_none g h _ _ hp2
        omega
      · have := slot_ne_none g h _ _ hp2
        omega
    have hle := Finset.card_le_card hsub
    rw [card_adjacent_pairs g h, Finset.offDiag_card, Finset.card_range] at hle
    rw [Int.le_ediv_iff_mul_le (by norm_num)]
    have hN : g.N * g.N - g.N = g.N * (g.N - 1) := by
      rw [Nat.mul_sub, Nat.mul_one]
    rw [hN] at hle
    have hcast : ((g.N * (g.N - 1) : Nat) : Int) = (g.N : Int) * ((g.N : Int) - 1) := by
      rcases Nat.eq_zero_or_pos g.N with h0 | hpos
      · rw [h0]; rfl
      · push_cast
        rw [Nat.cast_sub hpos]
        rfl
    rw [← hcast]
    have : (g.tree.root.inorder.length : Int) * 2 =
        ((2 * g.tree.root.inorder.length : Nat) : Int) := by
      push_cast
      ring
    rw [this]
    exact_mod_cast hle

end Weighted_graph

namespace Ieee
namespace Weighted_graph

/-! ## NaN weights -/

/-- C6 (the code departs from it): with weights as doubles, on a new graph of two
vertices `insert_edge(0, 1, NaN)` does not throw, because the test `d < 0` of line 225
is false on NaN; it returns `true` and stores the edge. In the state after the call
the slot `(0, 1)` holds an edge whose weight is NaN, and `weight >= 0` is false for
it. -/
theorem nan_weight_edge_is_stored (tie : Edge → Edge → Bool) (c0 : Int) :
    Double.lt Double.nan (Double.num 0) = false ∧
      insert_edge tie (construct 2 c0) 0 1 Double.nan =
        .ok (true, store_edge tie (construct 2 c0) 0 1 Double.nan) ∧
      Reachable tie ((construct 2 c0).after tie (Call.insert_edge 0 1 Double.nan)) ∧
      ((construct 2 c0).after tie (Call.insert_edge 0 1 Double.nan)).edges 0 1 =
        some ⟨0, 1, Double.nan⟩ ∧
      ((construct 2 c0).after tie (Call.insert_edge 0 1 Double.nan)).tree.root.inorder =
        [⟨0, 1, Double.nan⟩] ∧
      (∀ e, ((construct 2 c0).after tie (Call.insert_edge 0 1 Double.nan)).edges 0 1 =
          some e → Double.ge e.weight (Double.num 0) = false) := by
  refine ⟨rfl, rfl, Reachable.step _ _ (Reachable.construct 2 c0), rfl, rfl, ?_⟩
  intro e he
  have h1 : ((construct 2 c0).after tie (Call.insert_edge 0 1 Double.nan)).edges 0 1 =
      some ⟨0, 1, Double.nan⟩ := rfl
  rw [h1] at he
  rw [← Option.some.inj he]
  rfl

end Weighted_graph
end Ieee

namespace Ieee

/-! ## Agreement of the two embeddings on weights that are numbers -/

theorem of_edge_injective : Function.Injective of_edge := by
  intro a b h
  cases a
  cases b
  simp only [of_edge, Edge.mk.injEq, Double.num.injEq] at h
  obtain ⟨h1, h2, h3⟩ := h
  subst h1 h2 h3
  rfl

theorem of_node_insert (tie : Data_structures.Edge → Data_structures.Edge → Bool)
    (tie1 : Edge → Edge → Bool) (htie : ∀ e x, tie1 (of_edge e) (of_edge x) = tie e x)
    (e : Data_structures.Edge) (t : Data_structures.Binary_search_node) :
    of_node (t.insert tie e) = (of_node t).insert tie1 (of_edge e) := by
  induction t with
  | nil => rfl
  | node l x r ihl ihr =>
    have hlt : (of_edge e).lt (of_edge x) = e.lt x := rfl
    have hgt : (of_edge e).gt (of_edge x) = e.gt x := rfl
    simp only [Data_structures.Binary_search_node.insert, of_node, Binary_search_node.insert,
      hlt, hgt, htie]
    split_ifs <;> simp only [of_node, ihl, ihr]

theorem of_node_front (t : Data_structures.Binary_search_node) (x : Data_structures.Edge) :
    of_edge (t.front x) = (of_node t).front (of_edge x) := by
  induction t generalizing x with
  | nil => rfl
  | node l y r ihl _ =>
    simp only [Data_structures.Binary_search_node.front, of_node, Binary_search_node.front]
    exact ihl y

theorem of_node_erase_front (t : Data_structures.Binary_search_node) :
    of_node t.erase_front = (of_node t).erase_front := by
  induction t with
  | nil => rfl
  | node l y r ihl _ =>
    cases l with
    | nil => rfl
    | node ll lx lr =>
      simp only [Data_structures.Binary_search_node.erase_front, of_node,
        Binary_search_node.erase_front] at ihl ⊢
      rw [ihl]

theorem of_node_join (l r : Data_structures.Binary_search_node) :
    of_node (l.join r) = (of_node l).join (of_node r) := by
  cases l with
  | nil =>
    cases r <;> rfl
  | node ll lx lr =>
    cases r with
    | nil => rfl
    | node rl rx rr =>
      simp only [Data_structures.Binary_search_node.join, of_node, Binary_search_node.join]
      rw [of_node_front, of_node_erase_front]
      rfl

theorem of_node_erase (e : Data_structures.Edge) (t : Data_structures.Binary_search_node) :
    of_node (t.erase e) = (of_node t).erase (of_edge e) := by
  induction t with
  | nil => rfl
  | node l x r ihl ihr =>
    simp only [Data_structures.Binary_search_node.erase, of_node, Binary_search_node.erase]
    by_cases hx : x = e
    · rw [if_pos hx, if_pos (by rw [hx]), of_node_join]
    · rw [if_neg hx, if_neg (fun h => hx (of_edge_injective h))]
      simp only [of_node, ihl, ihr]

end Ieee

namespace Ieee
namespace Weighted_graph

theorem of_graph_remove_edge (g : Data_structures.Weighted_graph) (i j : Int)
    (e : Data_structures.Edge) :
    of_graph (g.remove_edge i j e) = remove_edge (of_graph g) i j (of_edge e) := by
  simp only [of_graph, remove_edge, Data_structures.Weighted_graph.remove_edge,
    Data_structures.Binary_search_tree.erase, Binary_search_tree.erase, of_node_erase,
    Weighted_graph.mk.injEq, true_and, and_true]
  funext a b
  split_ifs <;> rfl

theorem of_graph_store_edge (tie : Data_structures.Edge → Data_structures.Edge → Bool)
    (tie1 : Edge → Edge → Bool) (htie : ∀ e x, tie1 (of_edge e) (of_edge x) = tie e x)
    (g : Data_structures.Weighted_graph) (i j : Int) (d : ℚ) :
    of_graph (g.store_edge tie i j d) = store_edge tie1 (of_graph g) i j (Double.num d) := by
  simp only [of_graph, store_edge, Data_structures.Weighted_graph.store_edge,
    Data_structures.Binary_search_tree.insert, Binary_search_tree.insert,
    of_node_insert tie tie1 htie, Weighted_graph.mk.injEq, true_and]
  refine ⟨?_, rfl⟩
  funext a b
  split_ifs <;> rfl

theorem of_graph_clear_edges (g : Data_structures.Weighted_graph) :
    of_graph g.clear_edges = clear_edges (of_graph g) := by
  simp only [of_graph, clear_edges, Data_structures.Weighted_graph.clear_edges,
    Weighted_graph.mk.injEq, true_and]
  refine ⟨?_, rfl⟩
  funext a b
  split_ifs <;> rfl

theorem of_graph_erase_edge (g : Data_structures.Weighted_graph) (i j : Int) :
    erase_edge (of_graph g) i j =
      match Data_structures.Weighted_graph.erase_edge g i j with
      | .ok (b, g1) => .ok (b, of_graph g1)
      | .error ex => .error ex := by
  unfold erase_edge Data_structures.Weighted_graph.erase_edge
  have hN : (of_graph g).N = g.N := rfl
  rw [hN]
  by_cases hr : i < 0 ∨ i > (g.N : Int) - 1 ∨ j < 0 ∨ j > (g.N : Int) - 1
  · rw [if_pos hr, if_pos hr]
  · rw [if_neg hr, if_neg hr]
    by_cases hgt : i > j
    · simp only [if_pos hgt]
      have he : (of_graph g).edges j i = (g.edges j i).map of_edge := rfl
      rw [he]
      cases g.edges j i with
      | none => rfl
      | some e => simp only [Option.map_some', of_graph_remove_edge]
    · simp only [if_neg hgt]
      have he : (of_graph g).edges i j = (g.edges i j).map of_edge := rfl
      rw [he]
      cases g.edges i j with
      | none => rfl
      | some e => simp only [Option.map_some', of_graph_remove_edge]

theorem lt_zero_num (d : ℚ) : (Double.lt (Double.num d) (Double.num 0) = true) ↔ d < 0 := by
  simp [Double.lt]

theorem eq_num (a b : ℚ) : (Double.eq (Double.num a) (Double.num b) = true) ↔ a = b := by
  simp [Double.eq]

theorem of_graph_insert_edge (tie : Data_structures.Edge → Data_structures.Edge → Bool)
    (tie1 : Edge → Edge → Bool) (htie : ∀ e x, tie1 (of_edge e) (of_edge x) = tie e x)
    (g : Data_structures.Weighted_graph) (i j : Int) (d : ℚ) :
    insert_edge tie1 (of_graph g) i j (Double.num d) =
      match Data_structures.Weighted_graph.insert_edge tie g i j d with
      | .ok (b, g1) => .ok (b, of_graph g1)
      | .error ex => .error ex := by
  unfold insert_edge Data_structures.Weighted_graph.insert_edge
  have hN : (of_graph g).N = g.N := rfl
  rw [hN]
  simp only [lt_zero_num]
  by_cases hr : i < 0 ∨ i > (g.N : Int) - 1 ∨ j < 0 ∨ j > (g.N : Int) - 1 ∨ d < 0
  · rw [if_pos hr, if_pos hr]
  · rw [if_neg hr, if_neg hr]
    by_cases hij : i = j
    · rw [if_pos hij, if_pos hij]
    · rw [if_neg hij, if_neg hij]
      have key : ∀ a b : Int,
          (match (of_graph g).edges a b with
            | some e0 =>
              if Double.eq e0.weight (Double.num d) = true then
                (Except.ok (true, of_graph g) : Except Exception (Bool × Weighted_graph))
              else
                match erase_edge (of_graph g) a b with
                | .error ex => .error ex
                | .ok (_, g1) => .ok (true, store_edge tie1 g1 a b (Double.num d))
            | none => .ok (true, store_edge tie1 (of_graph g) a b (Double.num d))) =
          match (match g.edges a b with
            | some e0 =>
              if e0.weight = d then
                (Except.ok (true, g) :
                  Except Exception (Bool × Data_structures.Weighted_graph))
              else
                match Data_structures.Weighted_graph.erase_edge g a b with
                | .error ex => .error ex
                | .ok (_, g1) =>
                  .ok (true, Data_structures.Weighted_graph.store_edge tie g1 a b d)
            | none => .ok (true, Data_structures.Weighted_graph.store_edge tie g a b d)) with
          | .ok (b1, g1) => .ok (b1, of_graph g1)
          | .error ex => .error ex := by
        intro a b
        have he : (of_graph g).edges a b = (g.edges a b).map of_edge := rfl
        rw [he]
        cases hab : g.edges a b with
        | none =>
          simp only [Option.map_none', of_graph_store_edge tie tie1 htie]
        | some e0 =>
          simp only [Option.map_some']
          have hw : (of_edge e0).weight = Double.num e0.weight := rfl
          rw [hw]
          simp only [eq_num]
          by_cases hwd : e0.weight = d
          · rw [if_pos hwd, if_pos hwd]
          · rw [if_neg hwd, if_neg hwd, of_graph_erase_edge]
            cases Data_structures.Weighted_graph.erase_edge g a b with
            | error ex => rfl
            | ok r =>
              obtain ⟨b1, g1⟩ := r
              simp only [of_graph_store_edge tie tie1 htie]
      by_cases hgt : i > j
      · simp only [if_pos hgt]
        exact key j i
      · simp only [if_neg hgt]
        exact key i j

theorem of_graph_after (tie : Data_structures.Edge → Data_structures.Edge → Bool)
    (tie1 : Edge → Edge → Bool) (htie : ∀ e x, tie1 (of_edge e) (of_edge x) = tie e x)
    (g : Data_structures.Weighted_graph) (c : Data_structures.Call) :
    of_graph (g.after tie c) = (of_graph g).after tie1 (of_call c) := by
  cases c with
  | insert_edge i j d =>
    simp only [Data_structures.Weighted_graph.after, after, of_call,
      of_graph_insert_edge tie tie1 htie]
    cases Data_structures.Weighted_graph.insert_edge tie g i j d with
    | error ex => rfl
    | ok r => rfl
  | erase_edge i j =>
    simp only [Data_structures.Weighted_graph.after, after, of_call, of_graph_erase_edge]
    cases Data_structures.Weighted_graph.erase_edge g i j with
    | error ex => rfl
    | ok r => rfl
  | clear_edges =>
    simp only [Data_structures.Weighted_graph.after, after, of_call, of_graph_clear_edges]

/-- The two embeddings agree on weights that are numbers: a state reachable with
number weights is, as a graph with double weights, reachable by the same calls. -/
theorem reachable_of_graph (tie : Data_structures.Edge → Data_structures.Edge → Bool)
    (tie1 : Edge → Edge → Bool) (htie : ∀ e x, tie1 (of_edge e) (of_edge x) = tie e x)
    (g : Data_structures.Weighted_graph)
    (h : Data_structures.Weighted_graph.Reachable tie g) : Reachable tie1 (of_graph g) := by
  induction h with
  | construct n c0 => exact Reachable.construct n c0
  | step g c _ ih =>
    rw [of_graph_after tie tie1 htie]
    exact Reachable.step _ _ ih

end Weighted_graph
end Ieee

namespace Ieee
namespace Weighted_graph

/-- With weights as doubles, in every reachable state a stored edge sits in a slot
`(i, j)` with `0 <= i < j < N`, records `v1 = i` and `v2 = j`, and its weight is not
below zero: it is a number that is not negative, plus infinity, or NaN. -/
theorem stored_edges_not_below_zero (tie : Edge → Edge → Bool) (g : Weighted_graph)
    (h : Reachable tie g) :
    ∀ i j e, g.edges i j = some e →
      e.v1 = i ∧ e.v2 = j ∧ 0 ≤ i ∧ i < j ∧ j < (g.N : Int) ∧
        Double.lt e.weight (Double.num 0) = false := by
  induction h with
  | construct n c0 =>
    intro i j e he
    exact Option.noConfusion he
  | step g c _ ih =>
    have hremove : ∀ (g1 : Weighted_graph) (a b : Int) (e1 : Edge),
        (∀ i j e, g1.edges i j = some e →
          e.v1 = i ∧ e.v2 = j ∧ 0 ≤ i ∧ i < j ∧ j < (g1.N : Int) ∧
            Double.lt e.weight (Double.num 0) = false) →
        ∀ i j e, (remove_edge g1 a b e1).edges i j = some e →
          e.v1 = i ∧ e.v2 = j ∧ 0 ≤ i ∧ i < j ∧ j < ((remove_edge g1 a b e1).N : Int) ∧
            Double.lt e.weight (Double.num 0) = false := by
      intro g1 a b e1 h1 i j e he
      simp only [remove_edge] at he ⊢
      split_ifs at he
      exact h1 i j e he
    have hstore : ∀ (g1 : Weighted_graph) (a b : Int) (d : Double),
        0 ≤ a → a < b → b < (g1.N : Int) → Double.lt d (Double.num 0) = false →
        (∀ i j e, g1.edges i j = some e →
          e.v1 = i ∧ e.v2 = j ∧ 0 ≤ i ∧ i < j ∧ j < (g1.N : Int) ∧
            Double.lt e.weight (Double.num 0) = false) →
        ∀ i j e, (store_edge tie g1 a b d).edges i j = some e →
          e.v1 = i ∧ e.v2 = j ∧ 0 ≤ i ∧ i < j ∧ j < ((store_edge tie g1 a b d).N : Int) ∧
            Double.lt e.weight (Double.num 0) = false := by
      intro g1 a b d ha hab hb hd h1 i j e he
      simp only [store_edge] at he ⊢
      split_ifs at he with hij
      · obtain ⟨rfl, rfl⟩ := hij
        rw [← Option.some.inj he]
        exact ⟨rfl, rfl, ha, hab, hb, hd⟩
      · exact h1 i j e he
    have herase : ∀ (a b : Int) (r : Bool × Weighted_graph),
        erase_edge g a b = .ok r →
        (∀ i j e, r.2.edges i j = some e →
          e.v1 = i ∧ e.v2 = j ∧ 0 ≤ i ∧ i < j ∧ j < (r.2.N : Int) ∧
            Double.lt e.weight (Double.num 0) = false) ∧ r.2.N = g.N := by
      intro a b r hr
      unfold erase_edge at hr
      split_ifs at hr with hrange hgt
      · simp only at hr
        split at hr
        · cases hr
          exact ⟨ih, rfl⟩
        · cases hr
          exact ⟨hremove g _ _ _ ih, rfl⟩
      · simp only at hr
        split at hr
        · cases hr
          exact ⟨ih, rfl⟩
        · cases hr
          exact ⟨hremove g _ _ _ ih, rfl⟩
    cases c with
    | clear_edges =>
      intro i j e he
      simp only [after, clear_edges] at he ⊢
      split_ifs at he
      exact ih i j e he
    | erase_edge a b =>
      simp only [after]
      cases hr : erase_edge g a b with
      | error ex => exact ih
      | ok r =>
        obtain ⟨b1, g1⟩ := r
        exact (herase a b _ hr).1
    | insert_edge a b d =>
      simp only [after]
      cases hr : insert_edge tie g a b d with
      | error ex => exact ih
      | ok r =>
        obtain ⟨b1, g1⟩ := r
        show ∀ i j e, g1.edges i j = some e → _
        unfold insert_edge at hr
        split_ifs at hr with hrange hab hgt
        · cases hr
          exact ih
        · simp only [not_or, not_lt, gt_iff_lt, Bool.not_eq_true] at hrange
          obtain ⟨ha0, ha1, hb0, hb1, hd⟩ := hrange
          simp only at hr
          split at hr
          · split_ifs at hr
            · cases hr
              exact ih
            · cases he : erase_edge g b a with
              | error ex =>
                rw [he] at hr
                cases hr
              | ok r2 =>
                obtain ⟨b2, g2⟩ := r2
                rw [he] at hr
                cases hr
                obtain ⟨h2, hN⟩ := herase b a _ he
                exact hstore g2 b a d hb0 hgt (by rw [hN]; omega) hd h2
          · cases hr
            exact hstore g b a d hb0 hgt (by omega) hd ih
        · simp only [not_or, not_lt, gt_iff_lt, Bool.not_eq_true] at hrange
          obtain ⟨ha0, ha1, hb0, hb1, hd⟩ := hrange
          have hlt : a < b := by omega
          simp only at hr
          split at hr
          · split_ifs at hr
            · cases hr
              exact ih
            · cases he : erase_edge g a b with
              | error ex =>
                rw [he] at hr
                cases hr
              | ok r2 =>
                obtain ⟨b2, g2⟩ := r2
                rw [he] at hr
                cases hr
                obtain ⟨h2, hN⟩ := herase a b _ he
                exact hstore g2 a b d ha0 hlt (by rw [hN]; omega) hd h2
          · cases hr
            exact hstore g a b d ha0 hlt (by omega) hd ih

end Weighted_graph
end Ieee

end Data_structures
